import Mathlib

/-!
# Cache models of `cacheModel.cpp` (ARCH 实验3)

A shallow embedding of the three cache organisations of the simulator
(`FullAssoCache`, `DirectMapCache`, `SetAssoCache`) together with the shared
request accounting of their base class `CacheModel`.

Conventions of the embedding.

* `UINT32` / `UINT64` values are natural numbers (`Nat`); arithmetic that can wrap in
  the source carries an explicit `% 2 ^ 32` or `% 2 ^ 64`.
* The heap arrays `m_valids`, `m_tags`, `m_replace_q` are lists of length
  `m_block_num`.  A read outside the array (undefined behaviour in the source)
  yields the default `0` / `false`, a write outside the array is dropped.
* `new UINT32[m_block_num]` leaves `m_tags` uninitialised: the constructor takes
  the indeterminate initial contents as the parameter `uninit`.
* `bool lookup(UINT32 mem_addr, UINT32& blk_id)` becomes a function into
  `Option UINT32`: `some blk_id` when the source returns `true` (having stored
  `blk_id`), `none` when it returns `false`.
* `bool access(UINT32)` mutates the object and returns the hit flag: here it
  returns the pair of the flag and the successor state.
* A right shift by 32 or more (undefined in the source) is the mathematical
  shift; the theorems that depend on shifts assume shift amounts below 32.
* A constructor call has an outcome in `Except ConfigurationError _`
  (`construct`); the constructors of the source have no failure path, so the
  outcome is always `Except.ok`.
* The hit rates printed by `dumpResults` are exact rationals; the rounding of
  `float` is not modelled.
* The functions `accessIdx` list the array subscripts `access` applies, in the
  order of execution.
* `LruRef` is the reference model of least-recently-used replacement, written
  from the words of the specification and compared with `FullAssoCache`.
-/

namespace CacheSim

/-! ## Definitions: the embedded program and the notions used to state its properties -/

/-- The data members of `class CacheModel`. -/
structure CacheModel where
  m_block_num : Nat
  m_blksz_log : Nat
  m_valids : List Bool
  m_tags : List Nat
  m_replace_q : List Nat
  m_rd_reqs : Nat
  m_wr_reqs : Nat
  m_rd_hits : Nat
  m_wr_hits : Nat
deriving DecidableEq, Repr

/-- Constructor `CacheModel::CacheModel(block_num, log_block_size)`: the loop
sets `m_valids[i] = false` and `m_replace_q[i] = i`; `m_tags` keeps whatever
the allocation returned (`uninit i` at index `i`). -/
def CacheModel.new (block_num log_block_size : Nat) (uninit : Nat → Nat) : CacheModel :=
  { m_block_num := block_num
    m_blksz_log := log_block_size
    m_valids := List.replicate block_num false
    m_tags := (List.range block_num).map uninit
    m_replace_q := List.range block_num
    m_rd_reqs := 0
    m_wr_reqs := 0
    m_rd_hits := 0
    m_wr_hits := 0 }

/-- The statement `m_rd_reqs++` on a `UINT64`. -/
def CacheModel.incRdReqs (c : CacheModel) : CacheModel :=
  { c with m_rd_reqs := (c.m_rd_reqs + 1) % 2 ^ 64 }

/-- The statement `m_rd_hits++` on a `UINT64`. -/
def CacheModel.incRdHits (c : CacheModel) : CacheModel :=
  { c with m_rd_hits := (c.m_rd_hits + 1) % 2 ^ 64 }

/-- The statement `m_wr_reqs++` on a `UINT64`. -/
def CacheModel.incWrReqs (c : CacheModel) : CacheModel :=
  { c with m_wr_reqs := (c.m_wr_reqs + 1) % 2 ^ 64 }

/-- The statement `m_wr_hits++` on a `UINT64`. -/
def CacheModel.incWrHits (c : CacheModel) : CacheModel :=
  { c with m_wr_hits := (c.m_wr_hits + 1) % 2 ^ 64 }

namespace FullAssoCache

/-- Constructor `FullAssoCache(block_num, log_block_size)`. -/
def new (block_num log_block_size : Nat) (uninit : Nat → Nat) : CacheModel :=
  CacheModel.new block_num log_block_size uninit

/-- Method `getTag`: `addr >> m_blksz_log`. -/
def getTag (c : CacheModel) (addr : Nat) : Nat :=
  addr >>> c.m_blksz_log

/-- Method `lookup`: the first `i < m_block_num` with
`(m_tags[i] == tag) && m_valids[i]`. -/
def lookup (c : CacheModel) (mem_addr : Nat) : Option Nat :=
  let tag := getTag c mem_addr
  (List.range c.m_block_num).find?
    (fun i => c.m_tags.getD i 0 == tag && c.m_valids.getD i false)

/-- The inner loop of `updateReplaceQ`,
`for (j = ...; j < m_block_num-1; j++) m_replace_q[j] = m_replace_q[j+1];`
with `cnt` iterations left and loop variable `j`. -/
def shiftLoop : Nat → Nat → List Nat → List Nat
  | 0, _, q => q
  | cnt + 1, j, q => shiftLoop cnt (j + 1) (q.set j (q.getD (j + 1) 0))

/-- Method `updateReplaceQ`: at the first `i < m_block_num` with
`m_replace_q[i] == blk_id` the entries behind `i` move one place to the front
and `blk_id` is stored at `m_replace_q[m_block_num-1]`; then `break`.
(The bound `m_block_num-1` is only evaluated inside the outer loop, hence
with `m_block_num >= 1`, where the unsigned subtraction does not wrap.) -/
def updateReplaceQ (c : CacheModel) (blk_id : Nat) : CacheModel :=
  match (List.range c.m_block_num).find? (fun i => c.m_replace_q.getD i 0 == blk_id) with
  | none => c
  | some i =>
    let q := shiftLoop (c.m_block_num - 1 - i) i c.m_replace_q
    { c with m_replace_q := q.set (c.m_block_num - 1) blk_id }

/-- Method `access`. -/
def access (c : CacheModel) (mem_addr : Nat) : Bool × CacheModel :=
  match lookup c mem_addr with
  | some blk_id => (true, updateReplaceQ c blk_id)
  | none =>
    let bid_2be_replaced := c.m_replace_q.getD 0 0
    let c1 := { c with m_tags := c.m_tags.set bid_2be_replaced (getTag c mem_addr) }
    let c2 := { c1 with m_valids := c1.m_valids.set bid_2be_replaced true }
    (false, updateReplaceQ c2 bid_2be_replaced)

/-- Inherited method `CacheModel::readReq` with `access` bound to this class. -/
def readReq (c : CacheModel) (mem_addr : Nat) : CacheModel :=
  let r := access c.incRdReqs mem_addr
  if r.1 then r.2.incRdHits else r.2

/-- Inherited method `CacheModel::writeReq` with `access` bound to this class. -/
def writeReq (c : CacheModel) (mem_addr : Nat) : CacheModel :=
  let r := access c.incWrReqs mem_addr
  if r.1 then r.2.incWrHits else r.2

end FullAssoCache

namespace DirectMapCache

/-- Constructor `DirectMapCache(block_num, log_block_size)`. -/
def new (block_num log_block_size : Nat) (uninit : Nat → Nat) : CacheModel :=
  CacheModel.new block_num log_block_size uninit

/-- Method `getTag`: `addr >> (m_blksz_log + UINT32(log2(m_block_num)))`.
`UINT32(log2(x))` truncates the binary logarithm, which is `Nat.log2` for
`x >= 1` (for `x = 0` the conversion of `-inf` is undefined in the source). -/
def getTag (c : CacheModel) (addr : Nat) : Nat :=
  addr >>> ((c.m_blksz_log + Nat.log2 c.m_block_num) % 2 ^ 32)

/-- Method `getBlk_num`: `(addr >> m_blksz_log) & (m_block_num-1)`, the
subtraction being unsigned 32-bit. -/
def getBlk_num (c : CacheModel) (addr : Nat) : Nat :=
  (addr >>> c.m_blksz_log) &&& ((c.m_block_num + 2 ^ 32 - 1) % 2 ^ 32)

/-- Method `lookup`. -/
def lookup (c : CacheModel) (mem_addr : Nat) : Option Nat :=
  let tag := getTag c mem_addr
  let blk_num := getBlk_num c mem_addr
  if c.m_tags.getD blk_num 0 == tag && c.m_valids.getD blk_num false then some blk_num
  else none

/-- Method `updateReplaceQ`: does nothing. -/
def updateReplaceQ (c : CacheModel) (_blk_id : Nat) : CacheModel := c

/-- Method `access`. -/
def access (c : CacheModel) (mem_addr : Nat) : Bool × CacheModel :=
  match lookup c mem_addr with
  | some blk_id => (true, updateReplaceQ c blk_id)
  | none =>
    let c1 := { c with m_tags := c.m_tags.set (getBlk_num c mem_addr) (getTag c mem_addr) }
    let c2 := { c1 with m_valids := c1.m_valids.set (getBlk_num c1 mem_addr) true }
    (false, updateReplaceQ c2 (getBlk_num c2 mem_addr))

/-- Inherited method `CacheModel::readReq` with `access` bound to this class. -/
def readReq (c : CacheModel) (mem_addr : Nat) : CacheModel :=
  let r := access c.incRdReqs mem_addr
  if r.1 then r.2.incRdHits else r.2

/-- Inherited method `CacheModel::writeReq` with `access` bound to this class. -/
def writeReq (c : CacheModel) (mem_addr : Nat) : CacheModel :=
  let r := access c.incWrReqs mem_addr
  if r.1 then r.2.incWrHits else r.2

end DirectMapCache

/-- The data members of `class SetAssoCache`: those of the base class and its
own `m_sets_log`, `m_blksz_log` (which hides the base member of the same name
inside the class) and `m_ass`. -/
structure SetAssoCache where
  base : CacheModel
  m_sets_log : Nat
  m_blksz_log : Nat
  m_ass : Nat
deriving DecidableEq, Repr

namespace SetAssoCache

/-- Constructor `SetAssoCache(sets_log, log_blk_size, ass)`: the base is built
with `(1<<sets_log)*ass` blocks, an unsigned 32-bit product (the `int` shift
`1<<sets_log` is `2^sets_log` for `sets_log <= 31` once converted to unsigned,
and undefined in the source beyond).  The geometry invariant of the
specification, block count = set count * associativity, holds exactly when
this product does not wrap, that is when `2^sets_log * ass < 2^32`. -/
def new (sets_log log_blk_size ass : Nat) (uninit : Nat → Nat) : SetAssoCache :=
  { base := CacheModel.new (((1 <<< sets_log) * ass) % 2 ^ 32) log_blk_size uninit
    m_sets_log := sets_log
    m_blksz_log := log_blk_size
    m_ass := ass }

/-- Method `getTag`: `addr >> (m_blksz_log + m_sets_log)`. -/
def getTag (c : SetAssoCache) (addr : Nat) : Nat :=
  addr >>> ((c.m_blksz_log + c.m_sets_log) % 2 ^ 32)

/-- Method `getSet_num`: `(addr >> m_blksz_log) & ((1<<m_sets_log)-1)`, the mask
being `2^m_sets_log - 1` converted to unsigned 32 bits. -/
def getSet_num (c : SetAssoCache) (addr : Nat) : Nat :=
  (addr >>> c.m_blksz_log) &&& (((1 <<< c.m_sets_log) - 1) % 2 ^ 32)

/-- The index expression `set_num*m_ass+i` in unsigned 32-bit arithmetic
(`m_ass` is the data member of the cache). -/
def slot (m_ass set_num i : Nat) : Nat :=
  (set_num * m_ass + i) % 2 ^ 32

/-- Method `lookup`: the first `i < m_ass` with
`(m_tags[set_num*m_ass+i] == tag) && m_valids[set_num*m_ass+i]`; the block
identifier handed back is `set_num*m_ass+i`. -/
def lookup (c : SetAssoCache) (mem_addr : Nat) : Option Nat :=
  let tag := getTag c mem_addr
  let set_num := getSet_num c mem_addr
  ((List.range c.m_ass).find?
    (fun i => c.base.m_tags.getD (slot c.m_ass set_num i) 0 == tag
      && c.base.m_valids.getD (slot c.m_ass set_num i) false)).map (slot c.m_ass set_num)

/-- The inner loop of `updateReplaceQ`,
`for (j = ...; j < m_ass-1; j++)
   m_replace_q[set_num*m_ass+j] = m_replace_q[set_num*m_ass+j+1];`
with `cnt` iterations left and loop variable `j`. -/
def shiftLoop (m_ass set_num : Nat) : Nat → Nat → List Nat → List Nat
  | 0, _, q => q
  | cnt + 1, j, q =>
    shiftLoop m_ass set_num cnt (j + 1)
      (q.set (slot m_ass set_num j) (q.getD (slot m_ass set_num (j + 1)) 0))

/-- Method `updateReplaceQ`: with `set_num = blk_id/m_ass`, at the first
`i < m_ass` with `m_replace_q[set_num*m_ass+i] == blk_id` the entries of the
set behind `i` move one place to the front and `blk_id` is stored at
`m_replace_q[set_num*m_ass+m_ass-1]`; then `break`.
(The division by `m_ass = 0` is undefined in the source and `0` here.) -/
def updateReplaceQ (c : SetAssoCache) (blk_id : Nat) : SetAssoCache :=
  let set_num := blk_id / c.m_ass
  match (List.range c.m_ass).find?
      (fun i => c.base.m_replace_q.getD (slot c.m_ass set_num i) 0 == blk_id) with
  | none => c
  | some i =>
    let q := shiftLoop c.m_ass set_num (c.m_ass - 1 - i) i c.base.m_replace_q
    { c with base :=
        { c.base with
          m_replace_q := q.set ((set_num * c.m_ass + c.m_ass + 2 ^ 32 - 1) % 2 ^ 32) blk_id } }

/-- Method `access`. -/
def access (c : SetAssoCache) (mem_addr : Nat) : Bool × SetAssoCache :=
  let tag := getTag c mem_addr
  let set_num := getSet_num c mem_addr
  match lookup c mem_addr with
  | some blk_id => (true, updateReplaceQ c blk_id)
  | none =>
    let bid_2be_replaced := c.base.m_replace_q.getD (slot c.m_ass set_num 0) 0
    let c1 := { c with base := { c.base with m_tags := c.base.m_tags.set bid_2be_replaced tag } }
    let c2 := { c1 with base := { c1.base with m_valids := c1.base.m_valids.set bid_2be_replaced true } }
    (false, updateReplaceQ c2 bid_2be_replaced)

/-- Inherited method `CacheModel::readReq` with `access` bound to this class. -/
def readReq (c : SetAssoCache) (mem_addr : Nat) : SetAssoCache :=
  let r := access { c with base := c.base.incRdReqs } mem_addr
  if r.1 then { r.2 with base := r.2.base.incRdHits } else r.2

/-- Inherited method `CacheModel::writeReq` with `access` bound to this class. -/
def writeReq (c : SetAssoCache) (mem_addr : Nat) : SetAssoCache :=
  let r := access { c with base := c.base.incWrReqs } mem_addr
  if r.1 then { r.2 with base := r.2.base.incWrHits } else r.2

end SetAssoCache

/-- Proof-level form of both shift loops: `q[base+j] = q[base+j+1]`, `cnt` times. -/
def shiftAt (base : Nat) : Nat → Nat → List Nat → List Nat
  | 0, _, q => q
  | cnt + 1, j, q => shiftAt base cnt (j + 1) (q.set (base + j) (q.getD (base + j + 1) 0))

/-- The segment `l[base .. base+w-1]`. -/
def seg (base w : Nat) (l : List α) : List α := (l.drop base).take w

namespace FullAssoCache

/-- State invariant of the fully associative cache: the three arrays have
`m_block_num` entries and the replacement queue is a permutation of the slot
identifiers `0 .. m_block_num-1`. -/
structure WF (c : CacheModel) : Prop where
  valids_len : c.m_valids.length = c.m_block_num
  tags_len : c.m_tags.length = c.m_block_num
  q_perm : c.m_replace_q.Perm (List.range c.m_block_num)

/-- States reachable from the constructor by `readReq` / `writeReq` calls. -/
inductive Reachable (block_num log_block_size : Nat) (uninit : Nat → Nat) :
    CacheModel → Prop
  | ctor : Reachable block_num log_block_size uninit (new block_num log_block_size uninit)
  | readReq (c : CacheModel) (mem_addr : Nat) :
      Reachable block_num log_block_size uninit c →
      Reachable block_num log_block_size uninit (readReq c mem_addr)
  | writeReq (c : CacheModel) (mem_addr : Nat) :
      Reachable block_num log_block_size uninit c →
      Reachable block_num log_block_size uninit (writeReq c mem_addr)

/-- A sequence of `access` calls: the hit flags in order and the final state. -/
def accesses (c : CacheModel) : List Nat → List Bool × CacheModel
  | [] => ([], c)
  | a :: as =>
    let r := access c a
    let rs := accesses r.2 as
    (r.1 :: rs.1, rs.2)

end FullAssoCache

/-- A memory request of the trace: `readReq(mem_addr)` or `writeReq(mem_addr)`. -/
inductive MemReq where
  | read (mem_addr : Nat)
  | write (mem_addr : Nat)
deriving DecidableEq, Repr

namespace DirectMapCache

/-- State invariant of the directly mapped cache: `m_valids` and `m_tags` have
`m_block_num` entries. -/
structure WF (c : CacheModel) : Prop where
  valids_len : c.m_valids.length = c.m_block_num
  tags_len : c.m_tags.length = c.m_block_num

/-- States reachable from the constructor by `readReq` / `writeReq` calls. -/
inductive Reachable (block_num log_block_size : Nat) (uninit : Nat → Nat) :
    CacheModel → Prop
  | ctor : Reachable block_num log_block_size uninit (new block_num log_block_size uninit)
  | readReq (c : CacheModel) (mem_addr : Nat) :
      Reachable block_num log_block_size uninit c →
      Reachable block_num log_block_size uninit (readReq c mem_addr)
  | writeReq (c : CacheModel) (mem_addr : Nat) :
      Reachable block_num log_block_size uninit c →
      Reachable block_num log_block_size uninit (writeReq c mem_addr)

/-- A sequence of `access` calls: the hit flags in order and the final state. -/
def accesses (c : CacheModel) : List Nat → List Bool × CacheModel
  | [] => ([], c)
  | a :: as =>
    let r := access c a
    let rs := accesses r.2 as
    (r.1 :: rs.1, rs.2)

/-- A trace of requests: the hit flag `access` returns inside each
`readReq` / `writeReq`, in order, and the final state. -/
def run (c : CacheModel) : List MemReq → List Bool × CacheModel
  | [] => ([], c)
  | MemReq.read a :: rs =>
    let r := run (readReq c a) rs
    ((access c.incRdReqs a).1 :: r.1, r.2)
  | MemReq.write a :: rs =>
    let r := run (writeReq c a) rs
    ((access c.incWrReqs a).1 :: r.1, r.2)

end DirectMapCache

namespace FullAssoCache

/-- A trace of requests: the hit flag `access` returns inside each
`readReq` / `writeReq`, in order, and the final state. -/
def run (c : CacheModel) : List MemReq → List Bool × CacheModel
  | [] => ([], c)
  | MemReq.read a :: rs =>
    let r := run (readReq c a) rs
    ((access c.incRdReqs a).1 :: r.1, r.2)
  | MemReq.write a :: rs =>
    let r := run (writeReq c a) rs
    ((access c.incWrReqs a).1 :: r.1, r.2)

end FullAssoCache

/-- The relation between a one-block fully associative cache `f` and a
one-block directly mapped cache `d` that is kept along every trace. -/
structure OneBlockRel (f d : CacheModel) : Prop where
  fn : f.m_block_num = 1
  dn : d.m_block_num = 1
  blk : f.m_blksz_log = d.m_blksz_log
  blk_lt : d.m_blksz_log < 2 ^ 32
  fq : f.m_replace_q = [0]
  valids : f.m_valids = d.m_valids
  flen : f.m_tags.length = 1
  dlen : d.m_tags.length = 1
  vlen : d.m_valids.length = 1
  tags : d.m_valids.getD 0 false = true → f.m_tags.getD 0 0 = d.m_tags.getD 0 0
  rd_reqs : f.m_rd_reqs = d.m_rd_reqs
  wr_reqs : f.m_wr_reqs = d.m_wr_reqs
  rd_hits : f.m_rd_hits = d.m_rd_hits
  wr_hits : f.m_wr_hits = d.m_wr_hits

/-- Replacing the window `[base, base+w)` of `q` by the list `B`. -/
def splice (base w : Nat) (B q : List α) : List α := q.take base ++ B ++ q.drop (base + w)

namespace SetAssoCache

/-- State invariant of the set-associative cache: the block count is
`(1<<m_sets_log)*m_ass` without 32-bit wrap-around, there is at least one way,
the three arrays have `m_block_num` entries, and inside every set the
replacement queue is a permutation of the set's own slot identifiers. -/
structure WF (c : SetAssoCache) : Prop where
  ass_pos : 1 ≤ c.m_ass
  block_num : c.base.m_block_num = 2 ^ c.m_sets_log * c.m_ass
  fits : 2 ^ c.m_sets_log * c.m_ass < 2 ^ 32
  valids_len : c.base.m_valids.length = c.base.m_block_num
  tags_len : c.base.m_tags.length = c.base.m_block_num
  q_len : c.base.m_replace_q.length = c.base.m_block_num
  seg_perm : ∀ s < 2 ^ c.m_sets_log,
    (seg (s * c.m_ass) c.m_ass c.base.m_replace_q).Perm (List.range' (s * c.m_ass) c.m_ass)

/-- The set `s` of a set-associative cache seen as a fully associative cache of
`m_ass` blocks: its slice of the valid flags and tags, and its slice of the
replacement queue with slot identifiers counted from the start of the set.
Addresses given to the view are tags (block-size exponent 0). -/
def view (c : SetAssoCache) (s : Nat) : CacheModel :=
  { m_block_num := c.m_ass
    m_blksz_log := 0
    m_valids := seg (s * c.m_ass) c.m_ass c.base.m_valids
    m_tags := seg (s * c.m_ass) c.m_ass c.base.m_tags
    m_replace_q := (seg (s * c.m_ass) c.m_ass c.base.m_replace_q).map (· - s * c.m_ass)
    m_rd_reqs := c.base.m_rd_reqs
    m_wr_reqs := c.base.m_wr_reqs
    m_rd_hits := c.base.m_rd_hits
    m_wr_hits := c.base.m_wr_hits }

/-- States reachable from the constructor by `readReq` / `writeReq` calls. -/
inductive Reachable (sets_log log_blk_size ass : Nat) (uninit : Nat → Nat) :
    SetAssoCache → Prop
  | ctor : Reachable sets_log log_blk_size ass uninit (new sets_log log_blk_size ass uninit)
  | readReq (c : SetAssoCache) (mem_addr : Nat) :
      Reachable sets_log log_blk_size ass uninit c →
      Reachable sets_log log_blk_size ass uninit (readReq c mem_addr)
  | writeReq (c : SetAssoCache) (mem_addr : Nat) :
      Reachable sets_log log_blk_size ass uninit c →
      Reachable sets_log log_blk_size ass uninit (writeReq c mem_addr)

/-- A sequence of `access` calls: the hit flags in order and the final state. -/
def accesses (c : SetAssoCache) : List Nat → List Bool × SetAssoCache
  | [] => ([], c)
  | a :: as =>
    let r := access c a
    let rs := accesses r.2 as
    (r.1 :: rs.1, rs.2)

/-- A trace of requests: the hit flag `access` returns inside each
`readReq` / `writeReq`, in order, and the final state. -/
def run (c : SetAssoCache) : List MemReq → List Bool × SetAssoCache
  | [] => ([], c)
  | MemReq.read a :: rs =>
    let r := run (readReq c a) rs
    ((access { c with base := c.base.incRdReqs } a).1 :: r.1, r.2)
  | MemReq.write a :: rs =>
    let r := run (writeReq c a) rs
    ((access { c with base := c.base.incWrReqs } a).1 :: r.1, r.2)

end SetAssoCache

namespace FullAssoCache

/-- The state of a fully associative cache of `k` blocks after a cold fill with
the tags `ts` (pairwise distinct, at most `k`): slot `i < ts.length` holds
`ts[i]`, the slots behind are still invalid, and the queue lists the invalid
slots in ascending order followed by the filled ones, oldest first. -/
def fillState (k b : Nat) (u : Nat → Nat) (ts : List Nat) : CacheModel :=
  { m_block_num := k
    m_blksz_log := b
    m_valids := List.replicate ts.length true ++ List.replicate (k - ts.length) false
    m_tags := ts ++ ((List.range k).map u).drop ts.length
    m_replace_q := List.range' ts.length (k - ts.length) ++ List.range ts.length
    m_rd_reqs := 0
    m_wr_reqs := 0
    m_rd_hits := 0
    m_wr_hits := 0 }

end FullAssoCache

/-- The age of tag `t` in the tag trace `tr`: the number of accesses made since
the most recent access to `t` (`tr.length` when `t` was never accessed). -/
def age (tr : List Nat) (t : Nat) : Nat := tr.reverse.indexOf t

namespace FullAssoCache

/-- The invariant of the hit phase after a fill with the `k` distinct tags
`ts0`: all slots valid, slot `i` holds `ts0[i]`, and the queue is ordered by
the age of the tags, oldest first. -/
structure LruInv (k b : Nat) (ts0 tr : List Nat) (c : CacheModel) : Prop where
  wf : WF c
  bn : c.m_block_num = k
  blk : c.m_blksz_log = b
  valids : c.m_valids = List.replicate k true
  tags : c.m_tags = ts0
  sorted : c.m_replace_q.Pairwise (fun i j => age tr (ts0.getD j 0) < age tr (ts0.getD i 0))

end FullAssoCache

/-- Counter accounting of one read request: `c'` has the counters of `c`
after `m_rd_reqs++` and, when the access returned `hit`, `m_rd_hits++`. -/
def CacheModel.ReadAccounted (c c' : CacheModel) (hit : Bool) : Prop :=
  c'.m_rd_reqs = (c.m_rd_reqs + 1) % 2 ^ 64 ∧
  c'.m_rd_hits = (if hit then (c.m_rd_hits + 1) % 2 ^ 64 else c.m_rd_hits) ∧
  c'.m_wr_reqs = c.m_wr_reqs ∧ c'.m_wr_hits = c.m_wr_hits

/-- Counter accounting of one write request. -/
def CacheModel.WriteAccounted (c c' : CacheModel) (hit : Bool) : Prop :=
  c'.m_wr_reqs = (c.m_wr_reqs + 1) % 2 ^ 64 ∧
  c'.m_wr_hits = (if hit then (c.m_wr_hits + 1) % 2 ^ 64 else c.m_wr_hits) ∧
  c'.m_rd_reqs = c.m_rd_reqs ∧ c'.m_rd_hits = c.m_rd_hits

/-- No counter of `c'` is below the counter of `c`. -/
def CacheModel.CountersLe (c c' : CacheModel) : Prop :=
  c.m_rd_reqs ≤ c'.m_rd_reqs ∧ c.m_wr_reqs ≤ c'.m_wr_reqs ∧
  c.m_rd_hits ≤ c'.m_rd_hits ∧ c.m_wr_hits ≤ c'.m_wr_hits

/-- None of the four 64-bit counters wraps around within the next `n` requests. -/
def CacheModel.NoWrap (c : CacheModel) (n : Nat) : Prop :=
  c.m_rd_reqs + n < 2 ^ 64 ∧ c.m_wr_reqs + n < 2 ^ 64 ∧
  c.m_rd_hits + n < 2 ^ 64 ∧ c.m_wr_hits + n < 2 ^ 64

/-- What C1 asserts about a run on the cold fully associative cache `c0`: the
accesses `fill` all miss, the accesses `hits` all hit, the access to `x`
misses, and it overwrites the tag of exactly one slot `v`; that slot is valid,
holds one of the tags of `fill`, and every other tag of `fill` has a smaller
age, that is, was accessed more recently. -/
def FullAssoCache.LruVerdict (c0 : CacheModel) (fill hits : List Nat) (x : Nat) : Prop :=
  (FullAssoCache.accesses c0 (fill ++ hits)).1 =
    List.replicate fill.length false ++ List.replicate hits.length true ∧
  (FullAssoCache.access (FullAssoCache.accesses c0 (fill ++ hits)).2 x).1 = false ∧
  ∃ v < c0.m_block_num,
    (FullAssoCache.access (FullAssoCache.accesses c0 (fill ++ hits)).2 x).2.m_tags =
      (FullAssoCache.accesses c0 (fill ++ hits)).2.m_tags.set v (FullAssoCache.getTag c0 x) ∧
    (FullAssoCache.accesses c0 (fill ++ hits)).2.m_valids.getD v false = true ∧
    (FullAssoCache.accesses c0 (fill ++ hits)).2.m_tags.getD v 0 ∈
      fill.map (FullAssoCache.getTag c0) ∧
    ∀ t ∈ fill.map (FullAssoCache.getTag c0),
      t ≠ (FullAssoCache.accesses c0 (fill ++ hits)).2.m_tags.getD v 0 →
      age ((fill ++ hits).map (FullAssoCache.getTag c0)) t <
        age ((fill ++ hits).map (FullAssoCache.getTag c0))
          ((FullAssoCache.accesses c0 (fill ++ hits)).2.m_tags.getD v 0)

/-- What C1 asserts about a run inside set `s` of the cold set-associative
cache `c0`: as `FullAssoCache.LruVerdict`, the overwritten slot `v` being one
of the slots `s*m_ass .. s*m_ass+m_ass-1` of the set. -/
def SetAssoCache.LruVerdict (c0 : SetAssoCache) (s : Nat) (fill hits : List Nat) (x : Nat) :
    Prop :=
  (SetAssoCache.accesses c0 (fill ++ hits)).1 =
    List.replicate fill.length false ++ List.replicate hits.length true ∧
  (SetAssoCache.access (SetAssoCache.accesses c0 (fill ++ hits)).2 x).1 = false ∧
  ∃ v, s * c0.m_ass ≤ v ∧ v < s * c0.m_ass + c0.m_ass ∧
    (SetAssoCache.access (SetAssoCache.accesses c0 (fill ++ hits)).2 x).2.base.m_tags =
      (SetAssoCache.accesses c0 (fill ++ hits)).2.base.m_tags.set v (SetAssoCache.getTag c0 x) ∧
    (SetAssoCache.accesses c0 (fill ++ hits)).2.base.m_valids.getD v false = true ∧
    (SetAssoCache.accesses c0 (fill ++ hits)).2.base.m_tags.getD v 0 ∈
      fill.map (SetAssoCache.getTag c0) ∧
    ∀ t ∈ fill.map (SetAssoCache.getTag c0),
      t ≠ (SetAssoCache.accesses c0 (fill ++ hits)).2.base.m_tags.getD v 0 →
      age ((fill ++ hits).map (SetAssoCache.getTag c0)) t <
        age ((fill ++ hits).map (SetAssoCache.getTag c0))
          ((SetAssoCache.accesses c0 (fill ++ hits)).2.base.m_tags.getD v 0)

/-- The error the specification names for an invalid geometry.  No constructor
of the source raises it. -/
inductive ConfigurationError where
  | invalidGeometry
deriving DecidableEq, Repr

/-- Outcome of the call `new FullAssoCache(block_num, log_block_size)`: the
constructor has no parameter check, no `throw` and no error return, so the call
always yields the built model. -/
def FullAssoCache.construct (block_num log_block_size : Nat) (uninit : Nat → Nat) :
    Except ConfigurationError CacheModel :=
  Except.ok (FullAssoCache.new block_num log_block_size uninit)

/-- Outcome of the call `new DirectMapCache(block_num, log_block_size)`: the
constructor only forwards to `CacheModel(block_num, log_block_size)`. -/
def DirectMapCache.construct (block_num log_block_size : Nat) (uninit : Nat → Nat) :
    Except ConfigurationError CacheModel :=
  Except.ok (DirectMapCache.new block_num log_block_size uninit)

/-- Outcome of the call `new SetAssoCache(sets_log, log_blk_size, ass)`: the
constructor forwards `(1<<sets_log)*ass` to the base and stores its three
parameters. -/
def SetAssoCache.construct (sets_log log_blk_size ass : Nat) (uninit : Nat → Nat) :
    Except ConfigurationError SetAssoCache :=
  Except.ok (SetAssoCache.new sets_log log_blk_size ass uninit)

/-- The read hit rate of `dumpResults`, `100 * (float)m_rd_hits/m_rd_reqs`, as an
exact rational (the rounding of `float` is not modelled; for `m_rd_reqs = 0`
the source divides by zero, the rational quotient is 0). -/
def CacheModel.rdHitRate (c : CacheModel) : ℚ :=
  100 * (c.m_rd_hits : ℚ) / (c.m_rd_reqs : ℚ)

/-- The write hit rate of `dumpResults`, `100 * (float)m_wr_hits/m_wr_reqs`, as an
exact rational. -/
def CacheModel.wrHitRate (c : CacheModel) : ℚ :=
  100 * (c.m_wr_hits : ℚ) / (c.m_wr_reqs : ℚ)

/-- Hits do not exceed requests, and at most `n` requests of each kind were
counted. -/
def CacheModel.HitsBounded (c : CacheModel) (n : Nat) : Prop :=
  c.m_rd_hits ≤ c.m_rd_reqs ∧ c.m_wr_hits ≤ c.m_wr_reqs ∧
  c.m_rd_reqs ≤ n ∧ c.m_wr_reqs ≤ n

/-- Both hit rates are percentages whenever their request count is positive. -/
def CacheModel.RatesInRange (c : CacheModel) : Prop :=
  c.m_rd_hits ≤ c.m_rd_reqs ∧ c.m_wr_hits ≤ c.m_wr_reqs ∧
  (0 < c.m_rd_reqs → 0 ≤ c.rdHitRate ∧ c.rdHitRate ≤ 100) ∧
  (0 < c.m_wr_reqs → 0 ≤ c.wrHitRate ∧ c.wrHitRate ≤ 100)

namespace FullAssoCache

/-- The subscripts the inner loop of `updateReplaceQ` applies to `m_replace_q`:
`j` (written) and `j+1` (read) in each of the `cnt` iterations. -/
def shiftLoopIdx : Nat → Nat → List Nat
  | 0, _ => []
  | cnt + 1, j => j :: (j + 1) :: shiftLoopIdx cnt (j + 1)

end FullAssoCache

namespace DirectMapCache

end DirectMapCache

namespace SetAssoCache

/-- The subscripts the inner loop of `updateReplaceQ` applies to `m_replace_q`:
`set_num*m_ass+j` (written) and `set_num*m_ass+j+1` (read) in each of the `cnt`
iterations. -/
def shiftLoopIdx (m_ass set_num : Nat) : Nat → Nat → List Nat
  | 0, _ => []
  | cnt + 1, j =>
    slot m_ass set_num j :: slot m_ass set_num (j + 1) :: shiftLoopIdx m_ass set_num cnt (j + 1)

end SetAssoCache

namespace LruRef

/-- Reference model in the words of the specification: a recency-ordered list
of at most `n` block numbers, least recently accessed first.  An access to a
listed block number is a hit and moves it to the most-recent end; an access to
any other block number is a miss and appends it at the most-recent end, after
dropping the least-recent entry when the list is full. -/
def step (n : Nat) (l : List Nat) (blk : Nat) : Bool × List Nat :=
  if blk ∈ l then (true, l.erase blk ++ [blk])
  else if l.length < n then (false, l ++ [blk])
  else (false, l.tail ++ [blk])

/-- The reference model on a trace of block numbers: the hit flags in order and
the final list. -/
def run (n : Nat) (l : List Nat) : List Nat → List Bool × List Nat
  | [] => ([], l)
  | blk :: bs =>
    let r := step n l blk
    let rs := run n r.2 bs
    (r.1 :: rs.1, rs.2)

/-- The `n` most recently accessed distinct block numbers of the trace `prev`,
most recent first: `prev.dedup` keeps the last occurrence of every block
number, in trace order. -/
def recent (n : Nat) (prev : List Nat) : List Nat :=
  (prev.dedup.reverse).take n

end LruRef

namespace FullAssoCache

/-- Simulation relation between a fully associative cache of `n` blocks and the
list `l` of the reference model: the replacement queue is a run `F` of slots
that are still invalid followed by a run `S` of valid slots, and the tags of
the slots of `S`, in queue order, are the block numbers of `l`. -/
structure LruRel (n b : Nat) (c : CacheModel) (l : List Nat) : Prop where
  wf : WF c
  bn : c.m_block_num = n
  blk : c.m_blksz_log = b
  nodup : l.Nodup
  split : ∃ F S, c.m_replace_q = F ++ S ∧ S.map (fun s => c.m_tags.getD s 0) = l ∧
    (∀ s ∈ S, c.m_valids.getD s false = true) ∧ (∀ s ∈ F, c.m_valids.getD s false = false)

end FullAssoCache

/-- Simulation relation between a set-associative cache with one way and a
directly mapped cache of `2^k` blocks, both with block-size exponent `b`: the
valid flags agree, and the tags agree in every valid slot (the tags of invalid
slots are uninitialised memory and may differ). -/
structure OneWayRel (k b : Nat) (c : SetAssoCache) (d : CacheModel) : Prop where
  wf : SetAssoCache.WF c
  ass : c.m_ass = 1
  sets : c.m_sets_log = k
  blk : c.m_blksz_log = b
  dwf : DirectMapCache.WF d
  dbn : d.m_block_num = 2 ^ k
  dblk : d.m_blksz_log = b
  valids : c.base.m_valids = d.m_valids
  tags : ∀ i, d.m_valids.getD i false = true → c.base.m_tags.getD i 0 = d.m_tags.getD i 0

/-- Simulation relation between a set-associative cache with a single set of
`n` ways and a fully associative cache of `n` blocks, both with block-size
exponent `b`: the valid flags and the replacement queues are equal, and the
tags are equal in every valid slot (the tags of invalid slots are
uninitialised memory). -/
structure OneSetRel (n b : Nat) (c : SetAssoCache) (f : CacheModel) : Prop where
  wf : SetAssoCache.WF c
  sets : c.m_sets_log = 0
  blk : c.m_blksz_log = b
  ass : c.m_ass = n
  fwf : FullAssoCache.WF f
  fbn : f.m_block_num = n
  fblk : f.m_blksz_log = b
  valids : c.base.m_valids = f.m_valids
  q : c.base.m_replace_q = f.m_replace_q
  tags : ∀ i, f.m_valids.getD i false = true → c.base.m_tags.getD i 0 = f.m_tags.getD i 0

/-- No false hits on a trace `as` of addresses with hit flags `flags` and
block-size exponent `b`: whenever the `i`-th access is a hit, some earlier
access `j < i` had the same block number `addr >> b`. -/
def NoFalseHits (b : Nat) (as : List Nat) (flags : List Bool) : Prop :=
  ∀ i < as.length, flags.getD i false = true →
    ∃ j < i, as.getD j 0 >>> b = as.getD i 0 >>> b

namespace FullAssoCache

/-- Invariant of a fully associative cache of `n` blocks after accesses to the
addresses `seen`: the tag of every valid slot is the block number of one of
them. -/
structure SeenInv (n b : Nat) (c : CacheModel) (seen : List Nat) : Prop where
  wf : WF c
  bn : c.m_block_num = n
  blk : c.m_blksz_log = b
  tags : ∀ i, c.m_valids.getD i false = true → ∃ x ∈ seen, c.m_tags.getD i 0 = x >>> b

end FullAssoCache

namespace DirectMapCache

/-- Invariant of a directly mapped cache of `2^k` blocks after accesses to the
addresses `seen`: every valid slot `i` holds the tag of one of them whose block
number has index `i`. -/
structure SeenInv (k b : Nat) (c : CacheModel) (seen : List Nat) : Prop where
  wf : WF c
  bn : c.m_block_num = 2 ^ k
  blk : c.m_blksz_log = b
  tags : ∀ i, c.m_valids.getD i false = true →
    ∃ x ∈ seen, (x >>> b) % 2 ^ k = i ∧ c.m_tags.getD i 0 = (x >>> b) >>> k

end DirectMapCache

namespace SetAssoCache

/-- Invariant of a set-associative cache of `2^k` sets after accesses to the
addresses `seen`: every valid slot `i` holds the tag of one of them whose block
number maps to the set `i / m_ass` of the slot. -/
structure SeenInv (k b : Nat) (c : SetAssoCache) (seen : List Nat) : Prop where
  wf : WF c
  sets : c.m_sets_log = k
  blk : c.m_blksz_log = b
  tags : ∀ i, c.base.m_valids.getD i false = true →
    ∃ x ∈ seen, (x >>> b) % 2 ^ k = i / c.m_ass ∧ c.base.m_tags.getD i 0 = (x >>> b) >>> k

end SetAssoCache

/-! ## Lemmas and theorems -/

theorem length_shiftAt (base cnt j : Nat) (q : List Nat) :
    (shiftAt base cnt j q).length = q.length := by
  induction cnt generalizing j q with
  | zero => rfl
  | succ n ih => simp [shiftAt, ih]

theorem getElem?_shiftAt (base cnt j : Nat) (q : List Nat) (h : base + j + cnt < q.length)
    (k : Nat) :
    (shiftAt base cnt j q)[k]? =
      if base + j ≤ k ∧ k < base + j + cnt then q[k + 1]? else q[k]? := by
  induction cnt generalizing j q with
  | zero =>
    have : ¬ (base + j ≤ k ∧ k < base + j) := by omega
    simp [shiftAt, this]
  | succ n ih =>
    have hlen : base + (j + 1) + n < (q.set (base + j) (q.getD (base + j + 1) 0)).length := by
      simp; omega
    rw [shiftAt, ih (j + 1) _ hlen]
    have h1 : base + j + 1 < q.length := by omega
    simp only [List.getElem?_set, List.getD_eq_getElem?_getD, List.getElem?_eq_getElem h1,
      Option.getD_some]
    by_cases c1 : base + j = k
    · subst c1
      have : base + j < q.length := by omega
      simp [this, List.getElem?_eq_getElem h1]
    · by_cases c2 : base + (j + 1) ≤ k ∧ k < base + (j + 1) + n
      · have c3 : base + j ≤ k ∧ k < base + j + (n + 1) := by omega
        have c4 : ¬ base + j = k + 1 := by omega
        simp [c2, c3, c4]
      · have c3 : ¬ (base + j ≤ k ∧ k < base + j + (n + 1)) := by omega
        simp [c1, c2, c3]

theorem length_seg (base w : Nat) (l : List α) (h : base + w ≤ l.length) :
    (seg base w l).length = w := by
  simp [seg]; omega

theorem getElem?_seg (base w : Nat) (l : List α) (k : Nat) :
    (seg base w l)[k]? = if k < w then l[base + k]? else none := by
  simp only [seg, List.getElem?_take, List.getElem?_drop]

/-- Moving the `i`-th entry of the window `[base, base+w)` to the window's end. -/
theorem shiftAt_set_eq (base w i x : Nat) (q : List Nat) (hw : base + w ≤ q.length)
    (hi : i < w) :
    (shiftAt base (w - 1 - i) i q).set (base + w - 1) x =
      q.take base ++ ((seg base w q).eraseIdx i ++ [x]) ++ q.drop (base + w) := by
  apply List.ext_getElem?
  intro k
  have hlen : base + i + (w - 1 - i) < q.length := by omega
  have hseg : (seg base w q).length = w := length_seg _ _ _ hw
  have herase : ((seg base w q).eraseIdx i).length = w - 1 := by
    rw [List.length_eraseIdx, hseg]; simp [hi]
  have htake : (q.take base).length = base := by simp; omega
  rw [List.getElem?_set, length_shiftAt, getElem?_shiftAt _ _ _ _ hlen]
  simp only [List.getElem?_append, List.length_append, htake, herase, List.length_singleton,
    List.getElem?_eraseIdx, getElem?_seg, List.getElem?_take, List.getElem?_drop]
  split_ifs <;> first
    | omega
    | rfl
    | (congr 1; omega)
    | (have hk : k - base - (w - 1) = 0 := by omega
       simp [hk])

theorem not_getElem?_of_lt_indexOf (l : List Nat) (x j : Nat) (h : j < l.indexOf x) :
    l[j]? ≠ some x := by
  induction l generalizing j with
  | nil => simp
  | cons a t ih =>
    by_cases hax : a = x
    · subst hax; simp at h
    · rw [List.indexOf_cons_ne _ hax] at h
      cases j with
      | zero => simpa using hax
      | succ j => simpa using ih j (by omega)

/-- The search loop `for i < w: if l[i] == x` finds the first position of `x`. -/
theorem find?_range_getD (l : List Nat) (x : Nat) :
    (List.range l.length).find? (fun i => l.getD i 0 == x) =
      if x ∈ l then some (l.indexOf x) else none := by
  split_ifs with hx
  · rw [List.find?_range_eq_some]
    refine ⟨?_, ?_, ?_⟩
    · simp [List.getElem?_indexOf hx]
    · simpa using List.indexOf_lt_length.mpr hx
    · intro j hj
      have hjl : j < l.length := lt_trans hj (List.indexOf_lt_length.mpr hx)
      have := not_getElem?_of_lt_indexOf l x j hj
      simp only [List.getD_eq_getElem?_getD, List.getElem?_eq_getElem hjl, Option.getD_some,
        Bool.not_eq_true', beq_eq_false_iff_ne, ne_eq]
      intro h
      exact this (by simp [List.getElem?_eq_getElem hjl, h])
  · rw [List.find?_range_eq_none]
    intro i hi
    simp only [List.getD_eq_getElem?_getD, List.getElem?_eq_getElem hi, Option.getD_some,
      Bool.not_eq_true', beq_eq_false_iff_ne, ne_eq]
    intro h
    exact hx (h ▸ List.getElem_mem hi)

namespace FullAssoCache

theorem fa_shiftLoop_eq (cnt j : Nat) (q : List Nat) : shiftLoop cnt j q = shiftAt 0 cnt j q := by
  induction cnt generalizing j q with
  | zero => rfl
  | succ n ih => simp [shiftLoop, shiftAt, ih]

/-- The recency update on a queue: `x` moves to the tail. -/
theorem fa_updateReplaceQ_eq (c : CacheModel) (x : Nat)
    (hq : c.m_replace_q.length = c.m_block_num) :
    updateReplaceQ c x =
      { c with m_replace_q :=
          if x ∈ c.m_replace_q then c.m_replace_q.erase x ++ [x] else c.m_replace_q } := by
  obtain ⟨n, b, v, t, q, r1, r2, r3, r4⟩ := c
  simp only at hq
  subst hq
  simp only [updateReplaceQ, find?_range_getD]
  split_ifs with hx
  · have hi : q.indexOf x < q.length := List.indexOf_lt_length.mpr hx
    have := shiftAt_set_eq 0 q.length (q.indexOf x) x q (by omega) hi
    simp only [Nat.zero_add, List.take_zero, List.nil_append, seg, List.drop_zero,
      List.take_length, List.drop_length, List.append_nil, List.eraseIdx_indexOf_eq_erase] at this
    simp only [fa_shiftLoop_eq, this]
  · rfl

theorem WF.q_len {c : CacheModel} (h : WF c) : c.m_replace_q.length = c.m_block_num := by
  simpa using h.q_perm.length_eq

theorem WF.mem_q {c : CacheModel} (h : WF c) (x : Nat) :
    x ∈ c.m_replace_q ↔ x < c.m_block_num := by
  rw [h.q_perm.mem_iff, List.mem_range]

theorem WF.nodup_q {c : CacheModel} (h : WF c) : c.m_replace_q.Nodup :=
  h.q_perm.nodup_iff.mpr (List.nodup_range _)

theorem fa_WF_new (n b : Nat) (u : Nat → Nat) : WF (new n b u) := by
  constructor <;> simp [new, CacheModel.new]

theorem lookup_some {c : CacheModel} {a i : Nat} (h : lookup c a = some i) :
    i < c.m_block_num ∧ c.m_tags.getD i 0 = getTag c a ∧ c.m_valids.getD i false = true := by
  unfold lookup at h
  simp only [List.find?_range_eq_some, Bool.and_eq_true, beq_iff_eq, List.mem_range] at h
  exact ⟨h.2.1, h.1.1, h.1.2⟩

theorem lookup_ne_none {c : CacheModel} {a : Nat} (i : Nat) (hi : i < c.m_block_num)
    (ht : c.m_tags.getD i 0 = getTag c a) (hv : c.m_valids.getD i false = true) :
    lookup c a ≠ none := by
  unfold lookup
  simp only [ne_eq, List.find?_range_eq_none, not_forall]
  refine ⟨i, hi, ?_⟩
  have := And.intro ht hv
  simpa using this

theorem lookup_none {c : CacheModel} {a : Nat} (h : lookup c a = none) (i : Nat)
    (hi : i < c.m_block_num) :
    ¬ (c.m_tags.getD i 0 = getTag c a ∧ c.m_valids.getD i false = true) := by
  intro ⟨ht, hv⟩
  exact lookup_ne_none i hi ht hv h

theorem access_hit {c : CacheModel} {a i : Nat} (hwf : WF c) (h : lookup c a = some i) :
    access c a = (true, { c with m_replace_q := c.m_replace_q.erase i ++ [i] }) := by
  have hi := (lookup_some h).1
  simp only [access, h, fa_updateReplaceQ_eq c i hwf.q_len, (hwf.mem_q i).mpr hi, if_true]

theorem access_miss {c : CacheModel} {a : Nat} (hwf : WF c) (hn : 1 ≤ c.m_block_num)
    (h : lookup c a = none) :
    access c a = (false,
      { c with
        m_tags := c.m_tags.set (c.m_replace_q.getD 0 0) (getTag c a)
        m_valids := c.m_valids.set (c.m_replace_q.getD 0 0) true
        m_replace_q := c.m_replace_q.tail ++ [c.m_replace_q.getD 0 0] }) := by
  have hlen := hwf.q_len
  simp only [access, h]
  rw [fa_updateReplaceQ_eq _ _ (by simpa using hlen)]
  cases hq : c.m_replace_q with
  | nil =>
    rw [hq, List.length_nil] at hlen
    omega
  | cons x t => simp

/-- The hit flag of `access` is whether `lookup` succeeded. -/
theorem fa_access_fst (c : CacheModel) (a : Nat) : (access c a).1 = (lookup c a).isSome := by
  unfold access
  cases lookup c a <;> rfl

theorem fa_WF_access {c : CacheModel} (hwf : WF c) (a : Nat) : WF (access c a).2 := by
  unfold access
  cases lookup c a with
  | some i =>
    simp only [fa_updateReplaceQ_eq c i hwf.q_len]
    refine ⟨hwf.valids_len, hwf.tags_len, ?_⟩
    simp only
    split_ifs with hx
    · exact (List.perm_append_comm.trans (List.perm_cons_erase hx).symm).trans hwf.q_perm
    · exact hwf.q_perm
  | none =>
    simp only
    rw [fa_updateReplaceQ_eq _ _ (by simpa using hwf.q_len)]
    refine ⟨by simpa using hwf.valids_len, by simpa using hwf.tags_len, ?_⟩
    simp only
    split_ifs with hx
    · exact (List.perm_append_comm.trans (List.perm_cons_erase hx).symm).trans hwf.q_perm
    · exact hwf.q_perm

theorem fa_access_incRdReqs (c : CacheModel) (a : Nat) :
    access c.incRdReqs a = ((access c a).1, (access c a).2.incRdReqs) := by
  unfold access lookup updateReplaceQ getTag CacheModel.incRdReqs
  simp only
  split <;> split <;> rfl

theorem fa_access_incWrReqs (c : CacheModel) (a : Nat) :
    access c.incWrReqs a = ((access c a).1, (access c a).2.incWrReqs) := by
  unfold access lookup updateReplaceQ getTag CacheModel.incWrReqs
  simp only
  split <;> split <;> rfl

/-- Method `access` touches neither the geometry nor the counters. -/
theorem fa_access_frame (c : CacheModel) (a : Nat) :
    (access c a).2.m_block_num = c.m_block_num ∧ (access c a).2.m_blksz_log = c.m_blksz_log ∧
    (access c a).2.m_rd_reqs = c.m_rd_reqs ∧ (access c a).2.m_wr_reqs = c.m_wr_reqs ∧
    (access c a).2.m_rd_hits = c.m_rd_hits ∧ (access c a).2.m_wr_hits = c.m_wr_hits := by
  unfold access lookup updateReplaceQ getTag
  simp only
  split <;> split <;> simp

theorem fa_lookup_congr {c d : CacheModel} (a : Nat) (h1 : c.m_block_num = d.m_block_num)
    (h2 : c.m_blksz_log = d.m_blksz_log) (h3 : c.m_tags = d.m_tags)
    (h4 : c.m_valids = d.m_valids) : lookup c a = lookup d a := by
  simp only [lookup, getTag, h1, h2, h3, h4]

/-- After any access the accessed block is present: a second lookup succeeds. -/
theorem fa_lookup_after_access {c : CacheModel} (hwf : WF c) (hn : 1 ≤ c.m_block_num) (a : Nat) :
    lookup (access c a).2 a ≠ none := by
  cases h : lookup c a with
  | some i =>
    rw [access_hit hwf h]
    have := fa_lookup_congr (c := { c with m_replace_q := c.m_replace_q.erase i ++ [i] }) (d := c) a
      rfl rfl rfl rfl
    rw [this, h]; simp
  | none =>
    rw [access_miss hwf hn h]
    have hlen := hwf.q_len
    obtain ⟨v, hv⟩ : ∃ v, c.m_replace_q[0]? = some v := by
      have : 0 < c.m_replace_q.length := by omega
      exact ⟨_, List.getElem?_eq_getElem this⟩
    have hvn : v < c.m_block_num := (hwf.mem_q v).mp (List.getElem?_mem hv)
    apply lookup_ne_none v
    · exact hvn
    · simp [hv, getTag, hwf.tags_len, hvn]
    · simp [hv, hwf.valids_len, hvn]

theorem WF_incRdReqs {c : CacheModel} (h : WF c) : WF c.incRdReqs := ⟨h.1, h.2, h.3⟩

theorem WF_incWrReqs {c : CacheModel} (h : WF c) : WF c.incWrReqs := ⟨h.1, h.2, h.3⟩

theorem WF_incRdHits {c : CacheModel} (h : WF c) : WF c.incRdHits := ⟨h.1, h.2, h.3⟩

theorem WF_incWrHits {c : CacheModel} (h : WF c) : WF c.incWrHits := ⟨h.1, h.2, h.3⟩

theorem fa_WF_readReq {c : CacheModel} (h : WF c) (a : Nat) : WF (readReq c a) := by
  unfold readReq
  simp only
  split_ifs
  · exact WF_incRdHits (fa_WF_access (WF_incRdReqs h) a)
  · exact fa_WF_access (WF_incRdReqs h) a

theorem fa_WF_writeReq {c : CacheModel} (h : WF c) (a : Nat) : WF (writeReq c a) := by
  unfold writeReq
  simp only
  split_ifs
  · exact WF_incWrHits (fa_WF_access (WF_incWrReqs h) a)
  · exact fa_WF_access (WF_incWrReqs h) a

theorem fa_readReq_block_num (c : CacheModel) (a : Nat) :
    (readReq c a).m_block_num = c.m_block_num := by
  unfold readReq
  simp only
  split_ifs
  · exact (fa_access_frame _ a).1
  · exact (fa_access_frame _ a).1

theorem fa_writeReq_block_num (c : CacheModel) (a : Nat) :
    (writeReq c a).m_block_num = c.m_block_num := by
  unfold writeReq
  simp only
  split_ifs
  · exact (fa_access_frame _ a).1
  · exact (fa_access_frame _ a).1

theorem Reachable.fa_wf {n b : Nat} {u : Nat → Nat} {c : CacheModel} (h : Reachable n b u c) :
    WF c ∧ c.m_block_num = n := by
  induction h with
  | ctor => exact ⟨fa_WF_new n b u, rfl⟩
  | readReq c a _ ih => exact ⟨fa_WF_readReq ih.1 a, (fa_readReq_block_num c a).trans ih.2⟩
  | writeReq c a _ ih => exact ⟨fa_WF_writeReq ih.1 a, (fa_writeReq_block_num c a).trans ih.2⟩

/-- A read request right after a request to the same address is a hit. -/
theorem fa_readReq_hit_of_present {c : CacheModel} (a : Nat) (h : lookup c a ≠ none) :
    (readReq c a).m_rd_hits = (c.m_rd_hits + 1) % 2 ^ 64 := by
  have h1 : (access c.incRdReqs a).1 = true := by
    rw [fa_access_incRdReqs, fa_access_fst]
    cases hl : lookup c a with
    | none => exact absurd hl h
    | some i => rfl
  unfold readReq
  simp only [h1, if_true]
  rw [fa_access_incRdReqs]
  simp only [CacheModel.incRdHits, CacheModel.incRdReqs, (fa_access_frame c a).2.2.2.2.1]

theorem fa_lookup_readReq_self {c : CacheModel} (hwf : WF c) (hn : 1 ≤ c.m_block_num) (a : Nat) :
    lookup (readReq c a) a ≠ none := by
  have h := fa_lookup_after_access hwf hn a
  unfold readReq
  simp only [fa_access_incRdReqs]
  split_ifs
  · rwa [fa_lookup_congr (c := (access c a).2.incRdReqs.incRdHits) (d := (access c a).2) a
      rfl rfl rfl rfl]
  · rwa [fa_lookup_congr (c := (access c a).2.incRdReqs) (d := (access c a).2) a rfl rfl rfl rfl]

theorem fa_repeat_read_hits {n b : Nat} {u : Nat → Nat} {c : CacheModel} (hr : Reachable n b u c)
    (hn : 1 ≤ n) (a : Nat) :
    (readReq (readReq c a) a).m_rd_hits = ((readReq c a).m_rd_hits + 1) % 2 ^ 64 := by
  obtain ⟨hwf, hbn⟩ := hr.fa_wf
  exact fa_readReq_hit_of_present a (fa_lookup_readReq_self hwf (by omega) a)

end FullAssoCache

namespace DirectMapCache

theorem getBlk_num_lt (c : CacheModel) (a : Nat) (hn : 1 ≤ c.m_block_num) :
    getBlk_num c a < c.m_block_num := by
  unfold getBlk_num
  have h1 : (a >>> c.m_blksz_log) &&& ((c.m_block_num + 2 ^ 32 - 1) % 2 ^ 32) ≤
      (c.m_block_num + 2 ^ 32 - 1) % 2 ^ 32 := Nat.and_le_right
  omega

theorem dm_WF_new (n b : Nat) (u : Nat → Nat) : WF (new n b u) := by
  constructor <;> simp [new, CacheModel.new]

theorem dm_access_eq (c : CacheModel) (a : Nat) :
    access c a =
      if c.m_tags.getD (getBlk_num c a) 0 = getTag c a ∧ c.m_valids.getD (getBlk_num c a) false = true
      then (true, c)
      else (false, { c with
        m_tags := c.m_tags.set (getBlk_num c a) (getTag c a)
        m_valids := c.m_valids.set (getBlk_num c a) true }) := by
  unfold access lookup updateReplaceQ
  simp only [Bool.and_eq_true, beq_iff_eq]
  split_ifs <;> rfl

theorem dm_access_fst (c : CacheModel) (a : Nat) :
    (access c a).1 = (c.m_tags.getD (getBlk_num c a) 0 == getTag c a
      && c.m_valids.getD (getBlk_num c a) false) := by
  unfold access lookup updateReplaceQ
  simp only
  cases h : (c.m_tags.getD (getBlk_num c a) 0 == getTag c a
      && c.m_valids.getD (getBlk_num c a) false) <;> simp only [Bool.false_eq_true, if_false, if_true]

theorem dm_access_incRdReqs (c : CacheModel) (a : Nat) :
    access c.incRdReqs a = ((access c a).1, (access c a).2.incRdReqs) := by
  simp only [dm_access_eq]
  unfold getBlk_num getTag CacheModel.incRdReqs
  simp only
  split_ifs <;> rfl

theorem dm_access_incWrReqs (c : CacheModel) (a : Nat) :
    access c.incWrReqs a = ((access c a).1, (access c a).2.incWrReqs) := by
  simp only [dm_access_eq]
  unfold getBlk_num getTag CacheModel.incWrReqs
  simp only
  split_ifs <;> rfl

/-- Method `access` touches neither the geometry nor the counters nor the queue. -/
theorem dm_access_frame (c : CacheModel) (a : Nat) :
    (access c a).2.m_block_num = c.m_block_num ∧ (access c a).2.m_blksz_log = c.m_blksz_log ∧
    (access c a).2.m_rd_reqs = c.m_rd_reqs ∧ (access c a).2.m_wr_reqs = c.m_wr_reqs ∧
    (access c a).2.m_rd_hits = c.m_rd_hits ∧ (access c a).2.m_wr_hits = c.m_wr_hits ∧
    (access c a).2.m_replace_q = c.m_replace_q := by
  rw [dm_access_eq]
  split_ifs <;> simp

theorem dm_WF_access {c : CacheModel} (hwf : WF c) (a : Nat) : WF (access c a).2 := by
  rw [dm_access_eq]
  split_ifs
  · exact hwf
  · exact ⟨by simpa using hwf.valids_len, by simpa using hwf.tags_len⟩

/-- After `access` the slot of the address holds its tag and is valid. -/
theorem slot_after_access {c : CacheModel} (hwf : WF c) (hn : 1 ≤ c.m_block_num) (a : Nat) :
    (access c a).2.m_tags.getD (getBlk_num c a) 0 = getTag c a ∧
    (access c a).2.m_valids.getD (getBlk_num c a) false = true := by
  have hlt := getBlk_num_lt c a hn
  rw [dm_access_eq]
  split_ifs with h
  · exact h
  · simp [hwf.tags_len, hwf.valids_len, hlt]

theorem getBlk_num_congr {c d : CacheModel} (a : Nat) (h1 : c.m_block_num = d.m_block_num)
    (h2 : c.m_blksz_log = d.m_blksz_log) : getBlk_num c a = getBlk_num d a := by
  simp only [getBlk_num, h1, h2]

theorem dm_getTag_congr {c d : CacheModel} (a : Nat) (h1 : c.m_block_num = d.m_block_num)
    (h2 : c.m_blksz_log = d.m_blksz_log) : getTag c a = getTag d a := by
  simp only [getTag, h1, h2]

theorem dm_WF_readReq {c : CacheModel} (h : WF c) (a : Nat) : WF (readReq c a) := by
  unfold readReq
  simp only
  have h1 : WF c.incRdReqs := ⟨h.1, h.2⟩
  have h2 := dm_WF_access h1 a
  split_ifs
  · exact ⟨h2.1, h2.2⟩
  · exact h2

theorem dm_WF_writeReq {c : CacheModel} (h : WF c) (a : Nat) : WF (writeReq c a) := by
  unfold writeReq
  simp only
  have h1 : WF c.incWrReqs := ⟨h.1, h.2⟩
  have h2 := dm_WF_access h1 a
  split_ifs
  · exact ⟨h2.1, h2.2⟩
  · exact h2

theorem dm_readReq_block_num (c : CacheModel) (a : Nat) :
    (readReq c a).m_block_num = c.m_block_num := by
  unfold readReq
  simp only
  split_ifs
  · exact (dm_access_frame _ a).1
  · exact (dm_access_frame _ a).1

theorem dm_writeReq_block_num (c : CacheModel) (a : Nat) :
    (writeReq c a).m_block_num = c.m_block_num := by
  unfold writeReq
  simp only
  split_ifs
  · exact (dm_access_frame _ a).1
  · exact (dm_access_frame _ a).1

theorem Reachable.dm_wf {n b : Nat} {u : Nat → Nat} {c : CacheModel} (h : Reachable n b u c) :
    WF c ∧ c.m_block_num = n := by
  induction h with
  | ctor => exact ⟨dm_WF_new n b u, rfl⟩
  | readReq c a _ ih => exact ⟨dm_WF_readReq ih.1 a, (dm_readReq_block_num c a).trans ih.2⟩
  | writeReq c a _ ih => exact ⟨dm_WF_writeReq ih.1 a, (dm_writeReq_block_num c a).trans ih.2⟩

/-- A second access to the same address hits. -/
theorem access_twice {c : CacheModel} (hwf : WF c) (hn : 1 ≤ c.m_block_num) (a : Nat) :
    (access (access c a).2 a).1 = true := by
  have hf := dm_access_frame c a
  have hs := slot_after_access hwf hn a
  rw [dm_access_fst, getBlk_num_congr a hf.1 hf.2.1, dm_getTag_congr a hf.1 hf.2.1, hs.1, hs.2]
  simp

theorem dm_repeat_read_hits {n b : Nat} {u : Nat → Nat} {c : CacheModel} (hr : Reachable n b u c)
    (hn : 1 ≤ n) (a : Nat) :
    (readReq (readReq c a) a).m_rd_hits = ((readReq c a).m_rd_hits + 1) % 2 ^ 64 := by
  obtain ⟨hwf, hbn⟩ := hr.dm_wf
  have hwf1 : WF c.incRdReqs := ⟨hwf.1, hwf.2⟩
  have h2 := access_twice hwf1 (show 1 ≤ c.incRdReqs.m_block_num by simpa [CacheModel.incRdReqs, hbn] using hn) a
  have key : ∀ d : CacheModel, (access d a).1 = true →
      (readReq d a).m_rd_hits = (d.m_rd_hits + 1) % 2 ^ 64 := by
    intro d hd
    have hd1 : (access d.incRdReqs a).1 = true := by rw [dm_access_incRdReqs]; exact hd
    unfold readReq
    simp only [hd1, if_true]
    rw [dm_access_incRdReqs]
    simp only [CacheModel.incRdHits, CacheModel.incRdReqs, (dm_access_frame d a).2.2.2.2.1]
  apply key
  unfold readReq
  simp only
  split_ifs
  · have := dm_access_eq (access c.incRdReqs a).2.incRdHits a
    rw [dm_access_fst] at h2 ⊢
    exact h2
  · exact h2

/-- Conflict: after accesses to `a` and then `b` in the same slot with another
tag, `a` misses again. -/
theorem conflict_miss {c : CacheModel} (hwf : WF c) (hn : 1 ≤ c.m_block_num) (a b : Nat)
    (hslot : getBlk_num c a = getBlk_num c b) (htag : getTag c a ≠ getTag c b) :
    (access (access (access c a).2 b).2 a).1 = false := by
  have hf1 := dm_access_frame c a
  have hw1 := dm_WF_access hwf a
  have hf2 := dm_access_frame (access c a).2 b
  have hs := slot_after_access hw1 (by rw [hf1.1]; exact hn) b
  rw [dm_access_fst, getBlk_num_congr a (hf2.1.trans hf1.1) (hf2.2.1.trans hf1.2.1),
    dm_getTag_congr a (hf2.1.trans hf1.1) (hf2.2.1.trans hf1.2.1), hslot,
    ← getBlk_num_congr b hf1.1 hf1.2.1, hs.1, dm_getTag_congr b hf1.1 hf1.2.1]
  simp [Ne.symm htag]

end DirectMapCache

namespace FullAssoCache

/-- With a single block the fully associative cache behaves like one slot. -/
theorem access_one (f : CacheModel) (a : Nat) (hn : f.m_block_num = 1)
    (hq : f.m_replace_q = [0]) :
    access f a =
      if f.m_tags.getD 0 0 = getTag f a ∧ f.m_valids.getD 0 false = true
      then (true, f)
      else (false, { f with
        m_tags := f.m_tags.set 0 (getTag f a)
        m_valids := f.m_valids.set 0 true }) := by
  obtain ⟨n, b, v, t, q, r1, r2, r3, r4⟩ := f
  simp only at hn hq
  subst hn hq
  have hr1 : List.range 1 = [0] := rfl
  by_cases h : (t.getD 0 0 = a >>> b ∧ v.getD 0 false = true)
  · have hb : (t.getD 0 0 == a >>> b && v.getD 0 false) = true := by
      simp only [Bool.and_eq_true, beq_iff_eq]; exact h
    simp only [access, lookup, getTag, hr1, List.find?_cons, hb, updateReplaceQ,
      List.getD_cons_zero, beq_self_eq_true, shiftLoop, List.set_cons_zero, if_pos h]
    rfl
  · have hb : (t.getD 0 0 == a >>> b && v.getD 0 false) = false := by
      rw [Bool.eq_false_iff]; simp only [ne_eq, Bool.and_eq_true, beq_iff_eq]; exact h
    simp only [access, lookup, getTag, hr1, List.find?_cons, hb, updateReplaceQ,
      List.getD_cons_zero, beq_self_eq_true, shiftLoop, List.set_cons_zero, if_neg h,
      List.find?_nil]
    rfl

end FullAssoCache

theorem DirectMapCache.getBlk_num_one (d : CacheModel) (a : Nat) (hn : d.m_block_num = 1) :
    DirectMapCache.getBlk_num d a = 0 := by
  simp [DirectMapCache.getBlk_num, hn]

theorem DirectMapCache.getTag_one (d : CacheModel) (a : Nat) (hn : d.m_block_num = 1)
    (hb : d.m_blksz_log < 2 ^ 32) :
    DirectMapCache.getTag d a = a >>> d.m_blksz_log := by
  have : Nat.log2 1 = 0 := by simp [Nat.log2]
  unfold DirectMapCache.getTag
  rw [hn, this, Nat.add_zero, Nat.mod_eq_of_lt hb]

theorem OneBlockRel.access {f d : CacheModel} (h : OneBlockRel f d) (a : Nat) :
    (FullAssoCache.access f a).1 = (DirectMapCache.access d a).1 ∧
    OneBlockRel (FullAssoCache.access f a).2 (DirectMapCache.access d a).2 := by
  have hft : FullAssoCache.getTag f a = a >>> d.m_blksz_log := by
    simp [FullAssoCache.getTag, h.blk]
  rw [FullAssoCache.access_one f a h.fn h.fq, DirectMapCache.dm_access_eq,
    DirectMapCache.getBlk_num_one d a h.dn, DirectMapCache.getTag_one d a h.dn h.blk_lt, hft,
    h.valids]
  by_cases hv : d.m_valids.getD 0 false = true
  · rw [h.tags hv]
    split_ifs with hc
    · exact ⟨rfl, h⟩
    · refine ⟨rfl, ?_⟩
      exact ⟨h.fn, h.dn, h.blk, h.blk_lt, h.fq, by simp [h.valids], by simp [h.flen],
        by simp [h.dlen], by simp [h.vlen], by simp [h.flen, h.dlen],
        h.rd_reqs, h.wr_reqs, h.rd_hits, h.wr_hits⟩
  · have h1 : ¬ (f.m_tags.getD 0 0 = a >>> d.m_blksz_log ∧ d.m_valids.getD 0 false = true) :=
      fun x => hv x.2
    have h2 : ¬ (d.m_tags.getD 0 0 = a >>> d.m_blksz_log ∧ d.m_valids.getD 0 false = true) :=
      fun x => hv x.2
    rw [if_neg h1, if_neg h2]
    refine ⟨rfl, ?_⟩
    exact ⟨h.fn, h.dn, h.blk, h.blk_lt, h.fq, by simp [h.valids], by simp [h.flen],
      by simp [h.dlen], by simp [h.vlen], by simp [h.flen, h.dlen],
      h.rd_reqs, h.wr_reqs, h.rd_hits, h.wr_hits⟩

theorem length_splice (base w : Nat) (B q : List α) (hB : B.length = w)
    (hq : base + w ≤ q.length) : (splice base w B q).length = q.length := by
  simp [splice, hB]; omega

theorem getElem?_splice (base w : Nat) (B q : List α) (hB : B.length = w)
    (hq : base + w ≤ q.length) (k : Nat) :
    (splice base w B q)[k]? =
      if k < base then q[k]? else if k < base + w then B[k - base]? else q[k]? := by
  have htake : (q.take base).length = base := by simp; omega
  simp only [splice, List.getElem?_append, List.length_append, htake, hB, List.getElem?_take,
    List.getElem?_drop]
  split_ifs <;> first
    | omega
    | rfl
    | (congr 1; omega)

theorem seg_splice_self (base w : Nat) (B q : List α) (hB : B.length = w)
    (hq : base + w ≤ q.length) : seg base w (splice base w B q) = B := by
  apply List.ext_getElem?
  intro k
  rw [getElem?_seg, getElem?_splice _ _ _ _ hB hq]
  split_ifs <;> first
    | omega
    | (congr 1; omega)
    | (symm; apply List.getElem?_eq_none; omega)

theorem seg_splice_other (base w base' w' : Nat) (B q : List α) (hB : B.length = w)
    (hq : base + w ≤ q.length) (hd : base' + w' ≤ base ∨ base + w ≤ base') :
    seg base' w' (splice base w B q) = seg base' w' q := by
  apply List.ext_getElem?
  intro k
  rw [getElem?_seg, getElem?_seg, getElem?_splice _ _ _ _ hB hq]
  split_ifs <;> first
    | omega
    | rfl

theorem seg_set_self (base w i : Nat) (x : α) (l : List α) (hi : i < w) :
    seg base w (l.set (base + i) x) = (seg base w l).set i x := by
  apply List.ext_getElem?
  intro k
  rw [getElem?_seg, List.getElem?_set, List.getElem?_set, getElem?_seg]
  simp only [seg, List.length_take, List.length_drop]
  split_ifs <;> first
    | omega
    | rfl

theorem seg_set_other (base w j : Nat) (x : α) (l : List α)
    (hj : j < base ∨ base + w ≤ j) : seg base w (l.set j x) = seg base w l := by
  apply List.ext_getElem?
  intro k
  simp only [getElem?_seg, List.getElem?_set]
  split_ifs <;> first
    | omega
    | rfl

theorem getD_seg (base w i : Nat) (d : α) (l : List α) (hi : i < w) :
    (seg base w l).getD i d = l.getD (base + i) d := by
  simp [getElem?_seg, hi]

theorem seg_zero_length (l : List α) : seg 0 l.length l = l := by
  simp [seg]

theorem find?_congr_mem {p q : α → Bool} (l : List α) (h : ∀ x ∈ l, p x = q x) :
    l.find? p = l.find? q := by
  induction l with
  | nil => rfl
  | cons a t ih =>
    simp only [List.find?_cons, h a (List.mem_cons_self a t)]
    rw [ih (fun x hx => h x (List.mem_cons_of_mem a hx))]

namespace SetAssoCache

theorem WF.set_le {c : SetAssoCache} (_h : WF c) {s : Nat} (hs : s < 2 ^ c.m_sets_log) :
    s * c.m_ass + c.m_ass ≤ 2 ^ c.m_sets_log * c.m_ass := by
  have := Nat.mul_le_mul_right c.m_ass (Nat.succ_le_of_lt hs)
  rwa [Nat.succ_mul] at this

theorem WF.slot_eq {c : SetAssoCache} (h : WF c) {s i : Nat} (hs : s < 2 ^ c.m_sets_log)
    (hi : i < c.m_ass) : slot c.m_ass s i = s * c.m_ass + i := by
  have h1 := h.set_le hs
  have h2 := h.fits
  unfold slot
  apply Nat.mod_eq_of_lt
  omega

theorem WF.getSet_num_lt {c : SetAssoCache} (h : WF c) (a : Nat) :
    getSet_num c a < 2 ^ c.m_sets_log := by
  have hpos : 0 < 2 ^ c.m_sets_log := Nat.pow_pos (by decide)
  have h1 : 2 ^ c.m_sets_log ≤ 2 ^ c.m_sets_log * c.m_ass := Nat.le_mul_of_pos_right _ h.ass_pos
  have h2 := h.fits
  unfold getSet_num
  rw [Nat.one_shiftLeft, Nat.mod_eq_of_lt (by omega)]
  have h3 : (a >>> c.m_blksz_log) &&& (2 ^ c.m_sets_log - 1) ≤ 2 ^ c.m_sets_log - 1 :=
    Nat.and_le_right
  omega

theorem WF.sa_shiftLoop_eq {c : SetAssoCache} (h : WF c) {s : Nat} (hs : s < 2 ^ c.m_sets_log)
    (cnt j : Nat) (q : List Nat) (hj : j + cnt < c.m_ass) :
    shiftLoop c.m_ass s cnt j q = shiftAt (s * c.m_ass) cnt j q := by
  induction cnt generalizing j q with
  | zero => rfl
  | succ n ih =>
    rw [shiftLoop, shiftAt, h.slot_eq hs (show j < c.m_ass by omega),
      h.slot_eq hs (show j + 1 < c.m_ass by omega), ih (j + 1) _ (by omega)]
    rfl

theorem WF.seg_len {c : SetAssoCache} (h : WF c) {s : Nat} (hs : s < 2 ^ c.m_sets_log) :
    s * c.m_ass + c.m_ass ≤ c.base.m_replace_q.length ∧
    s * c.m_ass + c.m_ass ≤ c.base.m_tags.length ∧
    s * c.m_ass + c.m_ass ≤ c.base.m_valids.length := by
  have h1 := h.set_le hs
  rw [h.q_len, h.tags_len, h.valids_len, h.block_num]
  exact ⟨h1, h1, h1⟩

theorem WF.mem_seg {c : SetAssoCache} (h : WF c) {s : Nat} (hs : s < 2 ^ c.m_sets_log)
    (x : Nat) :
    x ∈ seg (s * c.m_ass) c.m_ass c.base.m_replace_q ↔
      s * c.m_ass ≤ x ∧ x < s * c.m_ass + c.m_ass := by
  rw [(h.seg_perm s hs).mem_iff, List.mem_range']
  constructor
  · rintro ⟨i, hi, rfl⟩
    omega
  · rintro ⟨h1, h2⟩
    exact ⟨x - s * c.m_ass, by omega, by omega⟩

/-- The recency update inside the set of `x`: `x` moves to the tail of its set's
segment of the queue, everything else stays. -/
theorem WF.sa_updateReplaceQ_eq {c : SetAssoCache} (h : WF c) {s : Nat}
    (hs : s < 2 ^ c.m_sets_log) (x : Nat) (hx1 : s * c.m_ass ≤ x)
    (hx2 : x < s * c.m_ass + c.m_ass) :
    updateReplaceQ c x =
      { c with base := { c.base with
          m_replace_q := splice (s * c.m_ass) c.m_ass
            ((seg (s * c.m_ass) c.m_ass c.base.m_replace_q).erase x ++ [x])
            c.base.m_replace_q } } := by
  have hdiv : x / c.m_ass = s := Nat.div_eq_of_lt_le hx1 (by rw [Nat.succ_mul]; exact hx2)
  have hlen := (h.seg_len hs).1
  have hsl := length_seg _ _ _ hlen
  have hmem := (h.mem_seg hs x).mpr ⟨hx1, hx2⟩
  have hfind : (List.range c.m_ass).find?
      (fun i => c.base.m_replace_q.getD (slot c.m_ass s i) 0 == x) =
      some ((seg (s * c.m_ass) c.m_ass c.base.m_replace_q).indexOf x) := by
    rw [find?_congr_mem (q := fun i => (seg (s * c.m_ass) c.m_ass c.base.m_replace_q).getD i 0 == x)]
    · have := find?_range_getD (seg (s * c.m_ass) c.m_ass c.base.m_replace_q) x
      rw [hsl, if_pos hmem] at this
      exact this
    · intro i hi
      rw [List.mem_range] at hi
      rw [h.slot_eq hs hi, getD_seg _ _ _ _ _ hi]
  have hidx : (seg (s * c.m_ass) c.m_ass c.base.m_replace_q).indexOf x < c.m_ass := by
    have := List.indexOf_lt_length.mpr hmem
    rwa [hsl] at this
  have hlast : (s * c.m_ass + c.m_ass + 2 ^ 32 - 1) % 2 ^ 32 = s * c.m_ass + c.m_ass - 1 := by
    have h1 := h.set_le hs
    have h2 := h.fits
    have h3 := h.ass_pos
    omega
  unfold updateReplaceQ
  simp only [hdiv, hfind, hlast]
  rw [h.sa_shiftLoop_eq hs _ _ _ (by omega), shiftAt_set_eq _ _ _ _ _ hlen hidx,
    List.eraseIdx_indexOf_eq_erase]
  rfl

end SetAssoCache

theorem map_sub_erase (base x : Nat) (l : List Nat) (hl : ∀ y ∈ l, base ≤ y) (hx : base ≤ x) :
    (l.erase x).map (· - base) = (l.map (· - base)).erase (x - base) := by
  induction l with
  | nil => rfl
  | cons a t ih =>
    have ha : base ≤ a := hl a (List.mem_cons_self a t)
    have ht : ∀ y ∈ t, base ≤ y := fun y hy => hl y (List.mem_cons_of_mem a hy)
    by_cases hax : a = x
    · subst hax
      simp
    · have hne : a - base ≠ x - base := by omega
      rw [List.erase_cons_tail (by simpa using hax), List.map_cons, List.map_cons,
        List.erase_cons_tail (by simpa using hne), ih ht]

namespace SetAssoCache

theorem WF.view_wf {c : SetAssoCache} (h : WF c) {s : Nat} (hs : s < 2 ^ c.m_sets_log) :
    FullAssoCache.WF (view c s) := by
  obtain ⟨h1, h2, h3⟩ := h.seg_len hs
  refine ⟨length_seg _ _ _ h3, length_seg _ _ _ h2, ?_⟩
  have := (h.seg_perm s hs).map (· - s * c.m_ass)
  rw [List.map_sub_range' _ _ _ (Nat.le_refl _), Nat.sub_self, ← List.range_eq_range'] at this
  exact this

theorem WF.lookup_view {c : SetAssoCache} (h : WF c) (a : Nat) :
    lookup c a =
      (FullAssoCache.lookup (view c (getSet_num c a)) (getTag c a)).map
        (getSet_num c a * c.m_ass + ·) := by
  have hs := h.getSet_num_lt a
  unfold lookup FullAssoCache.lookup FullAssoCache.getTag
  simp only [view, Nat.shiftRight_zero]
  rw [find?_congr_mem (q := fun i =>
      (seg (getSet_num c a * c.m_ass) c.m_ass c.base.m_tags).getD i 0 == getTag c a &&
      (seg (getSet_num c a * c.m_ass) c.m_ass c.base.m_valids).getD i false)]
  · cases hf : (List.range c.m_ass).find? (fun i =>
      (seg (getSet_num c a * c.m_ass) c.m_ass c.base.m_tags).getD i 0 == getTag c a &&
      (seg (getSet_num c a * c.m_ass) c.m_ass c.base.m_valids).getD i false) with
    | none => rfl
    | some i =>
      have hi := List.mem_range.mp (List.mem_of_find?_eq_some hf)
      simp only [Option.map_some', h.slot_eq hs hi]
  · intro i hi
    rw [List.mem_range] at hi
    rw [h.slot_eq hs hi, getD_seg _ _ _ _ _ hi, getD_seg _ _ _ _ _ hi]

/-- The head of a set's queue segment is a slot of that set. -/
theorem WF.victim_mem {c : SetAssoCache} (h : WF c) {s : Nat} (hs : s < 2 ^ c.m_sets_log) :
    s * c.m_ass ≤ c.base.m_replace_q.getD (s * c.m_ass) 0 ∧
    c.base.m_replace_q.getD (s * c.m_ass) 0 < s * c.m_ass + c.m_ass := by
  have hlen := (h.seg_len hs).1
  have hpos := h.ass_pos
  have hlt : s * c.m_ass < c.base.m_replace_q.length := by omega
  have hmem : c.base.m_replace_q.getD (s * c.m_ass) 0 ∈
      seg (s * c.m_ass) c.m_ass c.base.m_replace_q := by
    apply List.getElem?_mem (n := 0)
    rw [getElem?_seg, if_pos (by omega)]
    simp [List.getElem?_eq_getElem hlt]
  exact (h.mem_seg hs _).mp hmem

/-- What `access` does, written on the set of the address. -/
theorem WF.sa_access_eq {c : SetAssoCache} (h : WF c) (a : Nat) :
    access c a =
      match FullAssoCache.lookup (view c (getSet_num c a)) (getTag c a) with
      | some i =>
        (true, { c with base := { c.base with
          m_replace_q := splice (getSet_num c a * c.m_ass) c.m_ass
            ((seg (getSet_num c a * c.m_ass) c.m_ass c.base.m_replace_q).erase
                (getSet_num c a * c.m_ass + i) ++ [getSet_num c a * c.m_ass + i])
            c.base.m_replace_q } })
      | none =>
        (false, { c with base := { c.base with
          m_tags := c.base.m_tags.set
            (c.base.m_replace_q.getD (getSet_num c a * c.m_ass) 0) (getTag c a)
          m_valids := c.base.m_valids.set
            (c.base.m_replace_q.getD (getSet_num c a * c.m_ass) 0) true
          m_replace_q := splice (getSet_num c a * c.m_ass) c.m_ass
            ((seg (getSet_num c a * c.m_ass) c.m_ass c.base.m_replace_q).erase
                (c.base.m_replace_q.getD (getSet_num c a * c.m_ass) 0) ++
              [c.base.m_replace_q.getD (getSet_num c a * c.m_ass) 0])
            c.base.m_replace_q } }) := by
  have hs := h.getSet_num_lt a
  unfold access
  simp only [h.lookup_view a]
  cases hf : FullAssoCache.lookup (view c (getSet_num c a)) (getTag c a) with
  | some i =>
    have hi : i < c.m_ass := (FullAssoCache.lookup_some hf).1
    simp only [Option.map_some']
    rw [h.sa_updateReplaceQ_eq hs _ (by omega) (by omega)]
  | none =>
    simp only [Option.map_none']
    rw [h.slot_eq hs h.ass_pos, Nat.add_zero]
    have hv := h.victim_mem hs
    have hwf2 : WF { c with base := { c.base with
        m_tags := c.base.m_tags.set
          (c.base.m_replace_q.getD (getSet_num c a * c.m_ass) 0) (getTag c a)
        m_valids := c.base.m_valids.set
          (c.base.m_replace_q.getD (getSet_num c a * c.m_ass) 0) true } } :=
      ⟨h.ass_pos, h.block_num, h.fits, by simpa using h.valids_len, by simpa using h.tags_len,
        h.q_len, h.seg_perm⟩
    rw [hwf2.sa_updateReplaceQ_eq hs _ hv.1 hv.2]

end SetAssoCache

theorem erase_head_eq_tail (l : List Nat) : l.erase (l.getD 0 0) = l.tail := by
  cases l with
  | nil => rfl
  | cons a t => simp

theorem sets_disjoint (s s' w : Nat) (hne : s' ≠ s) :
    s' * w + w ≤ s * w ∨ s * w + w ≤ s' * w := by
  rcases Nat.lt_or_gt_of_ne hne with h | h
  · left
    have := Nat.mul_le_mul_right w (Nat.succ_le_of_lt h)
    rwa [Nat.succ_mul] at this
  · right
    have := Nat.mul_le_mul_right w (Nat.succ_le_of_lt h)
    rwa [Nat.succ_mul] at this

namespace SetAssoCache

/-- Moving a member to the tail of a set's segment keeps the invariant. -/
theorem WF.touch {c : SetAssoCache} (h : WF c) {s : Nat} (hs : s < 2 ^ c.m_sets_log) (x : Nat)
    (hx : x ∈ seg (s * c.m_ass) c.m_ass c.base.m_replace_q)
    (t : List Nat) (v : List Bool) (ht : t.length = c.base.m_tags.length)
    (hv : v.length = c.base.m_valids.length) :
    WF { c with base := { c.base with
      m_tags := t
      m_valids := v
      m_replace_q := splice (s * c.m_ass) c.m_ass
        ((seg (s * c.m_ass) c.m_ass c.base.m_replace_q).erase x ++ [x]) c.base.m_replace_q } } := by
  have hlen := (h.seg_len hs).1
  have hsl := length_seg _ _ _ hlen
  have hB : ((seg (s * c.m_ass) c.m_ass c.base.m_replace_q).erase x ++ [x]).length = c.m_ass := by
    rw [List.length_append, List.length_erase_of_mem hx, hsl, List.length_singleton]
    have := h.ass_pos
    omega
  refine ⟨h.ass_pos, h.block_num, h.fits, hv.trans h.valids_len, ht.trans h.tags_len, ?_, ?_⟩
  · exact (length_splice _ _ _ _ hB hlen).trans h.q_len
  · intro s' hs'
    show (seg (s' * c.m_ass) c.m_ass (splice _ _ _ _)).Perm _
    by_cases hne : s' = s
    · subst hne
      rw [seg_splice_self _ _ _ _ hB hlen]
      exact (List.perm_append_comm.trans (List.perm_cons_erase hx).symm).trans (h.seg_perm s' hs)
    · rw [seg_splice_other _ _ _ _ _ _ hB hlen (sets_disjoint s s' c.m_ass hne)]
      exact h.seg_perm s' hs'

theorem WF.victim_mem_seg {c : SetAssoCache} (h : WF c) {s : Nat} (hs : s < 2 ^ c.m_sets_log) :
    c.base.m_replace_q.getD (s * c.m_ass) 0 ∈ seg (s * c.m_ass) c.m_ass c.base.m_replace_q :=
  (h.mem_seg hs _).mpr (h.victim_mem hs)

theorem WF.sa_step {c : SetAssoCache} (h : WF c) (a : Nat) : WF (access c a).2 := by
  have hs := h.getSet_num_lt a
  rw [h.sa_access_eq a]
  cases hf : FullAssoCache.lookup (view c (getSet_num c a)) (getTag c a) with
  | some i =>
    have hi : i < c.m_ass := (FullAssoCache.lookup_some hf).1
    exact h.touch hs _ ((h.mem_seg hs _).mpr ⟨by omega, by omega⟩) _ _ rfl rfl
  | none =>
    exact h.touch hs _ (h.victim_mem_seg hs) _ _ (by simp) (by simp)

/-- Method `access` touches neither the geometry nor the counters. -/
theorem sa_access_frame (c : SetAssoCache) (a : Nat) :
    (access c a).2.m_sets_log = c.m_sets_log ∧ (access c a).2.m_blksz_log = c.m_blksz_log ∧
    (access c a).2.m_ass = c.m_ass ∧
    (access c a).2.base.m_block_num = c.base.m_block_num ∧
    (access c a).2.base.m_blksz_log = c.base.m_blksz_log ∧
    (access c a).2.base.m_rd_reqs = c.base.m_rd_reqs ∧
    (access c a).2.base.m_wr_reqs = c.base.m_wr_reqs ∧
    (access c a).2.base.m_rd_hits = c.base.m_rd_hits ∧
    (access c a).2.base.m_wr_hits = c.base.m_wr_hits := by
  unfold access lookup updateReplaceQ getTag getSet_num
  simp only
  split <;> split <;> simp

/-- On the set of the address, `access` is the fully associative `access` of
the view, called with the tag. -/
theorem WF.access_view {c : SetAssoCache} (h : WF c) (a : Nat) :
    (access c a).1 = (FullAssoCache.access (view c (getSet_num c a)) (getTag c a)).1 ∧
    view (access c a).2 (getSet_num c a) =
      (FullAssoCache.access (view c (getSet_num c a)) (getTag c a)).2 := by
  have hs := h.getSet_num_lt a
  have hvw := h.view_wf hs
  obtain ⟨hl1, hl2, hl3⟩ := h.seg_len hs
  have hsl := length_seg _ _ _ hl1
  have hge : ∀ y ∈ seg (getSet_num c a * c.m_ass) c.m_ass c.base.m_replace_q,
      getSet_num c a * c.m_ass ≤ y := fun y hy => ((h.mem_seg hs y).mp hy).1
  rw [h.sa_access_eq a]
  cases hf : FullAssoCache.lookup (view c (getSet_num c a)) (getTag c a) with
  | some i =>
    have hi : i < c.m_ass := (FullAssoCache.lookup_some hf).1
    have hx : getSet_num c a * c.m_ass + i ∈
        seg (getSet_num c a * c.m_ass) c.m_ass c.base.m_replace_q :=
      (h.mem_seg hs _).mpr ⟨by omega, by omega⟩
    have hB : ((seg (getSet_num c a * c.m_ass) c.m_ass c.base.m_replace_q).erase
        (getSet_num c a * c.m_ass + i) ++ [getSet_num c a * c.m_ass + i]).length = c.m_ass := by
      rw [List.length_append, List.length_erase_of_mem hx, hsl, List.length_singleton]
      omega
    rw [FullAssoCache.access_hit hvw hf]
    refine ⟨rfl, ?_⟩
    simp only [view, seg_splice_self _ _ _ _ hB hl1, List.map_append, List.map_cons, List.map_nil,
      map_sub_erase _ _ _ hge (Nat.le_add_right _ _), Nat.add_sub_cancel_left]
  | none =>
    have hv := h.victim_mem hs
    have hx := h.victim_mem_seg hs
    have hB : ((seg (getSet_num c a * c.m_ass) c.m_ass c.base.m_replace_q).erase
        (c.base.m_replace_q.getD (getSet_num c a * c.m_ass) 0) ++
        [c.base.m_replace_q.getD (getSet_num c a * c.m_ass) 0]).length = c.m_ass := by
      rw [List.length_append, List.length_erase_of_mem hx, hsl, List.length_singleton]
      have := h.ass_pos
      omega
    have hhead : (view c (getSet_num c a)).m_replace_q.getD 0 0 =
        c.base.m_replace_q.getD (getSet_num c a * c.m_ass) 0 - getSet_num c a * c.m_ass := by
      have hlt : getSet_num c a * c.m_ass < c.base.m_replace_q.length := by
        have := h.ass_pos
        omega
      have hap : 0 < c.m_ass := h.ass_pos
      simp [view, getElem?_seg, hap, List.getElem?_eq_getElem hlt]
    have hvpos : 1 ≤ (view c (getSet_num c a)).m_block_num := h.ass_pos
    rw [FullAssoCache.access_miss hvw hvpos hf, ← erase_head_eq_tail, hhead]
    refine ⟨rfl, ?_⟩
    have hsplit : c.base.m_replace_q.getD (getSet_num c a * c.m_ass) 0 =
        getSet_num c a * c.m_ass +
          (c.base.m_replace_q.getD (getSet_num c a * c.m_ass) 0 - getSet_num c a * c.m_ass) := by
      omega
    have hj : c.base.m_replace_q.getD (getSet_num c a * c.m_ass) 0 - getSet_num c a * c.m_ass
        < c.m_ass := by omega
    simp only [view, seg_splice_self _ _ _ _ hB hl1, List.map_append, List.map_cons, List.map_nil,
      map_sub_erase _ _ _ hge hv.1, FullAssoCache.getTag, Nat.shiftRight_zero]
    conv_lhs => rw [hsplit, seg_set_self _ _ _ _ _ hj, seg_set_self _ _ _ _ _ hj]
    simp only [← hsplit]

/-- The other sets are not affected by an access. -/
theorem WF.access_view_other {c : SetAssoCache} (h : WF c) (a : Nat) {s' : Nat}
    (hne : s' ≠ getSet_num c a) :
    view (access c a).2 s' = view c s' := by
  have hs := h.getSet_num_lt a
  obtain ⟨hl1, hl2, hl3⟩ := h.seg_len hs
  have hsl := length_seg _ _ _ hl1
  have hdis := sets_disjoint (getSet_num c a) s' c.m_ass hne
  rw [h.sa_access_eq a]
  cases hf : FullAssoCache.lookup (view c (getSet_num c a)) (getTag c a) with
  | some i =>
    have hi : i < c.m_ass := (FullAssoCache.lookup_some hf).1
    have hx : getSet_num c a * c.m_ass + i ∈
        seg (getSet_num c a * c.m_ass) c.m_ass c.base.m_replace_q :=
      (h.mem_seg hs _).mpr ⟨by omega, by omega⟩
    have hB : ((seg (getSet_num c a * c.m_ass) c.m_ass c.base.m_replace_q).erase
        (getSet_num c a * c.m_ass + i) ++ [getSet_num c a * c.m_ass + i]).length = c.m_ass := by
      rw [List.length_append, List.length_erase_of_mem hx, hsl, List.length_singleton]
      omega
    simp only [view, seg_splice_other _ _ _ _ _ _ hB hl1 hdis]
  | none =>
    have hv := h.victim_mem hs
    have hx := h.victim_mem_seg hs
    have hB : ((seg (getSet_num c a * c.m_ass) c.m_ass c.base.m_replace_q).erase
        (c.base.m_replace_q.getD (getSet_num c a * c.m_ass) 0) ++
        [c.base.m_replace_q.getD (getSet_num c a * c.m_ass) 0]).length = c.m_ass := by
      rw [List.length_append, List.length_erase_of_mem hx, hsl, List.length_singleton]
      have := h.ass_pos
      omega
    have hout : c.base.m_replace_q.getD (getSet_num c a * c.m_ass) 0 < s' * c.m_ass ∨
        s' * c.m_ass + c.m_ass ≤ c.base.m_replace_q.getD (getSet_num c a * c.m_ass) 0 := by
      omega
    simp only [view, seg_splice_other _ _ _ _ _ _ hB hl1 hdis, seg_set_other _ _ _ _ _ hout]

end SetAssoCache

theorem seg_range (base w n : Nat) (h : base + w ≤ n) :
    seg base w (List.range n) = List.range' base w := by
  apply List.ext_getElem?
  intro k
  rw [getElem?_seg]
  by_cases hk : k < w
  · rw [if_pos hk, List.getElem?_range (by omega), List.getElem?_range' _ _ hk]
    simp
  · rw [if_neg hk, List.getElem?_eq_none (by simp; omega)]

namespace SetAssoCache

theorem sa_WF_new (k b ass : Nat) (u : Nat → Nat) (hass : 1 ≤ ass) (hfit : 2 ^ k * ass < 2 ^ 32) :
    WF (new k b ass u) := by
  have hbn : ((1 <<< k) * ass) % 2 ^ 32 = 2 ^ k * ass := by
    rw [Nat.one_shiftLeft, Nat.mod_eq_of_lt hfit]
  refine ⟨hass, hbn, hfit, ?_, ?_, ?_, ?_⟩
  · simp [new, CacheModel.new]
  · simp [new, CacheModel.new]
  · simp [new, CacheModel.new]
  · intro s hs
    have hle : s * ass + ass ≤ 2 ^ k * ass := by
      have := Nat.mul_le_mul_right ass (Nat.succ_le_of_lt hs)
      rwa [Nat.succ_mul] at this
    show (seg (s * ass) ass (List.range (((1 <<< k) * ass) % 2 ^ 32))).Perm _
    rw [hbn, seg_range _ _ _ hle]
    exact List.Perm.refl _

/-- Counter updates do not disturb the invariant. -/
theorem WF.sa_counters {c : SetAssoCache} (h : WF c) (r1 r2 r3 r4 : Nat) :
    WF { c with base := { c.base with
      m_rd_reqs := r1, m_wr_reqs := r2, m_rd_hits := r3, m_wr_hits := r4 } } :=
  ⟨h.ass_pos, h.block_num, h.fits, h.valids_len, h.tags_len, h.q_len, h.seg_perm⟩

theorem WF.readReq_wf {c : SetAssoCache} (h : WF c) (a : Nat) : WF (readReq c a) := by
  unfold readReq
  simp only
  have h1 : WF { c with base := c.base.incRdReqs } := h.sa_counters _ _ _ _
  have h2 := h1.sa_step a
  split_ifs
  · exact h2.sa_counters _ _ _ _
  · exact h2

theorem WF.writeReq_wf {c : SetAssoCache} (h : WF c) (a : Nat) : WF (writeReq c a) := by
  unfold writeReq
  simp only
  have h1 : WF { c with base := c.base.incWrReqs } := h.sa_counters _ _ _ _
  have h2 := h1.sa_step a
  split_ifs
  · exact h2.sa_counters _ _ _ _
  · exact h2

theorem readReq_geom (c : SetAssoCache) (a : Nat) :
    (readReq c a).m_sets_log = c.m_sets_log ∧ (readReq c a).m_ass = c.m_ass := by
  unfold readReq
  simp only
  have := sa_access_frame { c with base := c.base.incRdReqs } a
  split_ifs
  · exact ⟨this.1, this.2.2.1⟩
  · exact ⟨this.1, this.2.2.1⟩

theorem writeReq_geom (c : SetAssoCache) (a : Nat) :
    (writeReq c a).m_sets_log = c.m_sets_log ∧ (writeReq c a).m_ass = c.m_ass := by
  unfold writeReq
  simp only
  have := sa_access_frame { c with base := c.base.incWrReqs } a
  split_ifs
  · exact ⟨this.1, this.2.2.1⟩
  · exact ⟨this.1, this.2.2.1⟩

theorem Reachable.geom {k b ass : Nat} {u : Nat → Nat} {c : SetAssoCache}
    (hr : Reachable k b ass u c) : c.m_sets_log = k ∧ c.m_ass = ass := by
  induction hr with
  | ctor => exact ⟨rfl, rfl⟩
  | readReq c a _ ih => exact ⟨(readReq_geom c a).1.trans ih.1, (readReq_geom c a).2.trans ih.2⟩
  | writeReq c a _ ih => exact ⟨(writeReq_geom c a).1.trans ih.1, (writeReq_geom c a).2.trans ih.2⟩

theorem Reachable.sa_wf {k b ass : Nat} {u : Nat → Nat} {c : SetAssoCache}
    (hr : Reachable k b ass u c) (hass : 1 ≤ ass) (hfit : 2 ^ k * ass < 2 ^ 32) : WF c := by
  induction hr with
  | ctor => exact sa_WF_new k b ass u hass hfit
  | readReq c a _ ih => exact ih.readReq_wf a
  | writeReq c a _ ih => exact ih.writeReq_wf a

theorem sa_lookup_congr {c d : SetAssoCache} (a : Nat) (h1 : c.m_sets_log = d.m_sets_log)
    (h2 : c.m_blksz_log = d.m_blksz_log) (h3 : c.m_ass = d.m_ass)
    (h4 : c.base.m_tags = d.base.m_tags) (h5 : c.base.m_valids = d.base.m_valids) :
    lookup c a = lookup d a := by
  simp only [lookup, getTag, getSet_num, slot, h1, h2, h3, h4, h5]

theorem sa_access_fst (c : SetAssoCache) (a : Nat) : (access c a).1 = (lookup c a).isSome := by
  unfold access
  simp only
  cases lookup c a <;> rfl

/-- After any access the accessed block is present: a second lookup succeeds. -/
theorem WF.sa_lookup_after_access {c : SetAssoCache} (h : WF c) (a : Nat) :
    lookup (access c a).2 a ≠ none := by
  have hf := sa_access_frame c a
  have hs := h.getSet_num_lt a
  have hset : getSet_num (access c a).2 a = getSet_num c a := by
    simp only [getSet_num, hf.1, hf.2.1]
  have htag : getTag (access c a).2 a = getTag c a := by
    simp only [getTag, hf.1, hf.2.1]
  rw [(h.sa_step a).lookup_view a, hset, htag, (h.access_view a).2]
  have := FullAssoCache.fa_lookup_after_access (h.view_wf hs) h.ass_pos (getTag c a)
  have hg : FullAssoCache.getTag (view c (getSet_num c a)) (getTag c a) = getTag c a := by
    simp [FullAssoCache.getTag, view]
  cases hl : FullAssoCache.lookup
      (FullAssoCache.access (view c (getSet_num c a)) (getTag c a)).2 (getTag c a) with
  | none => exact absurd hl this
  | some i => simp

theorem sa_access_incRdReqs (c : SetAssoCache) (a : Nat) :
    access { c with base := c.base.incRdReqs } a =
      ((access c a).1, { (access c a).2 with base := (access c a).2.base.incRdReqs }) := by
  unfold access lookup updateReplaceQ getTag getSet_num slot CacheModel.incRdReqs
  simp only
  split <;> split <;> rfl

theorem sa_access_incWrReqs (c : SetAssoCache) (a : Nat) :
    access { c with base := c.base.incWrReqs } a =
      ((access c a).1, { (access c a).2 with base := (access c a).2.base.incWrReqs }) := by
  unfold access lookup updateReplaceQ getTag getSet_num slot CacheModel.incWrReqs
  simp only
  split <;> split <;> rfl

theorem sa_readReq_hit_of_present {c : SetAssoCache} (a : Nat) (h : lookup c a ≠ none) :
    (readReq c a).base.m_rd_hits = (c.base.m_rd_hits + 1) % 2 ^ 64 := by
  have h1 : (access { c with base := c.base.incRdReqs } a).1 = true := by
    rw [sa_access_incRdReqs, sa_access_fst]
    cases hl : lookup c a with
    | none => exact absurd hl h
    | some i => rfl
  unfold readReq
  simp only [h1, if_true]
  rw [sa_access_incRdReqs]
  simp only [CacheModel.incRdHits, CacheModel.incRdReqs, (sa_access_frame c a).2.2.2.2.2.2.2.1]

theorem WF.sa_lookup_readReq_self {c : SetAssoCache} (h : WF c) (a : Nat) :
    lookup (readReq c a) a ≠ none := by
  have h1 := h.sa_lookup_after_access a
  unfold readReq
  simp only [sa_access_incRdReqs]
  split_ifs
  · intro hn
    apply h1
    rw [← hn]
    apply sa_lookup_congr <;> rfl
  · intro hn
    apply h1
    rw [← hn]
    apply sa_lookup_congr <;> rfl

theorem sa_repeat_read_hits {k b ass : Nat} {u : Nat → Nat} {c : SetAssoCache}
    (hr : Reachable k b ass u c) (hass : 1 ≤ ass) (hfit : 2 ^ k * ass < 2 ^ 32) (a : Nat) :
    (readReq (readReq c a) a).base.m_rd_hits =
      ((readReq c a).base.m_rd_hits + 1) % 2 ^ 64 :=
  sa_readReq_hit_of_present a ((hr.sa_wf hass hfit).sa_lookup_readReq_self a)

end SetAssoCache

namespace FullAssoCache

theorem fillState_nil (k b : Nat) (u : Nat → Nat) : fillState k b u [] = new k b u := by
  simp [fillState, new, CacheModel.new, List.range_eq_range']

theorem fillState_wf (k b : Nat) (u : Nat → Nat) (ts : List Nat) (h : ts.length ≤ k) :
    WF (fillState k b u ts) := by
  refine ⟨?_, ?_, ?_⟩
  · simp [fillState]; omega
  · simp [fillState]; omega
  · show (List.range' ts.length (k - ts.length) ++ List.range ts.length).Perm (List.range k)
    refine List.perm_append_comm.trans ?_
    have := List.range'_append 0 ts.length (k - ts.length) 1
    simp only [Nat.zero_add, Nat.one_mul] at this
    rw [List.range_eq_range', this, List.range_eq_range']
    have : k - ts.length + ts.length = k := by omega
    rw [this]

theorem fillState_lookup_none (k b : Nat) (u : Nat → Nat) (ts : List Nat) (a : Nat)
    (hlen : ts.length ≤ k) (hnew : a >>> b ∉ ts) : lookup (fillState k b u ts) a = none := by
  cases hl : lookup (fillState k b u ts) a with
  | none => rfl
  | some i =>
    exfalso
    obtain ⟨hi, ht, hv⟩ := lookup_some hl
    simp only [fillState, getTag] at hi ht hv
    by_cases hij : i < ts.length
    · apply hnew
      rw [← ht]
      simp [List.getElem?_append_left hij, List.getElem?_eq_getElem hij]
    · have h2 : i - ts.length < k - ts.length := by omega
      rw [List.getD_eq_getElem?_getD, List.getElem?_append_right
        (by simpa using Nat.le_of_not_lt hij)] at hv
      simp [h2] at hv

theorem fillState_step (k b : Nat) (u : Nat → Nat) (ts : List Nat) (a : Nat)
    (hlen : ts.length < k) (hnew : a >>> b ∉ ts) :
    access (fillState k b u ts) a = (false, fillState k b u (ts ++ [a >>> b])) := by
  have hwf := fillState_wf k b u ts (Nat.le_of_lt hlen)
  rw [access_miss hwf (show 1 ≤ k by omega) (fillState_lookup_none k b u ts a (Nat.le_of_lt hlen) hnew)]
  have hq : List.range' ts.length (k - ts.length) =
      ts.length :: List.range' (ts.length + 1) (k - (ts.length + 1)) := by
    have : k - ts.length = (k - (ts.length + 1)) + 1 := by omega
    rw [this, List.range'_succ]
  have hhead : (fillState k b u ts).m_replace_q.getD 0 0 = ts.length := by
    simp [fillState, hq]
  rw [hhead]
  simp only [fillState, getTag, List.length_append, List.length_singleton, Prod.mk.injEq,
    true_and, CacheModel.mk.injEq, and_true]
  refine ⟨?_, ?_, ?_⟩
  · apply List.ext_getElem?
    intro n
    simp only [List.getElem?_set, List.getElem?_append, List.length_replicate,
      List.getElem?_replicate, List.length_append]
    split_ifs <;> first
      | omega
      | rfl
  · apply List.ext_getElem?
    intro n
    simp only [List.getElem?_set, List.getElem?_append, List.length_append, List.length_drop,
      List.length_map, List.length_range, List.length_singleton, List.getElem?_drop]
    split_ifs <;> first
      | omega
      | (congr 1; omega)
      | (have hn : n - ts.length = 0 := by omega
         simp [hn])
  · rw [hq, List.range_succ]
    simp

end FullAssoCache

theorem age_snoc (tr : List Nat) (t x : Nat) :
    age (tr ++ [t]) x = if x = t then 0 else age tr x + 1 := by
  unfold age
  rw [List.reverse_append, List.reverse_singleton, List.singleton_append]
  split_ifs with h
  · exact List.indexOf_cons_eq _ h.symm
  · exact List.indexOf_cons_ne _ (fun e => h e.symm)

theorem getD_ne_of_nodup (ts : List Nat) (hnd : ts.Nodup) (i j : Nat) (hi : i < ts.length)
    (hj : j < ts.length) (hij : i ≠ j) : ts.getD i 0 ≠ ts.getD j 0 := by
  simp only [List.getD_eq_getElem?_getD, List.getElem?_eq_getElem hi,
    List.getElem?_eq_getElem hj, Option.getD_some]
  intro h
  exact hij ((hnd.getElem_inj_iff).mp h)

theorem getD_mem (ts : List Nat) (i : Nat) (hi : i < ts.length) : ts.getD i 0 ∈ ts := by
  simp only [List.getD_eq_getElem?_getD, List.getElem?_eq_getElem hi, Option.getD_some]
  exact List.getElem_mem hi

/-- After a cold fill with distinct tags the slots are ordered by age. -/
theorem range_sorted_by_age (ts : List Nat) (hnd : ts.Nodup) :
    (List.range ts.length).Pairwise
      (fun i j => age ts (ts.getD j 0) < age ts (ts.getD i 0)) := by
  induction ts using List.reverseRecOn with
  | nil => simp
  | append_singleton ts t ih =>
    have hnd' : ts.Nodup := (List.nodup_append.mp hnd).1
    have ht : t ∉ ts := fun hm =>
      (List.nodup_append.mp hnd).2.2 hm (List.mem_singleton_self t)
    rw [List.length_append, List.length_singleton, List.range_succ, List.pairwise_append]
    refine ⟨?_, List.pairwise_singleton _ _, ?_⟩
    · refine (ih hnd').imp_of_mem ?_
      intro i j hi hj hR
      rw [List.mem_range] at hi hj
      have e1 : (ts ++ [t]).getD i 0 = ts.getD i 0 := by simp [List.getElem?_append_left hi]
      have e2 : (ts ++ [t]).getD j 0 = ts.getD j 0 := by simp [List.getElem?_append_left hj]
      have n1 : ts.getD i 0 ≠ t := fun e => ht (e ▸ getD_mem ts i hi)
      have n2 : ts.getD j 0 ≠ t := fun e => ht (e ▸ getD_mem ts j hj)
      rw [e1, e2, age_snoc, age_snoc, if_neg n1, if_neg n2]
      omega
    · intro i hi j hj
      rw [List.mem_range] at hi
      rw [List.mem_singleton] at hj
      subst hj
      have e1 : (ts ++ [t]).getD i 0 = ts.getD i 0 := by simp [List.getElem?_append_left hi]
      have e2 : (ts ++ [t]).getD ts.length 0 = t := by simp
      have n1 : ts.getD i 0 ≠ t := fun e => ht (e ▸ getD_mem ts i hi)
      rw [e1, e2, age_snoc, age_snoc, if_neg n1, if_pos rfl]
      omega

namespace FullAssoCache

theorem fa_accesses_append (c : CacheModel) (l1 l2 : List Nat) :
    accesses c (l1 ++ l2) =
      ((accesses c l1).1 ++ (accesses (accesses c l1).2 l2).1,
        (accesses (accesses c l1).2 l2).2) := by
  induction l1 generalizing c with
  | nil => rfl
  | cons a t ih =>
    show ((access c a).1 :: (accesses (access c a).2 (t ++ l2)).1,
      (accesses (access c a).2 (t ++ l2)).2) = _
    rw [ih]
    rfl

theorem fillState_accesses (k b : Nat) (u : Nat → Nat) (ts as : List Nat)
    (hlen : ts.length + as.length ≤ k) (hnd : (ts ++ as.map (· >>> b)).Nodup) :
    accesses (fillState k b u ts) as =
      (List.replicate as.length false, fillState k b u (ts ++ as.map (· >>> b))) := by
  induction as generalizing ts with
  | nil => simp [accesses]
  | cons a t ih =>
    simp only [List.length_cons] at hlen
    have hnew : a >>> b ∉ ts := by
      intro hm
      exact (List.nodup_append.mp hnd).2.2 hm (by simp)
    have hnd2 : ((ts ++ [a >>> b]) ++ t.map (· >>> b)).Nodup := by
      simpa [List.append_assoc] using hnd
    have := ih (ts ++ [a >>> b]) (by simp; omega) hnd2
    simp only [accesses, fillState_step k b u ts a (by omega) hnew, this, List.length_cons,
      List.replicate_succ, List.map_cons, List.append_assoc, List.singleton_append]

theorem LruInv_fill (k b : Nat) (u : Nat → Nat) (ts0 : List Nat) (hlen : ts0.length = k)
    (hnd : ts0.Nodup) : LruInv k b ts0 ts0 (fillState k b u ts0) := by
  refine ⟨fillState_wf k b u ts0 (by omega), rfl, rfl, ?_, ?_, ?_⟩
  · simp [fillState, hlen]
  · simp [fillState, hlen]
  · have := range_sorted_by_age ts0 hnd
    simpa [fillState, hlen] using this

theorem LruInv.hit {k b : Nat} {ts0 tr : List Nat} {c : CacheModel}
    (h : LruInv k b ts0 tr c) (hlen : ts0.length = k) (hnd : ts0.Nodup) (a : Nat)
    (ha : a >>> b ∈ ts0) :
    (access c a).1 = true ∧ LruInv k b ts0 (tr ++ [a >>> b]) (access c a).2 := by
  have htag : getTag c a = a >>> b := by simp [getTag, h.blk]
  have hidx : ts0.indexOf (a >>> b) < ts0.length := List.indexOf_lt_length.mpr ha
  have hne : lookup c a ≠ none := by
    apply lookup_ne_none (ts0.indexOf (a >>> b))
    · rw [h.bn, ← hlen]; exact hidx
    · rw [h.tags, htag]
      simp [List.getElem?_eq_getElem hidx]
    · rw [h.valids]
      simp [← hlen, hidx]
  cases hl : lookup c a with
  | none => exact absurd hl hne
  | some i =>
    obtain ⟨hi, hti, _⟩ := lookup_some hl
    rw [h.tags, htag] at hti
    rw [h.bn] at hi
    rw [access_hit h.wf hl]
    refine ⟨rfl, ?_, h.bn, h.blk, h.valids, h.tags, ?_⟩
    · have := fa_WF_access h.wf a
      rwa [access_hit h.wf hl] at this
    · show (c.m_replace_q.erase i ++ [i]).Pairwise _
      rw [List.pairwise_append]
      have hmem : ∀ x ∈ c.m_replace_q.erase i, x < k ∧ ts0.getD x 0 ≠ a >>> b := by
        intro x hx
        obtain ⟨hxi, hxq⟩ := (h.wf.nodup_q.mem_erase_iff).mp hx
        have hxk : x < k := by
          have := (h.wf.mem_q x).mp hxq
          rwa [h.bn] at this
        refine ⟨hxk, ?_⟩
        rw [← hti]
        exact getD_ne_of_nodup ts0 hnd x i (by omega) (by omega) hxi
      refine ⟨?_, List.pairwise_singleton _ _, ?_⟩
      · refine (h.sorted.sublist (List.erase_sublist i _)).imp_of_mem ?_
        intro x y hx hy hR
        rw [age_snoc, age_snoc, if_neg (hmem x hx).2, if_neg (hmem y hy).2]
        omega
      · intro x hx y hy
        rw [List.mem_singleton] at hy
        subst hy
        rw [age_snoc, age_snoc, if_neg (hmem x hx).2, hti, if_pos rfl]
        omega

theorem LruInv.hits {k b : Nat} {ts0 tr : List Nat} {c : CacheModel}
    (h : LruInv k b ts0 tr c) (hlen : ts0.length = k) (hnd : ts0.Nodup) (hits : List Nat)
    (hh : ∀ a ∈ hits, a >>> b ∈ ts0) :
    (accesses c hits).1 = List.replicate hits.length true ∧
    LruInv k b ts0 (tr ++ hits.map (· >>> b)) (accesses c hits).2 := by
  induction hits generalizing tr c with
  | nil => simpa [accesses] using h
  | cons a t ih =>
    obtain ⟨h1, h2⟩ := h.hit hlen hnd a (hh a (List.mem_cons_self a t))
    obtain ⟨h3, h4⟩ := ih h2 (fun x hx => hh x (List.mem_cons_of_mem a hx))
    refine ⟨?_, ?_⟩
    · show (access c a).1 :: (accesses (access c a).2 t).1 = _
      rw [h1, h3]
      rfl
    · show LruInv k b ts0 (tr ++ (a >>> b :: t.map (· >>> b))) (accesses (access c a).2 t).2
      simpa [List.append_assoc] using h4

/-- The eviction step: a tag outside the cache misses and overwrites the slot
at the head of the queue, whose tag is the oldest. -/
theorem LruInv.evict {k b : Nat} {ts0 tr : List Nat} {c : CacheModel}
    (h : LruInv k b ts0 tr c) (hlen : ts0.length = k) (hk : 1 ≤ k) (x : Nat)
    (hx : x >>> b ∉ ts0) :
    (access c x).1 = false ∧
    (access c x).2.m_tags = c.m_tags.set (c.m_replace_q.getD 0 0) (x >>> b) ∧
    (access c x).2.m_valids = c.m_valids ∧
    c.m_replace_q.getD 0 0 < k ∧
    ∀ j < k, j ≠ c.m_replace_q.getD 0 0 →
      age tr (ts0.getD j 0) < age tr (ts0.getD (c.m_replace_q.getD 0 0) 0) := by
  have htag : getTag c x = x >>> b := by simp [getTag, h.blk]
  have hnone : lookup c x = none := by
    cases hl : lookup c x with
    | none => rfl
    | some i =>
      exfalso
      obtain ⟨hi, hti, _⟩ := lookup_some hl
      rw [h.tags, htag] at hti
      rw [h.bn] at hi
      exact hx (hti ▸ getD_mem ts0 i (by omega))
  have hqlen := h.wf.q_len
  rw [h.bn] at hqlen
  rw [access_miss h.wf (by rw [h.bn]; exact hk) hnone]
  cases hq : c.m_replace_q with
  | nil => rw [hq, List.length_nil] at hqlen; omega
  | cons v rest =>
    have hsorted := h.sorted
    rw [hq, List.pairwise_cons] at hsorted
    have hvk : v < k := by
      have := (h.wf.mem_q v).mp (by rw [hq]; exact List.mem_cons_self v rest)
      rwa [h.bn] at this
    refine ⟨rfl, by simp [htag], ?_, by simpa using hvk, ?_⟩
    · simp only [List.getD_cons_zero, h.valids]
      apply List.ext_getElem?
      intro n
      simp only [List.getElem?_set, List.length_replicate, List.getElem?_replicate]
      split_ifs <;> first
        | omega
        | rfl
    · intro j hj hjv
      simp only [List.getD_cons_zero] at hjv ⊢
      have hjq : j ∈ c.m_replace_q := (h.wf.mem_q j).mpr (by rw [h.bn]; exact hj)
      rw [hq, List.mem_cons] at hjq
      rcases hjq with e | hjr
      · exact absurd e hjv
      · exact hsorted.1 j hjr

/-- LRU on the fully associative cache, slot form: after a cold fill with `k`
distinct tags and any number of hits on them, an access with a new tag misses
and overwrites the slot at the queue head, and every other slot holds a tag
accessed more recently. -/
theorem lru_slot (k b : Nat) (u : Nat → Nat) (hk : 1 ≤ k) (fill hits : List Nat) (x : Nat)
    (hlen : fill.length = k) (hnd : (fill.map (· >>> b)).Nodup)
    (hh : ∀ a ∈ hits, a >>> b ∈ fill.map (· >>> b))
    (hx : x >>> b ∉ fill.map (· >>> b)) :
    (accesses (new k b u) (fill ++ hits)).1 =
      List.replicate k false ++ List.replicate hits.length true ∧
    (accesses (new k b u) (fill ++ hits)).2.m_tags = fill.map (· >>> b) ∧
    (accesses (new k b u) (fill ++ hits)).2.m_valids = List.replicate k true ∧
    WF (accesses (new k b u) (fill ++ hits)).2 ∧
    (accesses (new k b u) (fill ++ hits)).2.m_block_num = k ∧
    (access (accesses (new k b u) (fill ++ hits)).2 x).1 = false ∧
    (access (accesses (new k b u) (fill ++ hits)).2 x).2.m_tags =
      (accesses (new k b u) (fill ++ hits)).2.m_tags.set
        ((accesses (new k b u) (fill ++ hits)).2.m_replace_q.getD 0 0) (x >>> b) ∧
    (access (accesses (new k b u) (fill ++ hits)).2 x).2.m_valids =
      (accesses (new k b u) (fill ++ hits)).2.m_valids ∧
    (accesses (new k b u) (fill ++ hits)).2.m_replace_q.getD 0 0 < k ∧
    ∀ j < k, j ≠ (accesses (new k b u) (fill ++ hits)).2.m_replace_q.getD 0 0 →
      age ((fill ++ hits).map (· >>> b)) ((fill.map (· >>> b)).getD j 0) <
      age ((fill ++ hits).map (· >>> b))
        ((fill.map (· >>> b)).getD
          ((accesses (new k b u) (fill ++ hits)).2.m_replace_q.getD 0 0) 0) := by
  have hl : (fill.map (· >>> b)).length = k := by simpa using hlen
  have hfill := fillState_accesses k b u [] fill (by simp [hlen]) (by simpa using hnd)
  rw [fillState_nil, List.nil_append] at hfill
  have hinv0 := LruInv_fill k b u (fill.map (· >>> b)) hl hnd
  obtain ⟨hflags, hinv⟩ := hinv0.hits hl hnd hits hh
  rw [← List.map_append] at hinv
  have hacc : accesses (new k b u) (fill ++ hits) =
      (List.replicate k false ++ List.replicate hits.length true,
        (accesses (fillState k b u (fill.map (· >>> b))) hits).2) := by
    rw [fa_accesses_append, hfill, hflags, hlen]
  rw [hacc]
  obtain ⟨e1, e2, e3, e4, e5⟩ := hinv.evict hl hk x hx
  exact ⟨rfl, hinv.tags, hinv.valids, hinv.wf, hinv.bn, e1, e2, e3, e4, e5⟩

end FullAssoCache

namespace SetAssoCache

theorem getSet_num_congr {c d : SetAssoCache} (a : Nat) (h1 : c.m_sets_log = d.m_sets_log)
    (h2 : c.m_blksz_log = d.m_blksz_log) : getSet_num c a = getSet_num d a := by
  simp only [getSet_num, h1, h2]

theorem sa_getTag_congr {c d : SetAssoCache} (a : Nat) (h1 : c.m_sets_log = d.m_sets_log)
    (h2 : c.m_blksz_log = d.m_blksz_log) : getTag c a = getTag d a := by
  simp only [getTag, h1, h2]

/-- A cold set is a cold fully associative cache. -/
theorem view_new (k b ass : Nat) (u : Nat → Nat) (hfit : 2 ^ k * ass < 2 ^ 32) (s : Nat)
    (hs : s < 2 ^ k) :
    view (new k b ass u) s = FullAssoCache.new ass 0 (fun i => u (s * ass + i)) := by
  have hbn : ((1 <<< k) * ass) % 2 ^ 32 = 2 ^ k * ass := by
    rw [Nat.one_shiftLeft, Nat.mod_eq_of_lt hfit]
  have hle : s * ass + ass ≤ 2 ^ k * ass := by
    have := Nat.mul_le_mul_right ass (Nat.succ_le_of_lt hs)
    rwa [Nat.succ_mul] at this
  simp only [view, new, CacheModel.new, FullAssoCache.new, hbn, CacheModel.mk.injEq, true_and,
    and_true]
  refine ⟨?_, ?_, ?_⟩
  · apply List.ext_getElem?
    intro n
    simp only [getElem?_seg, List.getElem?_replicate]
    split_ifs <;> first
      | omega
      | rfl
  · apply List.ext_getElem?
    intro n
    rw [getElem?_seg]
    by_cases hn : n < ass
    · rw [if_pos hn, List.getElem?_map, List.getElem?_map, List.getElem?_range (by omega),
        List.getElem?_range hn]
      rfl
    · rw [if_neg hn, List.getElem?_eq_none (by simpa using Nat.le_of_not_lt hn)]
  · rw [seg_range _ _ _ hle, List.map_sub_range' _ _ _ (Nat.le_refl _), Nat.sub_self,
      ← List.range_eq_range']

/-- A run of accesses that all fall into set `s` is, on that set, the run of
the fully associative view on the tags. -/
theorem WF.accesses_view {c : SetAssoCache} (h : WF c) (s : Nat) (as : List Nat)
    (hset : ∀ a ∈ as, getSet_num c a = s) :
    (accesses c as).1 = (FullAssoCache.accesses (view c s) (as.map (getTag c))).1 ∧
    view (accesses c as).2 s = (FullAssoCache.accesses (view c s) (as.map (getTag c))).2 ∧
    WF (accesses c as).2 ∧
    (accesses c as).2.m_sets_log = c.m_sets_log ∧
    (accesses c as).2.m_blksz_log = c.m_blksz_log ∧
    (accesses c as).2.m_ass = c.m_ass := by
  induction as generalizing c with
  | nil => exact ⟨rfl, rfl, h, rfl, rfl, rfl⟩
  | cons a t ih =>
    have hs : getSet_num c a = s := hset a (List.mem_cons_self a t)
    obtain ⟨h1, h2⟩ := h.access_view a
    rw [hs] at h1 h2
    have hf := sa_access_frame c a
    have hset' : ∀ x ∈ t, getSet_num (access c a).2 x = s := by
      intro x hx
      rw [getSet_num_congr x hf.1 hf.2.1]
      exact hset x (List.mem_cons_of_mem a hx)
    obtain ⟨i1, i2, i3, i4, i5, i6⟩ := ih (h.sa_step a) hset'
    have htags : t.map (getTag (access c a).2) = t.map (getTag c) :=
      List.map_congr_left (fun x _ => sa_getTag_congr x hf.1 hf.2.1)
    rw [htags, h2] at i1 i2
    refine ⟨?_, ?_, i3, i4.trans hf.1, i5.trans hf.2.1, i6.trans hf.2.2.1⟩
    · show (access c a).1 :: (accesses (access c a).2 t).1 = _
      rw [h1, i1]
      rfl
    · show view (accesses (access c a).2 t).2 s = _
      rw [i2]
      rfl

theorem WF.view_head {c : SetAssoCache} (h : WF c) {s : Nat} (hs : s < 2 ^ c.m_sets_log) :
    (view c s).m_replace_q.getD 0 0 = c.base.m_replace_q.getD (s * c.m_ass) 0 - s * c.m_ass := by
  have hlt : s * c.m_ass < c.base.m_replace_q.length := by
    have := h.ass_pos
    have := (h.seg_len hs).1
    omega
  have hap : 0 < c.m_ass := h.ass_pos
  simp [view, getElem?_seg, hap, List.getElem?_eq_getElem hlt]

end SetAssoCache

theorem splice_seg_self (base w : Nat) (q : List α) : splice base w (seg base w q) q = q := by
  unfold splice seg
  rw [List.append_assoc, ← List.drop_drop, List.take_append_drop,
    List.take_append_drop]

theorem erase_append_self_of_getLast? (l : List Nat) (x : Nat) (hnd : l.Nodup)
    (hlast : l.getLast? = some x) : l.erase x ++ [x] = l := by
  obtain ⟨l', rfl⟩ : ∃ l', l = l' ++ [x] := by
    rcases List.eq_nil_or_concat l with h | ⟨l', y, h⟩
    · subst h; simp at hlast
    · subst h
      simp at hlast
      subst hlast
      exact ⟨l', by simp⟩
  have hx : x ∉ l' := fun hm =>
    (List.nodup_append.mp hnd).2.2 hm (List.mem_singleton_self x)
  rw [List.erase_append_right _ hx]
  simp

theorem touch_filter (l : List Nat) (x : Nat) (hnd : l.Nodup) :
    (l.erase x ++ [x]).filter (· != x) = l.filter (· != x) := by
  rw [List.filter_append, hnd.erase_eq_filter, List.filter_filter]
  simp

namespace SetAssoCache

theorem shiftLoop_eq_of_fit (m_ass s : Nat) (cnt j : Nat) (q : List Nat)
    (hfit : s * m_ass + j + cnt < 2 ^ 32) :
    shiftLoop m_ass s cnt j q = shiftAt (s * m_ass) cnt j q := by
  induction cnt generalizing j q with
  | zero => rfl
  | succ n ih =>
    have e1 : slot m_ass s j = s * m_ass + j := Nat.mod_eq_of_lt (by omega)
    have e2 : slot m_ass s (j + 1) = s * m_ass + j + 1 := Nat.mod_eq_of_lt (by omega)
    rw [shiftLoop, shiftAt, e1, e2, ih (j + 1) _ (by omega)]

/-- The recency update written on the segment of set `s`, assuming only what
the update itself needs: the segment lies inside the array, the array size is a
32-bit number, and `x` is a slot of the set that occurs in the segment. -/
theorem updateReplaceQ_eq_of_mem (c : SetAssoCache) (s x : Nat)
    (hlen : s * c.m_ass + c.m_ass ≤ c.base.m_replace_q.length)
    (h32 : c.base.m_replace_q.length < 2 ^ 32)
    (hx1 : s * c.m_ass ≤ x) (hx2 : x < s * c.m_ass + c.m_ass)
    (hmem : x ∈ seg (s * c.m_ass) c.m_ass c.base.m_replace_q) :
    updateReplaceQ c x =
      { c with base := { c.base with
          m_replace_q := splice (s * c.m_ass) c.m_ass
            ((seg (s * c.m_ass) c.m_ass c.base.m_replace_q).erase x ++ [x])
            c.base.m_replace_q } } := by
  have hdiv : x / c.m_ass = s := Nat.div_eq_of_lt_le hx1 (by rw [Nat.succ_mul]; exact hx2)
  have hsl := length_seg _ _ _ hlen
  have hfind : (List.range c.m_ass).find?
      (fun i => c.base.m_replace_q.getD (slot c.m_ass s i) 0 == x) =
      some ((seg (s * c.m_ass) c.m_ass c.base.m_replace_q).indexOf x) := by
    rw [find?_congr_mem (q := fun i => (seg (s * c.m_ass) c.m_ass c.base.m_replace_q).getD i 0 == x)]
    · have := find?_range_getD (seg (s * c.m_ass) c.m_ass c.base.m_replace_q) x
      rw [hsl, if_pos hmem] at this
      exact this
    · intro i hi
      rw [List.mem_range] at hi
      have e : slot c.m_ass s i = s * c.m_ass + i := Nat.mod_eq_of_lt (by omega)
      rw [e, getD_seg _ _ _ _ _ hi]
  have hidx : (seg (s * c.m_ass) c.m_ass c.base.m_replace_q).indexOf x < c.m_ass := by
    have := List.indexOf_lt_length.mpr hmem
    rwa [hsl] at this
  have hlast : (s * c.m_ass + c.m_ass + 2 ^ 32 - 1) % 2 ^ 32 = s * c.m_ass + c.m_ass - 1 := by
    omega
  unfold updateReplaceQ
  simp only [hdiv, hfind, hlast]
  rw [shiftLoop_eq_of_fit _ _ _ _ _ (by omega), shiftAt_set_eq _ _ _ _ _ hlen hidx,
    List.eraseIdx_indexOf_eq_erase]
  rfl

end SetAssoCache

theorem CacheModel.CountersLe.refl (c : CacheModel) : c.CountersLe c :=
  ⟨Nat.le_refl _, Nat.le_refl _, Nat.le_refl _, Nat.le_refl _⟩

theorem CacheModel.CountersLe.trans {a b c : CacheModel} (h1 : a.CountersLe b)
    (h2 : b.CountersLe c) : a.CountersLe c :=
  ⟨h1.1.trans h2.1, h1.2.1.trans h2.2.1, h1.2.2.1.trans h2.2.2.1, h1.2.2.2.trans h2.2.2.2⟩

theorem CacheModel.ReadAccounted.read_step {c c' : CacheModel} {hit : Bool} {n : Nat}
    (h : c.ReadAccounted c' hit) (hw : c.NoWrap (n + 1)) : c.CountersLe c' ∧ c'.NoWrap n := by
  obtain ⟨h1, h2, h3, h4⟩ := h
  obtain ⟨w1, w2, w3, w4⟩ := hw
  unfold CacheModel.CountersLe CacheModel.NoWrap
  rw [h1, h3, h4, h2]
  cases hit <;> simp only [if_true, Bool.false_eq_true, if_false] <;> omega

theorem CacheModel.WriteAccounted.write_step {c c' : CacheModel} {hit : Bool} {n : Nat}
    (h : c.WriteAccounted c' hit) (hw : c.NoWrap (n + 1)) : c.CountersLe c' ∧ c'.NoWrap n := by
  obtain ⟨h1, h2, h3, h4⟩ := h
  obtain ⟨w1, w2, w3, w4⟩ := hw
  unfold CacheModel.CountersLe CacheModel.NoWrap
  rw [h1, h3, h4, h2]
  cases hit <;> simp only [if_true, Bool.false_eq_true, if_false] <;> omega

namespace FullAssoCache

theorem fa_readReq_accounted (c : CacheModel) (a : Nat) :
    c.ReadAccounted (readReq c a) (access c.incRdReqs a).1 := by
  have hf := fa_access_frame c.incRdReqs a
  unfold readReq CacheModel.ReadAccounted
  simp only
  cases (access c.incRdReqs a).1
  · simp only [Bool.false_eq_true, if_false]
    exact ⟨hf.2.2.1, hf.2.2.2.2.1, hf.2.2.2.1, hf.2.2.2.2.2⟩
  · simp only [if_true, CacheModel.incRdHits]
    exact ⟨hf.2.2.1, by rw [hf.2.2.2.2.1]; rfl, hf.2.2.2.1, hf.2.2.2.2.2⟩

theorem fa_writeReq_accounted (c : CacheModel) (a : Nat) :
    c.WriteAccounted (writeReq c a) (access c.incWrReqs a).1 := by
  have hf := fa_access_frame c.incWrReqs a
  unfold writeReq CacheModel.WriteAccounted
  simp only
  cases (access c.incWrReqs a).1
  · simp only [Bool.false_eq_true, if_false]
    exact ⟨hf.2.2.2.1, hf.2.2.2.2.2, hf.2.2.1, hf.2.2.2.2.1⟩
  · simp only [if_true, CacheModel.incWrHits]
    exact ⟨hf.2.2.2.1, by rw [hf.2.2.2.2.2]; rfl, hf.2.2.1, hf.2.2.2.2.1⟩

theorem fa_run_counters (c : CacheModel) (tr : List MemReq) (hw : c.NoWrap tr.length) :
    c.CountersLe (run c tr).2 := by
  induction tr generalizing c with
  | nil => exact CacheModel.CountersLe.refl c
  | cons r t ih =>
    cases r with
    | read a =>
      obtain ⟨h1, h2⟩ := (fa_readReq_accounted c a).read_step hw
      exact h1.trans (ih _ h2)
    | write a =>
      obtain ⟨h1, h2⟩ := (fa_writeReq_accounted c a).write_step hw
      exact h1.trans (ih _ h2)

end FullAssoCache

namespace DirectMapCache

theorem dm_readReq_accounted (c : CacheModel) (a : Nat) :
    c.ReadAccounted (readReq c a) (access c.incRdReqs a).1 := by
  have hf := dm_access_frame c.incRdReqs a
  unfold readReq CacheModel.ReadAccounted
  simp only
  cases (access c.incRdReqs a).1
  · simp only [Bool.false_eq_true, if_false]
    exact ⟨hf.2.2.1, hf.2.2.2.2.1, hf.2.2.2.1, hf.2.2.2.2.2.1⟩
  · simp only [if_true, CacheModel.incRdHits]
    exact ⟨hf.2.2.1, by rw [hf.2.2.2.2.1]; rfl, hf.2.2.2.1, hf.2.2.2.2.2.1⟩

theorem dm_writeReq_accounted (c : CacheModel) (a : Nat) :
    c.WriteAccounted (writeReq c a) (access c.incWrReqs a).1 := by
  have hf := dm_access_frame c.incWrReqs a
  unfold writeReq CacheModel.WriteAccounted
  simp only
  cases (access c.incWrReqs a).1
  · simp only [Bool.false_eq_true, if_false]
    exact ⟨hf.2.2.2.1, hf.2.2.2.2.2.1, hf.2.2.1, hf.2.2.2.2.1⟩
  · simp only [if_true, CacheModel.incWrHits]
    exact ⟨hf.2.2.2.1, by rw [hf.2.2.2.2.2.1]; rfl, hf.2.2.1, hf.2.2.2.2.1⟩

theorem dm_run_counters (c : CacheModel) (tr : List MemReq) (hw : c.NoWrap tr.length) :
    c.CountersLe (run c tr).2 := by
  induction tr generalizing c with
  | nil => exact CacheModel.CountersLe.refl c
  | cons r t ih =>
    cases r with
    | read a =>
      obtain ⟨h1, h2⟩ := (dm_readReq_accounted c a).read_step hw
      exact h1.trans (ih _ h2)
    | write a =>
      obtain ⟨h1, h2⟩ := (dm_writeReq_accounted c a).write_step hw
      exact h1.trans (ih _ h2)

end DirectMapCache

namespace SetAssoCache

theorem sa_readReq_accounted (c : SetAssoCache) (a : Nat) :
    c.base.ReadAccounted (readReq c a).base (access { c with base := c.base.incRdReqs } a).1 := by
  have hf := sa_access_frame { c with base := c.base.incRdReqs } a
  unfold readReq CacheModel.ReadAccounted
  simp only
  cases (access { c with base := c.base.incRdReqs } a).1
  · simp only [Bool.false_eq_true, if_false]
    exact ⟨hf.2.2.2.2.2.1, hf.2.2.2.2.2.2.2.1, hf.2.2.2.2.2.2.1, hf.2.2.2.2.2.2.2.2⟩
  · simp only [if_true, CacheModel.incRdHits]
    exact ⟨hf.2.2.2.2.2.1, by rw [hf.2.2.2.2.2.2.2.1]; rfl, hf.2.2.2.2.2.2.1, hf.2.2.2.2.2.2.2.2⟩

theorem sa_writeReq_accounted (c : SetAssoCache) (a : Nat) :
    c.base.WriteAccounted (writeReq c a).base (access { c with base := c.base.incWrReqs } a).1 := by
  have hf := sa_access_frame { c with base := c.base.incWrReqs } a
  unfold writeReq CacheModel.WriteAccounted
  simp only
  cases (access { c with base := c.base.incWrReqs } a).1
  · simp only [Bool.false_eq_true, if_false]
    exact ⟨hf.2.2.2.2.2.2.1, hf.2.2.2.2.2.2.2.2, hf.2.2.2.2.2.1, hf.2.2.2.2.2.2.2.1⟩
  · simp only [if_true, CacheModel.incWrHits]
    exact ⟨hf.2.2.2.2.2.2.1, by rw [hf.2.2.2.2.2.2.2.2]; rfl, hf.2.2.2.2.2.1, hf.2.2.2.2.2.2.2.1⟩

theorem sa_run_counters (c : SetAssoCache) (tr : List MemReq) (hw : c.base.NoWrap tr.length) :
    c.base.CountersLe (run c tr).2.base := by
  induction tr generalizing c with
  | nil => exact CacheModel.CountersLe.refl c.base
  | cons r t ih =>
    cases r with
    | read a =>
      obtain ⟨h1, h2⟩ := (sa_readReq_accounted c a).read_step hw
      exact h1.trans (ih _ h2)
    | write a =>
      obtain ⟨h1, h2⟩ := (sa_writeReq_accounted c a).write_step hw
      exact h1.trans (ih _ h2)

end SetAssoCache

/-- C10 (counter accounting). In each of the three cache classes, from any
state and for any address, `readReq` adds one to `m_rd_reqs` (64-bit
increment), adds one to `m_rd_hits` exactly when its `access` call returned
hit, and leaves `m_wr_reqs`, `m_wr_hits` alone; `writeReq` does the same with
the read and write counters exchanged.  Hence along any run during which no
64-bit counter wraps around, no counter decreases. -/
theorem C10_counter_accounting :
    (∀ (c : CacheModel) (a : Nat),
      c.ReadAccounted (FullAssoCache.readReq c a) (FullAssoCache.access c.incRdReqs a).1 ∧
      c.WriteAccounted (FullAssoCache.writeReq c a) (FullAssoCache.access c.incWrReqs a).1) ∧
    (∀ (c : CacheModel) (a : Nat),
      c.ReadAccounted (DirectMapCache.readReq c a) (DirectMapCache.access c.incRdReqs a).1 ∧
      c.WriteAccounted (DirectMapCache.writeReq c a) (DirectMapCache.access c.incWrReqs a).1) ∧
    (∀ (c : SetAssoCache) (a : Nat),
      c.base.ReadAccounted (SetAssoCache.readReq c a).base
        (SetAssoCache.access { c with base := c.base.incRdReqs } a).1 ∧
      c.base.WriteAccounted (SetAssoCache.writeReq c a).base
        (SetAssoCache.access { c with base := c.base.incWrReqs } a).1) ∧
    (∀ (c : CacheModel) (tr : List MemReq), c.NoWrap tr.length →
      c.CountersLe (FullAssoCache.run c tr).2) ∧
    (∀ (c : CacheModel) (tr : List MemReq), c.NoWrap tr.length →
      c.CountersLe (DirectMapCache.run c tr).2) ∧
    (∀ (c : SetAssoCache) (tr : List MemReq), c.base.NoWrap tr.length →
      c.base.CountersLe (SetAssoCache.run c tr).2.base) :=
  ⟨fun c a => ⟨FullAssoCache.fa_readReq_accounted c a, FullAssoCache.fa_writeReq_accounted c a⟩,
   fun c a => ⟨DirectMapCache.dm_readReq_accounted c a, DirectMapCache.dm_writeReq_accounted c a⟩,
   fun c a => ⟨SetAssoCache.sa_readReq_accounted c a, SetAssoCache.sa_writeReq_accounted c a⟩,
   FullAssoCache.fa_run_counters, DirectMapCache.dm_run_counters, SetAssoCache.sa_run_counters⟩

namespace SetAssoCache

/-- With `m_ass = 0` the cache has no blocks and an access leaves the (empty)
queue as it is. -/
theorem access_ass_zero (c : SetAssoCache) (a : Nat) (h0 : c.m_ass = 0)
    (hq : c.base.m_replace_q = []) :
    (access c a).2.m_ass = 0 ∧ (access c a).2.base.m_replace_q = [] := by
  unfold access lookup updateReplaceQ
  simp [h0, hq]

theorem Reachable.ass_zero {k b : Nat} {u : Nat → Nat} {c : SetAssoCache}
    (hr : Reachable k b 0 u c) : c.m_ass = 0 ∧ c.base.m_replace_q = [] := by
  induction hr with
  | ctor => simp [new, CacheModel.new]
  | readReq c a _ ih =>
    have := access_ass_zero { c with base := c.base.incRdReqs } a ih.1 ih.2
    unfold SetAssoCache.readReq
    simp only
    split_ifs
    · exact this
    · exact this
  | writeReq c a _ ih =>
    have := access_ass_zero { c with base := c.base.incWrReqs } a ih.1 ih.2
    unfold SetAssoCache.writeReq
    simp only
    split_ifs
    · exact this
    · exact this

end SetAssoCache

/-- C3 (replacement-order permutation invariant). In every state reachable
from construction by `readReq` / `writeReq` calls: the queue of a
`FullAssoCache` is a permutation of `0 .. block_num-1`; in a `SetAssoCache`
whose block count `(1<<sets_log)*ass` fits 32 bits, the queue segment of every
set `s` is a permutation of the set's slot identifiers
`s*ass .. s*ass+ass-1`. -/
theorem C3_replacement_order_permutation :
    (∀ (block_num log_block_size : Nat) (uninit : Nat → Nat) (c : CacheModel),
      FullAssoCache.Reachable block_num log_block_size uninit c →
      c.m_replace_q.Perm (List.range block_num)) ∧
    (∀ (sets_log log_blk_size ass : Nat) (uninit : Nat → Nat) (c : SetAssoCache),
      2 ^ sets_log * ass < 2 ^ 32 →
      SetAssoCache.Reachable sets_log log_blk_size ass uninit c →
      ∀ s < 2 ^ sets_log,
        (seg (s * ass) ass c.base.m_replace_q).Perm (List.range' (s * ass) ass)) := by
  constructor
  · intro n b u c hr
    obtain ⟨hwf, hn⟩ := hr.fa_wf
    rw [← hn]
    exact hwf.q_perm
  · intro k b ass u c hfit hr s hs
    rcases Nat.eq_zero_or_pos ass with h0 | hpos
    · subst h0
      rw [hr.ass_zero.2]
      simp [seg]
    · have hwf := hr.sa_wf hpos hfit
      obtain ⟨hk, ha⟩ := hr.geom
      have := hwf.seg_perm s (by rw [hk]; exact hs)
      rwa [ha] at this

/-- A concrete instance of C3: a 2-block fully associative cache after a read
and a write, and a 2-set 2-way set-associative cache after two reads. -/
theorem C3_replacement_order_permutation_witness :
    (FullAssoCache.writeReq (FullAssoCache.readReq (FullAssoCache.new 2 0 (fun _ => 0)) 5) 9
      ).m_replace_q.Perm (List.range 2) ∧
    (2 ^ 1 * 2 < 2 ^ 32 ∧
      ∀ s < 2 ^ 1,
        (seg (s * 2) 2
          (SetAssoCache.readReq (SetAssoCache.readReq (SetAssoCache.new 1 0 2 (fun _ => 0)) 0) 2
            ).base.m_replace_q).Perm (List.range' (s * 2) 2)) :=
  ⟨C3_replacement_order_permutation.1 2 0 (fun _ => 0) _
      (FullAssoCache.Reachable.writeReq _ 9
        (FullAssoCache.Reachable.readReq _ 5 FullAssoCache.Reachable.ctor)),
    by decide,
    C3_replacement_order_permutation.2 1 0 2 (fun _ => 0) _ (by decide)
      (SetAssoCache.Reachable.readReq _ 2
        (SetAssoCache.Reachable.readReq _ 0 SetAssoCache.Reachable.ctor))⟩

/-- C2 (repeat access hits). From every reachable state and for every address,
`readReq(a)` directly followed by `readReq(a)` makes the second call a hit: it
increments `m_rd_hits`.  Stated for `FullAssoCache` and `DirectMapCache` with
at least one block and for `SetAssoCache` with at least one way whose block
count `(1<<sets_log)*ass` fits 32 bits, all shift amounts being below 32. -/
theorem C2_repeat_access_hits :
    (∀ (block_num log_block_size : Nat) (uninit : Nat → Nat) (c : CacheModel) (a : Nat),
      1 ≤ block_num → log_block_size < 32 →
      FullAssoCache.Reachable block_num log_block_size uninit c →
      (FullAssoCache.readReq (FullAssoCache.readReq c a) a).m_rd_hits =
        ((FullAssoCache.readReq c a).m_rd_hits + 1) % 2 ^ 64) ∧
    (∀ (block_num log_block_size : Nat) (uninit : Nat → Nat) (c : CacheModel) (a : Nat),
      1 ≤ block_num → log_block_size + Nat.log2 block_num < 32 →
      DirectMapCache.Reachable block_num log_block_size uninit c →
      (DirectMapCache.readReq (DirectMapCache.readReq c a) a).m_rd_hits =
        ((DirectMapCache.readReq c a).m_rd_hits + 1) % 2 ^ 64) ∧
    (∀ (sets_log log_blk_size ass : Nat) (uninit : Nat → Nat) (c : SetAssoCache) (a : Nat),
      1 ≤ ass → 2 ^ sets_log * ass < 2 ^ 32 → log_blk_size + sets_log < 32 →
      SetAssoCache.Reachable sets_log log_blk_size ass uninit c →
      (SetAssoCache.readReq (SetAssoCache.readReq c a) a).base.m_rd_hits =
        ((SetAssoCache.readReq c a).base.m_rd_hits + 1) % 2 ^ 64) :=
  ⟨fun _ _ _ _ a hn _ hr => FullAssoCache.fa_repeat_read_hits hr hn a,
   fun _ _ _ _ a hn _ hr => DirectMapCache.dm_repeat_read_hits hr hn a,
   fun _ _ _ _ _ a hass hfit _ hr => SetAssoCache.sa_repeat_read_hits hr hass hfit a⟩

theorem log2_four : Nat.log2 4 = 2 := by
  simp [Nat.log2]

/-- A concrete instance of C2 on cold caches of each class. -/
theorem C2_repeat_access_hits_witness :
    (FullAssoCache.readReq (FullAssoCache.readReq (FullAssoCache.new 2 0 (fun _ => 0)) 5) 5
      ).m_rd_hits =
      ((FullAssoCache.readReq (FullAssoCache.new 2 0 (fun _ => 0)) 5).m_rd_hits + 1) % 2 ^ 64 ∧
    (DirectMapCache.readReq (DirectMapCache.readReq (DirectMapCache.new 4 0 (fun _ => 0)) 5) 5
      ).m_rd_hits =
      ((DirectMapCache.readReq (DirectMapCache.new 4 0 (fun _ => 0)) 5).m_rd_hits + 1) % 2 ^ 64 ∧
    (SetAssoCache.readReq (SetAssoCache.readReq (SetAssoCache.new 1 0 2 (fun _ => 0)) 5) 5
      ).base.m_rd_hits =
      ((SetAssoCache.readReq (SetAssoCache.new 1 0 2 (fun _ => 0)) 5).base.m_rd_hits + 1)
        % 2 ^ 64 :=
  ⟨C2_repeat_access_hits.1 2 0 (fun _ => 0) _ 5 (by decide) (by decide)
      FullAssoCache.Reachable.ctor,
   C2_repeat_access_hits.2.1 4 0 (fun _ => 0) _ 5 (by decide) (by rw [log2_four]; decide)
      DirectMapCache.Reachable.ctor,
   C2_repeat_access_hits.2.2 1 0 2 (fun _ => 0) _ 5 (by decide) (by decide) (by decide)
      SetAssoCache.Reachable.ctor⟩

theorem OneBlockRel.new (b : Nat) (hb : b < 32) (uf ud : Nat → Nat) :
    OneBlockRel (FullAssoCache.new 1 b uf) (DirectMapCache.new 1 b ud) := by
  refine ⟨rfl, rfl, rfl, ?_, rfl, rfl, rfl, rfl, rfl, ?_, rfl, rfl, rfl, rfl⟩
  · show b < 2 ^ 32
    omega
  · intro h
    have hf : (DirectMapCache.new 1 b ud).m_valids.getD 0 false = false := rfl
    rw [hf] at h
    exact absurd h (by decide)

theorem OneBlockRel.rel_counters {f d : CacheModel} (h : OneBlockRel f d) (r1 r2 r3 r4 : Nat) :
    OneBlockRel { f with m_rd_reqs := r1, m_wr_reqs := r2, m_rd_hits := r3, m_wr_hits := r4 }
      { d with m_rd_reqs := r1, m_wr_reqs := r2, m_rd_hits := r3, m_wr_hits := r4 } :=
  ⟨h.fn, h.dn, h.blk, h.blk_lt, h.fq, h.valids, h.flen, h.dlen, h.vlen, h.tags, rfl, rfl, rfl,
    rfl⟩

theorem OneBlockRel.readReq {f d : CacheModel} (h : OneBlockRel f d) (a : Nat) :
    (FullAssoCache.access f.incRdReqs a).1 = (DirectMapCache.access d.incRdReqs a).1 ∧
    OneBlockRel (FullAssoCache.readReq f a) (DirectMapCache.readReq d a) := by
  have h1 : OneBlockRel f.incRdReqs d.incRdReqs := by
    have := h.rel_counters ((f.m_rd_reqs + 1) % 2 ^ 64) f.m_wr_reqs f.m_rd_hits f.m_wr_hits
    unfold CacheModel.incRdReqs
    rw [← h.rd_reqs]
    convert this using 2
    · rw [h.wr_reqs]
    · rw [h.rd_hits]
    · rw [h.wr_hits]
  obtain ⟨h2, h3⟩ := h1.access a
  refine ⟨h2, ?_⟩
  unfold FullAssoCache.readReq DirectMapCache.readReq
  simp only [← h2]
  split_ifs
  · have := h3.rel_counters (FullAssoCache.access f.incRdReqs a).2.m_rd_reqs
      (FullAssoCache.access f.incRdReqs a).2.m_wr_reqs
      (((FullAssoCache.access f.incRdReqs a).2.m_rd_hits + 1) % 2 ^ 64)
      (FullAssoCache.access f.incRdReqs a).2.m_wr_hits
    unfold CacheModel.incRdHits
    rw [← h3.rd_hits]
    convert this using 2
    · rw [h3.rd_reqs]
    · rw [h3.wr_reqs]
    · rw [h3.wr_hits]
  · exact h3

theorem OneBlockRel.writeReq {f d : CacheModel} (h : OneBlockRel f d) (a : Nat) :
    (FullAssoCache.access f.incWrReqs a).1 = (DirectMapCache.access d.incWrReqs a).1 ∧
    OneBlockRel (FullAssoCache.writeReq f a) (DirectMapCache.writeReq d a) := by
  have h1 : OneBlockRel f.incWrReqs d.incWrReqs := by
    have := h.rel_counters f.m_rd_reqs ((f.m_wr_reqs + 1) % 2 ^ 64) f.m_rd_hits f.m_wr_hits
    unfold CacheModel.incWrReqs
    rw [← h.wr_reqs]
    convert this using 2
    · rw [h.rd_reqs]
    · rw [h.rd_hits]
    · rw [h.wr_hits]
  obtain ⟨h2, h3⟩ := h1.access a
  refine ⟨h2, ?_⟩
  unfold FullAssoCache.writeReq DirectMapCache.writeReq
  simp only [← h2]
  split_ifs
  · have := h3.rel_counters (FullAssoCache.access f.incWrReqs a).2.m_rd_reqs
      (FullAssoCache.access f.incWrReqs a).2.m_wr_reqs
      (FullAssoCache.access f.incWrReqs a).2.m_rd_hits
      (((FullAssoCache.access f.incWrReqs a).2.m_wr_hits + 1) % 2 ^ 64)
    unfold CacheModel.incWrHits
    rw [← h3.wr_hits]
    convert this using 2
    · rw [h3.rd_reqs]
    · rw [h3.wr_reqs]
    · rw [h3.rd_hits]
  · exact h3

theorem OneBlockRel.run {f d : CacheModel} (h : OneBlockRel f d) (trace : List MemReq) :
    (FullAssoCache.run f trace).1 = (DirectMapCache.run d trace).1 ∧
    OneBlockRel (FullAssoCache.run f trace).2 (DirectMapCache.run d trace).2 := by
  induction trace generalizing f d with
  | nil => exact ⟨rfl, h⟩
  | cons r t ih =>
    cases r with
    | read a =>
      obtain ⟨h1, h2⟩ := h.readReq a
      obtain ⟨h3, h4⟩ := ih h2
      exact ⟨by simp only [FullAssoCache.run, DirectMapCache.run, h1, h3], h4⟩
    | write a =>
      obtain ⟨h1, h2⟩ := h.writeReq a
      obtain ⟨h3, h4⟩ := ih h2
      exact ⟨by simp only [FullAssoCache.run, DirectMapCache.run, h1, h3], h4⟩

namespace DirectMapCache

/-- After an access to `a`, an access to `b` in the same slot with another tag
misses. -/
theorem conflict_miss_second {c : CacheModel} (hwf : WF c) (hn : 1 ≤ c.m_block_num) (a b : Nat)
    (hslot : getBlk_num c a = getBlk_num c b) (htag : getTag c a ≠ getTag c b) :
    (access (access c a).2 b).1 = false := by
  have hf1 := dm_access_frame c a
  have hs := slot_after_access hwf hn a
  rw [dm_access_fst, getBlk_num_congr b hf1.1 hf1.2.1, dm_getTag_congr b hf1.1 hf1.2.1, ← hslot, hs.1]
  simp [htag]

/-- The first access to a cold cache misses. -/
theorem cold_miss (n b : Nat) (u : Nat → Nat) (a : Nat) : (access (new n b u) a).1 = false := by
  have hv : ∀ i, (List.replicate n false).getD i false = false := by
    intro i
    rw [List.getD_eq_getElem?_getD, List.getElem?_replicate]
    split_ifs <;> rfl
  rw [dm_access_fst]
  show (_ && (List.replicate n false).getD _ false) = false
  rw [hv, Bool.and_false]

end DirectMapCache

/-- C7 (direct-mapped conflict). In a `DirectMapCache` whose block count is a
power of two `2^k` (shift amounts below 32), from every reachable state: if the
addresses `a` and `b` have the same slot index (`getBlk_num`) and different
tags (`getTag`), the access sequence `a, b, a` ends with a miss on the third
access (and the access to `b` misses as well). -/
theorem C7_direct_mapped_conflict (k log_block_size : Nat) (uninit : Nat → Nat)
    (c : CacheModel) (a b : Nat) (_hshift : log_block_size + k < 32)
    (hr : DirectMapCache.Reachable (2 ^ k) log_block_size uninit c)
    (hslot : DirectMapCache.getBlk_num c a = DirectMapCache.getBlk_num c b)
    (htag : DirectMapCache.getTag c a ≠ DirectMapCache.getTag c b) :
    (DirectMapCache.accesses c [a, b, a]).1 = [(DirectMapCache.access c a).1, false, false] := by
  obtain ⟨hwf, hn⟩ := hr.dm_wf
  have hpos : 1 ≤ c.m_block_num := by
    rw [hn]
    exact Nat.pow_pos (by decide)
  have h3 := DirectMapCache.conflict_miss hwf hpos a b hslot htag
  have h2 := DirectMapCache.conflict_miss_second hwf hpos a b hslot htag
  simp only [DirectMapCache.accesses, h2, h3]

/-- The scenario of C7: 4 blocks, block-size exponent 0, cold cache, accesses
0, 4, 0 give miss, miss, miss. -/
theorem C7_direct_mapped_conflict_witness :
    (0 + 2 < 32 ∧
      DirectMapCache.getBlk_num (DirectMapCache.new (2 ^ 2) 0 (fun _ => 0)) 0 =
        DirectMapCache.getBlk_num (DirectMapCache.new (2 ^ 2) 0 (fun _ => 0)) 4 ∧
      DirectMapCache.getTag (DirectMapCache.new (2 ^ 2) 0 (fun _ => 0)) 0 ≠
        DirectMapCache.getTag (DirectMapCache.new (2 ^ 2) 0 (fun _ => 0)) 4) ∧
    (DirectMapCache.accesses (DirectMapCache.new (2 ^ 2) 0 (fun _ => 0)) [0, 4, 0]).1
      = [false, false, false] := by
  have hslot : DirectMapCache.getBlk_num (DirectMapCache.new (2 ^ 2) 0 (fun _ => 0)) 0 =
      DirectMapCache.getBlk_num (DirectMapCache.new (2 ^ 2) 0 (fun _ => 0)) 4 := by decide
  have htag : DirectMapCache.getTag (DirectMapCache.new (2 ^ 2) 0 (fun _ => 0)) 0 ≠
      DirectMapCache.getTag (DirectMapCache.new (2 ^ 2) 0 (fun _ => 0)) 4 := by
    simp [DirectMapCache.getTag, DirectMapCache.new, CacheModel.new, log2_four]
  refine ⟨⟨by decide, hslot, htag⟩, ?_⟩
  have := C7_direct_mapped_conflict 2 0 (fun _ => 0) _ 0 4 (by decide)
      DirectMapCache.Reachable.ctor hslot htag
  rw [this, DirectMapCache.cold_miss]

/-- C8 (direct-mapped equals fully associative at one block). For every
block-size exponent below 32 and every trace of read/write requests, a fresh
`DirectMapCache` and a fresh `FullAssoCache`, both with `block_num = 1`, give
the same hit/miss outcome on every request and end with identical request and
hit counters, whatever their uninitialised tag arrays hold. -/
theorem C8_direct_mapped_eq_fully_associative_one_block (log_block_size : Nat)
    (hb : log_block_size < 32) (uninit_dm uninit_fa : Nat → Nat) (trace : List MemReq) :
    (DirectMapCache.run (DirectMapCache.new 1 log_block_size uninit_dm) trace).1 =
      (FullAssoCache.run (FullAssoCache.new 1 log_block_size uninit_fa) trace).1 ∧
    (DirectMapCache.run (DirectMapCache.new 1 log_block_size uninit_dm) trace).2.m_rd_reqs =
      (FullAssoCache.run (FullAssoCache.new 1 log_block_size uninit_fa) trace).2.m_rd_reqs ∧
    (DirectMapCache.run (DirectMapCache.new 1 log_block_size uninit_dm) trace).2.m_wr_reqs =
      (FullAssoCache.run (FullAssoCache.new 1 log_block_size uninit_fa) trace).2.m_wr_reqs ∧
    (DirectMapCache.run (DirectMapCache.new 1 log_block_size uninit_dm) trace).2.m_rd_hits =
      (FullAssoCache.run (FullAssoCache.new 1 log_block_size uninit_fa) trace).2.m_rd_hits ∧
    (DirectMapCache.run (DirectMapCache.new 1 log_block_size uninit_dm) trace).2.m_wr_hits =
      (FullAssoCache.run (FullAssoCache.new 1 log_block_size uninit_fa) trace).2.m_wr_hits := by
  obtain ⟨h1, h2⟩ := (OneBlockRel.new log_block_size hb uninit_fa uninit_dm).run trace
  exact ⟨h1.symm, h2.rd_reqs.symm, h2.wr_reqs.symm, h2.rd_hits.symm, h2.wr_hits.symm⟩

/-- A concrete instance of C8: block-size exponent 2 and a trace of five
requests, with different garbage in the two tag arrays. -/
theorem C8_direct_mapped_eq_fully_associative_one_block_witness :
    2 < 32 ∧
    (DirectMapCache.run (DirectMapCache.new 1 2 (fun _ => 7))
        [MemReq.read 0, MemReq.write 3, MemReq.read 4, MemReq.read 28, MemReq.write 30]).1 =
      (FullAssoCache.run (FullAssoCache.new 1 2 (fun _ => 0))
        [MemReq.read 0, MemReq.write 3, MemReq.read 4, MemReq.read 28, MemReq.write 30]).1 :=
  ⟨by decide,
    (C8_direct_mapped_eq_fully_associative_one_block 2 (by decide) (fun _ => 7) (fun _ => 0)
      [MemReq.read 0, MemReq.write 3, MemReq.read 4, MemReq.read 28, MemReq.write 30]).1⟩

/-- C9 (touch moves a slot to the tail). `FullAssoCache::updateReplaceQ`, on a
queue that is a permutation of the slot identifiers and a `blk_id` among them,
removes `blk_id` from its place and appends it at the end: the other
identifiers keep their relative order, and nothing changes when `blk_id` is
already last.  `SetAssoCache::updateReplaceQ` does the same inside the queue
segment of the set of `blk_id` (a permutation of that set's slot identifiers,
in an array of 32-bit size) and leaves the rest of the queue alone. -/
theorem C9_touch_moves_to_tail :
    (∀ (c : CacheModel) (blk_id : Nat),
      c.m_replace_q.Perm (List.range c.m_block_num) → blk_id < c.m_block_num →
      FullAssoCache.updateReplaceQ c blk_id =
        { c with m_replace_q := c.m_replace_q.erase blk_id ++ [blk_id] } ∧
      (FullAssoCache.updateReplaceQ c blk_id).m_replace_q.filter (· != blk_id) =
        c.m_replace_q.filter (· != blk_id) ∧
      (c.m_replace_q.getLast? = some blk_id → FullAssoCache.updateReplaceQ c blk_id = c)) ∧
    (∀ (c : SetAssoCache) (s blk_id : Nat),
      (seg (s * c.m_ass) c.m_ass c.base.m_replace_q).Perm (List.range' (s * c.m_ass) c.m_ass) →
      c.base.m_replace_q.length < 2 ^ 32 →
      s * c.m_ass ≤ blk_id → blk_id < s * c.m_ass + c.m_ass →
      SetAssoCache.updateReplaceQ c blk_id =
        { c with base := { c.base with
            m_replace_q := splice (s * c.m_ass) c.m_ass
              ((seg (s * c.m_ass) c.m_ass c.base.m_replace_q).erase blk_id ++ [blk_id])
              c.base.m_replace_q } } ∧
      seg (s * c.m_ass) c.m_ass (SetAssoCache.updateReplaceQ c blk_id).base.m_replace_q =
        (seg (s * c.m_ass) c.m_ass c.base.m_replace_q).erase blk_id ++ [blk_id] ∧
      (seg (s * c.m_ass) c.m_ass
          (SetAssoCache.updateReplaceQ c blk_id).base.m_replace_q).filter (· != blk_id) =
        (seg (s * c.m_ass) c.m_ass c.base.m_replace_q).filter (· != blk_id) ∧
      ((seg (s * c.m_ass) c.m_ass c.base.m_replace_q).getLast? = some blk_id →
        SetAssoCache.updateReplaceQ c blk_id = c)) := by
  constructor
  · intro c x hperm hx
    have hlen : c.m_replace_q.length = c.m_block_num := by simpa using hperm.length_eq
    have hmem : x ∈ c.m_replace_q := hperm.mem_iff.mpr (List.mem_range.mpr hx)
    have hnd : c.m_replace_q.Nodup := hperm.nodup_iff.mpr (List.nodup_range _)
    have heq := FullAssoCache.fa_updateReplaceQ_eq c x hlen
    rw [if_pos hmem] at heq
    refine ⟨heq, ?_, ?_⟩
    · rw [heq]
      exact touch_filter _ _ hnd
    · intro hlast
      rw [heq, erase_append_self_of_getLast? _ _ hnd hlast]
  · intro c s x hperm h32 hx1 hx2
    have hmem : x ∈ seg (s * c.m_ass) c.m_ass c.base.m_replace_q :=
      hperm.mem_iff.mpr (List.mem_range'_1.mpr ⟨hx1, hx2⟩)
    have hnd : (seg (s * c.m_ass) c.m_ass c.base.m_replace_q).Nodup :=
      hperm.nodup_iff.mpr (List.nodup_range' _ _)
    have hsl : (seg (s * c.m_ass) c.m_ass c.base.m_replace_q).length = c.m_ass := by
      simpa using hperm.length_eq
    have hlen : s * c.m_ass + c.m_ass ≤ c.base.m_replace_q.length := by
      simp only [seg, List.length_take, List.length_drop] at hsl
      omega
    have hB : ((seg (s * c.m_ass) c.m_ass c.base.m_replace_q).erase x ++ [x]).length
        = c.m_ass := by
      rw [List.length_append, List.length_erase_of_mem hmem, hsl, List.length_singleton]
      omega
    have heq := SetAssoCache.updateReplaceQ_eq_of_mem c s x hlen h32 hx1 hx2 hmem
    have hseg : seg (s * c.m_ass) c.m_ass (SetAssoCache.updateReplaceQ c x).base.m_replace_q =
        (seg (s * c.m_ass) c.m_ass c.base.m_replace_q).erase x ++ [x] := by
      rw [heq]
      exact seg_splice_self _ _ _ _ hB hlen
    refine ⟨heq, hseg, ?_, ?_⟩
    · rw [hseg]
      exact touch_filter _ _ hnd
    · intro hlast
      rw [heq, erase_append_self_of_getLast? _ _ hnd hlast, splice_seg_self]

/-- A concrete instance of C9: slot 1 of a 3-block fully associative queue and
slot 2 of set 1 of a 2-set 2-way set-associative queue. -/
theorem C9_touch_moves_to_tail_witness :
    ([1, 0, 2].Perm (List.range 3) ∧ 1 < 3 ∧
      (FullAssoCache.updateReplaceQ ⟨3, 0, [true, true, true], [7, 8, 9], [1, 0, 2], 0, 0, 0, 0⟩ 1
        ).m_replace_q = [0, 2, 1]) ∧
    ((seg (1 * 2) 2 [1, 0, 2, 3]).Perm (List.range' (1 * 2) 2) ∧
      seg (1 * 2) 2 (SetAssoCache.updateReplaceQ
        ⟨⟨4, 0, [true, true, true, true], [7, 8, 9, 6], [1, 0, 2, 3], 0, 0, 0, 0⟩, 1, 0, 2⟩ 2
        ).base.m_replace_q = [3, 2]) := by
  have hp : [1, 0, 2].Perm (List.range 3) := by decide
  have hs : (seg (1 * 2) 2 [1, 0, 2, 3]).Perm (List.range' (1 * 2) 2) := by decide
  refine ⟨⟨hp, by decide, ?_⟩, hs, ?_⟩
  · rw [(C9_touch_moves_to_tail.1
      ⟨3, 0, [true, true, true], [7, 8, 9], [1, 0, 2], 0, 0, 0, 0⟩ 1 hp (by decide)).1]
    decide
  · rw [(C9_touch_moves_to_tail.2
      ⟨⟨4, 0, [true, true, true, true], [7, 8, 9, 6], [1, 0, 2, 3], 0, 0, 0, 0⟩, 1, 0, 2⟩ 1 2
      hs (by decide) (by decide) (by decide)).2.1]
    decide

namespace FullAssoCache

/-- After the accesses 0, 1 a cold 2-block cache with block-size exponent 0
holds address 0 in slot 0 and address 1 in slot 1, whatever the tag array held
before. -/
theorem scenario_fill (uninit : Nat → Nat) :
    accesses (new 2 0 uninit) [0, 1] =
      ([false, false], ⟨2, 0, [true, true], [0, 1], [0, 1], 0, 0, 0, 0⟩) := by
  have h := fillState_accesses 2 0 uninit [] [0, 1] (by decide) (by decide)
  rw [fillState_nil] at h
  rw [h]
  rfl

end FullAssoCache

/-- C4 (fully associative scenario, outcomes). A fresh `FullAssoCache` with 2
blocks and block-size exponent 0, accessed at 0, 1, 0, 2 in that order,
returns miss, miss, hit, miss. -/
theorem C4_full_asso_scenario_outcomes (uninit : Nat → Nat) :
    (FullAssoCache.accesses (FullAssoCache.new 2 0 uninit) [0, 1, 0, 2]).1 =
      [false, false, true, false] := by
  have h := FullAssoCache.fa_accesses_append (FullAssoCache.new 2 0 uninit) [0, 1] [0, 2]
  rw [FullAssoCache.scenario_fill] at h
  rw [show [0, 1, 0, 2] = [0, 1] ++ [0, 2] from rfl, h]
  decide

/-- C5 as stated fails: in the scenario 0, 1, 0, 2 (tag array initially all
zero) the slot chosen for replacement by the fourth access does not hold the
tag of address 0, and address 0 is still found after the fourth access. -/
theorem C5_victim_is_not_address_zero :
    (FullAssoCache.accesses (FullAssoCache.new 2 0 (fun _ => 0)) [0, 1, 0]).2.m_tags.getD
        ((FullAssoCache.accesses (FullAssoCache.new 2 0 (fun _ => 0)) [0, 1, 0]).2.m_replace_q.getD
          0 0) 0 ≠
      FullAssoCache.getTag
        (FullAssoCache.accesses (FullAssoCache.new 2 0 (fun _ => 0)) [0, 1, 0]).2 0 ∧
    FullAssoCache.lookup
      (FullAssoCache.accesses (FullAssoCache.new 2 0 (fun _ => 0)) [0, 1, 0, 2]).2 0 ≠ none := by
  decide

/-- C5 amended (fully associative scenario, victim). In a fresh `FullAssoCache`
with 2 blocks and block-size exponent 0, given the accesses 0, 1, 0, 2, the
fourth access is a miss that replaces slot 1, the block holding address 1 (the
least recently used one after the hit on address 0): it overwrites that slot's
tag with the tag of address 2, after which address 1 is no longer cached and
address 0 still is. -/
theorem C5_full_asso_scenario_victim (uninit : Nat → Nat) :
    (FullAssoCache.accesses (FullAssoCache.new 2 0 uninit) [0, 1, 0]).2.m_replace_q.getD 0 0
      = 1 ∧
    (FullAssoCache.accesses (FullAssoCache.new 2 0 uninit) [0, 1, 0]).2.m_tags.getD 1 0 =
      FullAssoCache.getTag (FullAssoCache.accesses (FullAssoCache.new 2 0 uninit) [0, 1, 0]).2 1 ∧
    (FullAssoCache.accesses (FullAssoCache.new 2 0 uninit) [0, 1, 0]).2.m_valids.getD 1 false
      = true ∧
    (FullAssoCache.accesses (FullAssoCache.new 2 0 uninit) [0, 1, 0, 2]).2.m_tags =
      (FullAssoCache.accesses (FullAssoCache.new 2 0 uninit) [0, 1, 0]).2.m_tags.set 1
        (FullAssoCache.getTag
          (FullAssoCache.accesses (FullAssoCache.new 2 0 uninit) [0, 1, 0]).2 2) ∧
    FullAssoCache.lookup
      (FullAssoCache.accesses (FullAssoCache.new 2 0 uninit) [0, 1, 0, 2]).2 1 = none ∧
    FullAssoCache.lookup
      (FullAssoCache.accesses (FullAssoCache.new 2 0 uninit) [0, 1, 0, 2]).2 0 = some 0 := by
  have h3 := FullAssoCache.fa_accesses_append (FullAssoCache.new 2 0 uninit) [0, 1] [0]
  have h4 := FullAssoCache.fa_accesses_append (FullAssoCache.new 2 0 uninit) [0, 1] [0, 2]
  rw [FullAssoCache.scenario_fill] at h3 h4
  rw [show [0, 1, 0, 2] = [0, 1] ++ [0, 2] from rfl, show [0, 1, 0] = [0, 1] ++ [0] from rfl,
    h3, h4]
  decide

theorem map_shiftRight_zero (l : List Nat) : l.map (· >>> 0) = l := by
  simp

theorem exists_getD_of_mem (ts : List Nat) (t : Nat) (h : t ∈ ts) :
    ∃ j < ts.length, ts.getD j 0 = t := by
  refine ⟨ts.indexOf t, List.indexOf_lt_length.mpr h, ?_⟩
  simp [List.getElem?_indexOf h]

namespace FullAssoCache

/-- A completed fill: all slots valid, slot `i` holds `ts[i]`, and the queue is
in ascending order again. -/
theorem fillState_full (k b : Nat) (u : Nat → Nat) (ts : List Nat) (hl : ts.length = k) :
    fillState k b u ts = ⟨k, b, List.replicate k true, ts, List.range k, 0, 0, 0, 0⟩ := by
  unfold fillState
  rw [hl]
  simp

/-- LRU on the fully associative cache, tag form. -/
theorem fa_lru_tag (k b : Nat) (u : Nat → Nat) (hk : 1 ≤ k) (fill hits : List Nat) (x : Nat)
    (hlen : fill.length = k) (hnd : (fill.map (· >>> b)).Nodup)
    (hh : ∀ a ∈ hits, a >>> b ∈ fill.map (· >>> b))
    (hx : x >>> b ∉ fill.map (· >>> b)) :
    (accesses (new k b u) (fill ++ hits)).1 =
      List.replicate k false ++ List.replicate hits.length true ∧
    (access (accesses (new k b u) (fill ++ hits)).2 x).1 = false ∧
    ∃ v < k,
      (access (accesses (new k b u) (fill ++ hits)).2 x).2.m_tags =
        (accesses (new k b u) (fill ++ hits)).2.m_tags.set v (x >>> b) ∧
      (accesses (new k b u) (fill ++ hits)).2.m_valids.getD v false = true ∧
      (accesses (new k b u) (fill ++ hits)).2.m_tags.getD v 0 ∈ fill.map (· >>> b) ∧
      ∀ t ∈ fill.map (· >>> b),
        t ≠ (accesses (new k b u) (fill ++ hits)).2.m_tags.getD v 0 →
        age ((fill ++ hits).map (· >>> b)) t <
          age ((fill ++ hits).map (· >>> b))
            ((accesses (new k b u) (fill ++ hits)).2.m_tags.getD v 0) := by
  obtain ⟨h1, h2, h3, _, _, h6, h7, _, h9, h10⟩ := lru_slot k b u hk fill hits x hlen hnd hh hx
  have hl : (fill.map (· >>> b)).length = k := by simpa using hlen
  refine ⟨h1, h6, _, h9, h7, ?_, ?_, ?_⟩
  · rw [h3, List.getD_eq_getElem?_getD, List.getElem?_replicate, if_pos h9]
    rfl
  · rw [h2]
    exact getD_mem _ _ (by omega)
  · intro t ht hne
    rw [h2] at hne ⊢
    obtain ⟨j, hj, rfl⟩ := exists_getD_of_mem _ t ht
    exact h10 j (by omega) (fun e => hne (by rw [e]))

/-- Thrashing a fully associative cache of `k` blocks with `k+1` distinct
tags: every access of the round and the renewed access to the first address
miss, and the access with the `(k+1)`-th tag replaces slot 0, which held the
first tag. -/
theorem fa_thrash (k b : Nat) (u : Nat → Nat) (a0 : Nat) (rest : List Nat) (x : Nat)
    (hlen : (a0 :: rest).length = k) (hnd : ((a0 :: rest ++ [x]).map (· >>> b)).Nodup) :
    (accesses (new k b u) (a0 :: rest ++ [x] ++ [a0])).1 = List.replicate (k + 2) false ∧
    (accesses (new k b u) (a0 :: rest)).2 = fillState k b u ((a0 :: rest).map (· >>> b)) ∧
    (accesses (new k b u) (a0 :: rest ++ [x])).2.m_tags =
      (accesses (new k b u) (a0 :: rest)).2.m_tags.set 0 (x >>> b) := by
  have hk : 1 ≤ k := by rw [← hlen]; simp
  have hl : ((a0 :: rest).map (· >>> b)).length = k := by simpa using hlen
  have hnd1 : ((a0 :: rest).map (· >>> b)).Nodup := by
    rw [List.map_append] at hnd
    exact (List.nodup_append.mp hnd).1
  have hx : x >>> b ∉ (a0 :: rest).map (· >>> b) := by
    rw [List.map_append] at hnd
    intro hm
    exact (List.nodup_append.mp hnd).2.2 hm (by simp)
  have hfill := fillState_accesses k b u [] (a0 :: rest) (by simp [hlen]) (by simpa using hnd1)
  rw [fillState_nil, List.nil_append] at hfill
  have hwf := fillState_wf k b u ((a0 :: rest).map (· >>> b)) (by omega)
  have hnone := fillState_lookup_none k b u ((a0 :: rest).map (· >>> b)) x (by omega) hx
  have hmiss := access_miss hwf (show 1 ≤ k from hk) hnone
  have hfull := fillState_full k b u ((a0 :: rest).map (· >>> b)) hl
  have hhead : (fillState k b u ((a0 :: rest).map (· >>> b))).m_replace_q.getD 0 0 = 0 := by
    rw [hfull]
    simp [List.getElem?_range hk]
  have htags : (fillState k b u ((a0 :: rest).map (· >>> b))).m_tags =
      (a0 :: rest).map (· >>> b) := by
    rw [hfull]
  rw [hhead] at hmiss
  -- the renewed access to `a0` misses
  have hnone2 : lookup (access (fillState k b u ((a0 :: rest).map (· >>> b))) x).2 a0 = none := by
    cases hl2 : lookup (access (fillState k b u ((a0 :: rest).map (· >>> b))) x).2 a0 with
    | none => rfl
    | some i =>
      exfalso
      obtain ⟨hi, ht, _⟩ := lookup_some hl2
      rw [hmiss] at hi ht
      simp only [getTag, htags] at ht
      have hik : i < k := hi
      by_cases hi0 : i = 0
      · subst hi0
        have : x >>> b = a0 >>> b := by simpa using ht
        exact hx (by rw [this]; simp)
      · have e1 : ((a0 >>> b :: rest.map (· >>> b)).set 0 (x >>> b)).getD i 0 =
            ((a0 :: rest).map (· >>> b)).getD i 0 := by
          cases i with
          | zero => exact absurd rfl hi0
          | succ j => simp
        have e0 : ((a0 :: rest).map (· >>> b)).getD 0 0 = a0 >>> b := by simp
        have hne := getD_ne_of_nodup _ hnd1 i 0 (by omega) (by omega) hi0
        apply hne
        rw [e0, ← e1]
        simpa using ht
  have hflag2 : (access (access (fillState k b u ((a0 :: rest).map (· >>> b))) x).2 a0).1
      = false := by
    rw [fa_access_fst, hnone2]
    rfl
  refine ⟨?_, by rw [hfill], ?_⟩
  · rw [fa_accesses_append, fa_accesses_append, hfill]
    simp only [accesses, hflag2]
    rw [hmiss, hlen]
    simp [List.replicate_succ']
  · rw [fa_accesses_append, hfill]
    simp only [accesses]
    rw [hmiss, htags]
    simp [getTag, fillState]

end FullAssoCache

namespace SetAssoCache

/-- On a miss, `access` overwrites the tag of the slot at the head of the
set's queue segment; that slot belongs to the set, and its old tag and valid
flag are those the fully associative view shows at its own queue head. -/
theorem WF.miss_slot {c : SetAssoCache} (h : WF c) (a : Nat)
    (hmiss : (FullAssoCache.access (view c (getSet_num c a)) (getTag c a)).1 = false) :
    (access c a).1 = false ∧
    getSet_num c a * c.m_ass ≤ c.base.m_replace_q.getD (getSet_num c a * c.m_ass) 0 ∧
    c.base.m_replace_q.getD (getSet_num c a * c.m_ass) 0 < getSet_num c a * c.m_ass + c.m_ass ∧
    (access c a).2.base.m_tags =
      c.base.m_tags.set (c.base.m_replace_q.getD (getSet_num c a * c.m_ass) 0) (getTag c a) ∧
    c.base.m_tags.getD (c.base.m_replace_q.getD (getSet_num c a * c.m_ass) 0) 0 =
      (view c (getSet_num c a)).m_tags.getD
        ((view c (getSet_num c a)).m_replace_q.getD 0 0) 0 ∧
    c.base.m_valids.getD (c.base.m_replace_q.getD (getSet_num c a * c.m_ass) 0) false =
      (view c (getSet_num c a)).m_valids.getD
        ((view c (getSet_num c a)).m_replace_q.getD 0 0) false := by
  have hs := h.getSet_num_lt a
  have hv := h.victim_mem hs
  have hnone : FullAssoCache.lookup (view c (getSet_num c a)) (getTag c a) = none := by
    rw [FullAssoCache.fa_access_fst] at hmiss
    cases hl : FullAssoCache.lookup (view c (getSet_num c a)) (getTag c a) with
    | none => rfl
    | some i => rw [hl] at hmiss; simp at hmiss
  have hj : c.base.m_replace_q.getD (getSet_num c a * c.m_ass) 0 - getSet_num c a * c.m_ass
      < c.m_ass := by omega
  have hsplit : getSet_num c a * c.m_ass +
      (c.base.m_replace_q.getD (getSet_num c a * c.m_ass) 0 - getSet_num c a * c.m_ass) =
      c.base.m_replace_q.getD (getSet_num c a * c.m_ass) 0 := by omega
  refine ⟨?_, hv.1, hv.2, ?_, ?_, ?_⟩
  · rw [h.sa_access_eq a, hnone]
  · rw [h.sa_access_eq a, hnone]
  · rw [h.view_head hs]
    show _ = (seg _ _ _).getD _ 0
    rw [getD_seg _ _ _ _ _ hj, hsplit]
  · rw [h.view_head hs]
    show _ = (seg _ _ _).getD _ false
    rw [getD_seg _ _ _ _ _ hj, hsplit]

/-- LRU inside one set of a cold set-associative cache. -/
theorem sa_lru_tag (k b ass : Nat) (u : Nat → Nat) (hass : 1 ≤ ass) (hfit : 2 ^ k * ass < 2 ^ 32)
    (s : Nat) (fill hits : List Nat) (x : Nat) (hlen : fill.length = ass)
    (hset : ∀ a ∈ fill ++ hits ++ [x], getSet_num (new k b ass u) a = s)
    (hnd : (fill.map (getTag (new k b ass u))).Nodup)
    (hh : ∀ a ∈ hits, getTag (new k b ass u) a ∈ fill.map (getTag (new k b ass u)))
    (hx : getTag (new k b ass u) x ∉ fill.map (getTag (new k b ass u))) :
    (accesses (new k b ass u) (fill ++ hits)).1 =
      List.replicate ass false ++ List.replicate hits.length true ∧
    (access (accesses (new k b ass u) (fill ++ hits)).2 x).1 = false ∧
    ∃ v, s * ass ≤ v ∧ v < s * ass + ass ∧
      (access (accesses (new k b ass u) (fill ++ hits)).2 x).2.base.m_tags =
        (accesses (new k b ass u) (fill ++ hits)).2.base.m_tags.set v
          (getTag (new k b ass u) x) ∧
      (accesses (new k b ass u) (fill ++ hits)).2.base.m_valids.getD v false = true ∧
      (accesses (new k b ass u) (fill ++ hits)).2.base.m_tags.getD v 0 ∈
        fill.map (getTag (new k b ass u)) ∧
      ∀ t ∈ fill.map (getTag (new k b ass u)),
        t ≠ (accesses (new k b ass u) (fill ++ hits)).2.base.m_tags.getD v 0 →
        age ((fill ++ hits).map (getTag (new k b ass u))) t <
          age ((fill ++ hits).map (getTag (new k b ass u)))
            ((accesses (new k b ass u) (fill ++ hits)).2.base.m_tags.getD v 0) := by
  have hwf0 := sa_WF_new k b ass u hass hfit
  have hsx : getSet_num (new k b ass u) x = s := hset x (by simp)
  have hs : s < 2 ^ k := by
    have := hwf0.getSet_num_lt x
    rwa [hsx] at this
  obtain ⟨v1, v2, v3, v4, v5, v6⟩ := hwf0.accesses_view s (fill ++ hits)
    (fun a ha => hset a (by simp only [List.mem_append] at ha ⊢; exact Or.inl ha))
  rw [view_new k b ass u hfit s hs, List.map_append] at v1 v2
  have hz := map_shiftRight_zero
  obtain ⟨f1, f2, f3, _, _, f6, _, _, f9, f10⟩ := FullAssoCache.lru_slot ass 0
    (fun i => u (s * ass + i))
    hass (fill.map (getTag (new k b ass u))) (hits.map (getTag (new k b ass u)))
    (getTag (new k b ass u) x) (by simpa using hlen) (by rw [hz]; exact hnd)
    (by
      intro a ha
      rw [hz]
      obtain ⟨a', ha', rfl⟩ := List.mem_map.mp ha
      simpa using hh a' ha')
    (by rw [hz]; simpa using hx)
  rw [hz, hz] at f10
  rw [hz] at f2
  have hl : (fill.map (getTag (new k b ass u))).length = ass := by simpa using hlen
  have hsetr : getSet_num (accesses (new k b ass u) (fill ++ hits)).2 x = s := by
    rw [getSet_num_congr x v4 v5]; exact hsx
  have htagr : getTag (accesses (new k b ass u) (fill ++ hits)).2 x = getTag (new k b ass u) x :=
    sa_getTag_congr x v4 v5
  have hassr : (accesses (new k b ass u) (fill ++ hits)).2.m_ass = ass := v6
  have hm := v3.miss_slot x (by rw [hsetr, htagr, v2]; exact f6)
  rw [hsetr, htagr, hassr, v2, f2, f3] at hm
  obtain ⟨m1, m2, m3, m4, m5, m6⟩ := hm
  have hflags : (accesses (new k b ass u) (fill ++ hits)).1 =
      List.replicate ass false ++ List.replicate hits.length true := by
    rw [v1, f1]
    simp
  refine ⟨hflags, m1, _, m2, m3, m4, ?_, ?_, ?_⟩
  · rw [m6, List.getD_eq_getElem?_getD, List.getElem?_replicate, if_pos f9]
    rfl
  · rw [m5]
    exact getD_mem _ _ (by omega)
  · intro t ht hne
    rw [m5] at hne ⊢
    rw [List.map_append]
    obtain ⟨j, hj, rfl⟩ := exists_getD_of_mem _ t ht
    exact f10 j (by omega) (fun e => hne (by rw [e]))

theorem sa_accesses_append (c : SetAssoCache) (l1 l2 : List Nat) :
    accesses c (l1 ++ l2) =
      ((accesses c l1).1 ++ (accesses (accesses c l1).2 l2).1,
        (accesses (accesses c l1).2 l2).2) := by
  induction l1 generalizing c with
  | nil => rfl
  | cons a t ih =>
    show ((access c a).1 :: (accesses (access c a).2 (t ++ l2)).1,
      (accesses (access c a).2 (t ++ l2)).2) = _
    rw [ih]
    rfl

/-- Thrashing one set of a cold set-associative cache of `ass` ways with
`ass+1` distinct tags. -/
theorem sa_thrash (k b ass : Nat) (u : Nat → Nat) (hfit : 2 ^ k * ass < 2 ^ 32) (s : Nat)
    (a0 : Nat) (rest : List Nat) (x : Nat) (hlen : (a0 :: rest).length = ass)
    (hset : ∀ a ∈ a0 :: rest ++ [x], getSet_num (new k b ass u) a = s)
    (hnd : ((a0 :: rest ++ [x]).map (getTag (new k b ass u))).Nodup) :
    (accesses (new k b ass u) (a0 :: rest ++ [x] ++ [a0])).1 = List.replicate (ass + 2) false ∧
    ∃ v, s * ass ≤ v ∧ v < s * ass + ass ∧
      (accesses (new k b ass u) (a0 :: rest)).2.base.m_tags.getD v 0 =
        getTag (new k b ass u) a0 ∧
      (accesses (new k b ass u) (a0 :: rest)).2.base.m_valids.getD v false = true ∧
      (accesses (new k b ass u) (a0 :: rest ++ [x])).2.base.m_tags =
        (accesses (new k b ass u) (a0 :: rest)).2.base.m_tags.set v
          (getTag (new k b ass u) x) := by
  have hass : 1 ≤ ass := by rw [← hlen]; simp
  have hwf0 := sa_WF_new k b ass u hass hfit
  have hsx : getSet_num (new k b ass u) x = s := hset x (by simp)
  have hs : s < 2 ^ k := by
    have := hwf0.getSet_num_lt x
    rwa [hsx] at this
  have hz := map_shiftRight_zero
  have hl : ((a0 :: rest).map (getTag (new k b ass u))).length = ass := by simpa using hlen
  -- the fully associative statement on the tags
  obtain ⟨t1, t2, _⟩ := FullAssoCache.fa_thrash ass 0 (fun i => u (s * ass + i))
    (getTag (new k b ass u) a0) (rest.map (getTag (new k b ass u))) (getTag (new k b ass u) x)
    (by simpa using hlen) (by rw [hz]; simpa using hnd)
  rw [hz] at t2
  -- the whole round, seen on the set
  obtain ⟨w1, _⟩ := hwf0.accesses_view s (a0 :: rest ++ [x] ++ [a0]) (by
    intro a ha
    simp only [List.mem_append, List.mem_singleton] at ha
    rcases ha with ha | rfl
    · exact hset a (by simp only [List.mem_append, List.mem_singleton]; exact ha)
    · exact hset a (by simp))
  rw [view_new k b ass u hfit s hs] at w1
  -- the state before the access to `x`
  obtain ⟨_, v2, v3, v4, v5, v6⟩ := hwf0.accesses_view s (a0 :: rest) (by
    intro a ha
    exact hset a (by simp only [List.mem_append]; exact Or.inl ha))
  rw [view_new k b ass u hfit s hs] at v2
  have v2' : view (accesses (new k b ass u) (a0 :: rest)).2 s =
      ⟨ass, 0, List.replicate ass true, (a0 :: rest).map (getTag (new k b ass u)),
        List.range ass, 0, 0, 0, 0⟩ := by
    rw [v2]
    have := t2
    simp only [List.map_cons] at this ⊢
    rw [this]
    exact FullAssoCache.fillState_full ass 0 _ _ (by simpa using hlen)
  have hxnew : getTag (new k b ass u) x ∉ (a0 :: rest).map (getTag (new k b ass u)) := by
    rw [List.map_append] at hnd
    intro hm
    exact (List.nodup_append.mp hnd).2.2 hm (by simp)
  have hsetr : getSet_num (accesses (new k b ass u) (a0 :: rest)).2 x = s := by
    rw [getSet_num_congr x v4 v5]; exact hsx
  have htagr : getTag (accesses (new k b ass u) (a0 :: rest)).2 x = getTag (new k b ass u) x :=
    sa_getTag_congr x v4 v5
  have hassr : (accesses (new k b ass u) (a0 :: rest)).2.m_ass = ass := v6
  have hfa : (FullAssoCache.access (view (accesses (new k b ass u) (a0 :: rest)).2 s)
      (getTag (new k b ass u) x)).1 = false := by
    rw [FullAssoCache.fa_access_fst]
    have hnone : FullAssoCache.lookup (view (accesses (new k b ass u) (a0 :: rest)).2 s)
        (getTag (new k b ass u) x) = none := by
      rw [v2', ← FullAssoCache.fillState_full ass 0 (fun i => u (s * ass + i)) _ hl]
      exact FullAssoCache.fillState_lookup_none ass 0 _ _ _ (by omega) (by simpa using hxnew)
    rw [hnone]
    rfl
  have hm := v3.miss_slot x (by rw [hsetr, htagr]; exact hfa)
  rw [hsetr, htagr, hassr, v2'] at hm
  obtain ⟨_, m2, m3, m4, m5, m6⟩ := hm
  refine ⟨?_, _, m2, m3, ?_, ?_, ?_⟩
  · rw [w1]
    have := t1
    simp only [List.map_append, List.map_cons, List.map_nil, List.cons_append] at this ⊢
    exact this
  · rw [m5]
    simp [List.getElem?_range hass]
  · rw [m6]
    have h0 : 0 < ass := hass
    simp [List.getElem?_range hass, List.getElem?_replicate, h0]
  · rw [show a0 :: rest ++ [x] = (a0 :: rest) ++ [x] from rfl, sa_accesses_append]
    exact m4

end SetAssoCache

/-- C1 (LRU property). Start from a freshly constructed fully associative
cache with `k >= 1` blocks.  After `k` accesses with pairwise distinct tags
(all misses) and then any number of accesses to those tags (all hits), an
access with a tag not among them misses and overwrites exactly the slot whose
tag's most recent access is the oldest among the `k`.  Likewise for one set of
a freshly constructed set-associative cache with `k = ass >= 1` ways (block
count `(1<<sets_log)*ass` fitting 32 bits), all accesses falling into that
set. -/
theorem C1_lru_property :
    (∀ (k log_block_size : Nat) (uninit : Nat → Nat) (fill hits : List Nat) (x : Nat),
      1 ≤ k → fill.length = k →
      (fill.map (FullAssoCache.getTag (FullAssoCache.new k log_block_size uninit))).Nodup →
      (∀ a ∈ hits, FullAssoCache.getTag (FullAssoCache.new k log_block_size uninit) a ∈
        fill.map (FullAssoCache.getTag (FullAssoCache.new k log_block_size uninit))) →
      FullAssoCache.getTag (FullAssoCache.new k log_block_size uninit) x ∉
        fill.map (FullAssoCache.getTag (FullAssoCache.new k log_block_size uninit)) →
      FullAssoCache.LruVerdict (FullAssoCache.new k log_block_size uninit) fill hits x) ∧
    (∀ (sets_log log_blk_size ass : Nat) (uninit : Nat → Nat) (s : Nat)
      (fill hits : List Nat) (x : Nat),
      1 ≤ ass → 2 ^ sets_log * ass < 2 ^ 32 → fill.length = ass →
      (∀ a ∈ fill ++ hits ++ [x],
        SetAssoCache.getSet_num (SetAssoCache.new sets_log log_blk_size ass uninit) a = s) →
      (fill.map (SetAssoCache.getTag (SetAssoCache.new sets_log log_blk_size ass uninit))).Nodup →
      (∀ a ∈ hits, SetAssoCache.getTag (SetAssoCache.new sets_log log_blk_size ass uninit) a ∈
        fill.map (SetAssoCache.getTag (SetAssoCache.new sets_log log_blk_size ass uninit))) →
      SetAssoCache.getTag (SetAssoCache.new sets_log log_blk_size ass uninit) x ∉
        fill.map (SetAssoCache.getTag (SetAssoCache.new sets_log log_blk_size ass uninit)) →
      SetAssoCache.LruVerdict (SetAssoCache.new sets_log log_blk_size ass uninit) s
        fill hits x) := by
  constructor
  · intro k b u fill hits x hk hlen hnd hh hx
    subst hlen
    exact FullAssoCache.fa_lru_tag _ b u hk fill hits x rfl hnd hh hx
  · intro k b ass u s fill hits x hass hfit hlen hset hnd hh hx
    subst hlen
    exact SetAssoCache.sa_lru_tag k b _ u hass hfit s fill hits x rfl hset hnd hh hx

/-- A concrete instance of C1: 2 blocks, fill 0, 1, hit 0, then 2 (the slot of
address 1 is replaced); and set 0 of a 2-set 2-way cache with fill 0, 2, hit
0, then 4. -/
theorem C1_lru_property_witness :
    ((List.map (FullAssoCache.getTag (FullAssoCache.new 2 0 (fun _ => 0))) [0, 1]).Nodup ∧
      FullAssoCache.getTag (FullAssoCache.new 2 0 (fun _ => 0)) 2 ∉
        List.map (FullAssoCache.getTag (FullAssoCache.new 2 0 (fun _ => 0))) [0, 1] ∧
      FullAssoCache.LruVerdict (FullAssoCache.new 2 0 (fun _ => 0)) [0, 1] [0] 2) ∧
    ((List.map (SetAssoCache.getTag (SetAssoCache.new 1 0 2 (fun _ => 0))) [0, 2]).Nodup ∧
      SetAssoCache.getTag (SetAssoCache.new 1 0 2 (fun _ => 0)) 4 ∉
        List.map (SetAssoCache.getTag (SetAssoCache.new 1 0 2 (fun _ => 0))) [0, 2] ∧
      SetAssoCache.LruVerdict (SetAssoCache.new 1 0 2 (fun _ => 0)) 0 [0, 2] [0] 4) :=
  ⟨⟨by decide, by decide,
      C1_lru_property.1 2 0 (fun _ => 0) [0, 1] [0] 2 (by decide) rfl (by decide) (by decide)
        (by decide)⟩,
    ⟨by decide, by decide,
      C1_lru_property.2 1 0 2 (fun _ => 0) 0 [0, 2] [0] 4 (by decide) (by decide) rfl
        (by decide) (by decide) (by decide) (by decide)⟩⟩

/-- C6 (set-associative thrash). In a freshly constructed `SetAssoCache` with
`ass >= 1` ways (block count `(1<<sets_log)*ass` fitting 32 bits), take any
`ass+1` addresses `a0, rest..., x` with pairwise distinct tags that map to the
same set `s`.  Accessing them in order and then `a0` again gives a miss on each
of the `ass+2` accesses, and the `(ass+1)`-th access (to `x`) overwrites the
tag of a slot of set `s` that was valid and held the tag of `a0`. -/
theorem C6_set_asso_thrash (sets_log log_blk_size ass : Nat) (uninit : Nat → Nat) (s : Nat)
    (a0 : Nat) (rest : List Nat) (x : Nat)
    (hfit : 2 ^ sets_log * ass < 2 ^ 32) (hlen : (a0 :: rest).length = ass)
    (hset : ∀ a ∈ a0 :: rest ++ [x],
      SetAssoCache.getSet_num (SetAssoCache.new sets_log log_blk_size ass uninit) a = s)
    (hnd : ((a0 :: rest ++ [x]).map
      (SetAssoCache.getTag (SetAssoCache.new sets_log log_blk_size ass uninit))).Nodup) :
    (SetAssoCache.accesses (SetAssoCache.new sets_log log_blk_size ass uninit)
      (a0 :: rest ++ [x] ++ [a0])).1 = List.replicate (ass + 2) false ∧
    ∃ v, s * ass ≤ v ∧ v < s * ass + ass ∧
      (SetAssoCache.accesses (SetAssoCache.new sets_log log_blk_size ass uninit)
        (a0 :: rest)).2.base.m_tags.getD v 0 =
        SetAssoCache.getTag (SetAssoCache.new sets_log log_blk_size ass uninit) a0 ∧
      (SetAssoCache.accesses (SetAssoCache.new sets_log log_blk_size ass uninit)
        (a0 :: rest)).2.base.m_valids.getD v false = true ∧
      (SetAssoCache.accesses (SetAssoCache.new sets_log log_blk_size ass uninit)
        (a0 :: rest ++ [x])).2.base.m_tags =
        (SetAssoCache.accesses (SetAssoCache.new sets_log log_blk_size ass uninit)
          (a0 :: rest)).2.base.m_tags.set v
          (SetAssoCache.getTag (SetAssoCache.new sets_log log_blk_size ass uninit) x) :=
  SetAssoCache.sa_thrash sets_log log_blk_size ass uninit hfit s a0 rest x hlen hset hnd

/-- The scenario of C6: 2 sets, 2 ways, block-size exponent 0; the addresses
0, 2, 4 map to set 0 with distinct tags, and the accesses 0, 2, 4, 0 give miss,
miss, miss, miss, the access to 4 replacing the tag of address 0. -/
theorem C6_set_asso_thrash_witness :
    ((∀ a ∈ [0, 2, 4], SetAssoCache.getSet_num (SetAssoCache.new 1 0 2 (fun _ => 0)) a = 0) ∧
      ([0, 2, 4].map (SetAssoCache.getTag (SetAssoCache.new 1 0 2 (fun _ => 0)))).Nodup) ∧
    (SetAssoCache.accesses (SetAssoCache.new 1 0 2 (fun _ => 0)) [0, 2, 4, 0]).1 =
      [false, false, false, false] ∧
    ∃ v, 0 * 2 ≤ v ∧ v < 0 * 2 + 2 ∧
      (SetAssoCache.accesses (SetAssoCache.new 1 0 2 (fun _ => 0)) [0, 2]).2.base.m_tags.getD v 0
        = SetAssoCache.getTag (SetAssoCache.new 1 0 2 (fun _ => 0)) 0 ∧
      (SetAssoCache.accesses (SetAssoCache.new 1 0 2 (fun _ => 0))
        [0, 2]).2.base.m_valids.getD v false = true ∧
      (SetAssoCache.accesses (SetAssoCache.new 1 0 2 (fun _ => 0)) [0, 2, 4]).2.base.m_tags =
        (SetAssoCache.accesses (SetAssoCache.new 1 0 2 (fun _ => 0)) [0, 2]).2.base.m_tags.set v
          (SetAssoCache.getTag (SetAssoCache.new 1 0 2 (fun _ => 0)) 4) :=
  ⟨⟨by decide, by decide⟩,
    C6_set_asso_thrash 1 0 2 (fun _ => 0) 0 0 [2] 4 (by decide) rfl (by decide) (by decide)⟩

/-- A concrete instance of the run part of C10: two requests on cold caches of
each class, whose counters start at zero. -/
theorem C10_counter_accounting_witness :
    ((FullAssoCache.new 2 0 (fun _ => 0)).NoWrap 2 ∧
      (FullAssoCache.new 2 0 (fun _ => 0)).CountersLe
        (FullAssoCache.run (FullAssoCache.new 2 0 (fun _ => 0))
          [MemReq.read 0, MemReq.write 0]).2) ∧
    ((DirectMapCache.new 4 0 (fun _ => 0)).NoWrap 2 ∧
      (DirectMapCache.new 4 0 (fun _ => 0)).CountersLe
        (DirectMapCache.run (DirectMapCache.new 4 0 (fun _ => 0))
          [MemReq.read 0, MemReq.write 0]).2) ∧
    ((SetAssoCache.new 1 0 2 (fun _ => 0)).base.NoWrap 2 ∧
      (SetAssoCache.new 1 0 2 (fun _ => 0)).base.CountersLe
        (SetAssoCache.run (SetAssoCache.new 1 0 2 (fun _ => 0))
          [MemReq.read 0, MemReq.write 0]).2.base) :=
  ⟨⟨⟨by decide, by decide, by decide, by decide⟩,
      C10_counter_accounting.2.2.2.1 _ [MemReq.read 0, MemReq.write 0]
        ⟨by decide, by decide, by decide, by decide⟩⟩,
    ⟨⟨by decide, by decide, by decide, by decide⟩,
      C10_counter_accounting.2.2.2.2.1 _ [MemReq.read 0, MemReq.write 0]
        ⟨by decide, by decide, by decide, by decide⟩⟩,
    ⟨⟨by decide, by decide, by decide, by decide⟩,
      C10_counter_accounting.2.2.2.2.2 _ [MemReq.read 0, MemReq.write 0]
        ⟨by decide, by decide, by decide, by decide⟩⟩⟩

namespace FullAssoCache

/-- The arrays after `readReq` are those after the `access` call. -/
theorem fa_readReq_arrays (c : CacheModel) (a : Nat) :
    (readReq c a).m_valids = (access c a).2.m_valids ∧
    (readReq c a).m_tags = (access c a).2.m_tags ∧
    (readReq c a).m_replace_q = (access c a).2.m_replace_q := by
  unfold readReq
  simp only [fa_access_incRdReqs]
  split_ifs <;> exact ⟨rfl, rfl, rfl⟩

/-- The arrays after `writeReq` are those after the `access` call. -/
theorem fa_writeReq_arrays (c : CacheModel) (a : Nat) :
    (writeReq c a).m_valids = (access c a).2.m_valids ∧
    (writeReq c a).m_tags = (access c a).2.m_tags ∧
    (writeReq c a).m_replace_q = (access c a).2.m_replace_q := by
  unfold writeReq
  simp only [fa_access_incWrReqs]
  split_ifs <;> exact ⟨rfl, rfl, rfl⟩

theorem fa_lookup_writeReq_self {c : CacheModel} (hwf : WF c) (hn : 1 ≤ c.m_block_num) (a : Nat) :
    lookup (writeReq c a) a ≠ none := by
  have h := fa_lookup_after_access hwf hn a
  unfold writeReq
  simp only [fa_access_incWrReqs]
  split_ifs
  · rwa [fa_lookup_congr (c := (access c a).2.incWrReqs.incWrHits) (d := (access c a).2) a
      rfl rfl rfl rfl]
  · rwa [fa_lookup_congr (c := (access c a).2.incWrReqs) (d := (access c a).2) a rfl rfl rfl rfl]

theorem fa_read_after_write_hits {n b : Nat} {u : Nat → Nat} {c : CacheModel}
    (hr : Reachable n b u c) (hn : 1 ≤ n) (a : Nat) :
    (readReq (writeReq c a) a).m_rd_hits = ((writeReq c a).m_rd_hits + 1) % 2 ^ 64 := by
  obtain ⟨hwf, hbn⟩ := hr.fa_wf
  exact fa_readReq_hit_of_present a (fa_lookup_writeReq_self hwf (by omega) a)

end FullAssoCache

namespace DirectMapCache

/-- The arrays after `readReq` are those after the `access` call. -/
theorem dm_readReq_arrays (c : CacheModel) (a : Nat) :
    (readReq c a).m_valids = (access c a).2.m_valids ∧
    (readReq c a).m_tags = (access c a).2.m_tags ∧
    (readReq c a).m_replace_q = (access c a).2.m_replace_q := by
  unfold readReq
  simp only [dm_access_incRdReqs]
  split_ifs <;> exact ⟨rfl, rfl, rfl⟩

/-- The arrays after `writeReq` are those after the `access` call. -/
theorem dm_writeReq_arrays (c : CacheModel) (a : Nat) :
    (writeReq c a).m_valids = (access c a).2.m_valids ∧
    (writeReq c a).m_tags = (access c a).2.m_tags ∧
    (writeReq c a).m_replace_q = (access c a).2.m_replace_q := by
  unfold writeReq
  simp only [dm_access_incWrReqs]
  split_ifs <;> exact ⟨rfl, rfl, rfl⟩

/-- The hit flag of `access` depends on the geometry, tags and valid flags only. -/
theorem dm_access_fst_congr {c d : CacheModel} (a : Nat) (h1 : c.m_block_num = d.m_block_num)
    (h2 : c.m_blksz_log = d.m_blksz_log) (h3 : c.m_tags = d.m_tags)
    (h4 : c.m_valids = d.m_valids) : (access c a).1 = (access d a).1 := by
  rw [dm_access_fst, dm_access_fst, getBlk_num_congr a h1 h2, dm_getTag_congr a h1 h2, h3, h4]

theorem dm_readReq_hit_of_access {d : CacheModel} (a : Nat) (hd : (access d a).1 = true) :
    (readReq d a).m_rd_hits = (d.m_rd_hits + 1) % 2 ^ 64 := by
  have hd1 : (access d.incRdReqs a).1 = true := by rw [dm_access_incRdReqs]; exact hd
  unfold readReq
  simp only [hd1, if_true]
  rw [dm_access_incRdReqs]
  simp only [CacheModel.incRdHits, CacheModel.incRdReqs, (dm_access_frame d a).2.2.2.2.1]

theorem dm_read_after_write_hits {n b : Nat} {u : Nat → Nat} {c : CacheModel}
    (hr : Reachable n b u c) (hn : 1 ≤ n) (a : Nat) :
    (readReq (writeReq c a) a).m_rd_hits = ((writeReq c a).m_rd_hits + 1) % 2 ^ 64 := by
  obtain ⟨hwf, hbn⟩ := hr.dm_wf
  have h2 := access_twice hwf (show 1 ≤ c.m_block_num by omega) a
  apply dm_readReq_hit_of_access
  rw [← h2]
  have hf := dm_access_frame c a
  have hw := dm_writeReq_arrays c a
  apply dm_access_fst_congr a
  · rw [dm_writeReq_block_num, hf.1]
  · unfold writeReq
    simp only [dm_access_incWrReqs]
    split_ifs <;> rfl
  · exact hw.2.1
  · exact hw.1

end DirectMapCache

namespace SetAssoCache

/-- The arrays after `readReq` are those after the `access` call. -/
theorem sa_readReq_arrays (c : SetAssoCache) (a : Nat) :
    (readReq c a).base.m_valids = (access c a).2.base.m_valids ∧
    (readReq c a).base.m_tags = (access c a).2.base.m_tags ∧
    (readReq c a).base.m_replace_q = (access c a).2.base.m_replace_q := by
  unfold readReq
  simp only [sa_access_incRdReqs]
  split_ifs <;> exact ⟨rfl, rfl, rfl⟩

/-- The arrays after `writeReq` are those after the `access` call. -/
theorem sa_writeReq_arrays (c : SetAssoCache) (a : Nat) :
    (writeReq c a).base.m_valids = (access c a).2.base.m_valids ∧
    (writeReq c a).base.m_tags = (access c a).2.base.m_tags ∧
    (writeReq c a).base.m_replace_q = (access c a).2.base.m_replace_q := by
  unfold writeReq
  simp only [sa_access_incWrReqs]
  split_ifs <;> exact ⟨rfl, rfl, rfl⟩

theorem WF.sa_lookup_writeReq_self {c : SetAssoCache} (h : WF c) (a : Nat) :
    lookup (writeReq c a) a ≠ none := by
  have h1 := h.sa_lookup_after_access a
  unfold writeReq
  simp only [sa_access_incWrReqs]
  split_ifs
  · intro hn
    apply h1
    rw [← hn]
    apply sa_lookup_congr <;> rfl
  · intro hn
    apply h1
    rw [← hn]
    apply sa_lookup_congr <;> rfl

theorem sa_read_after_write_hits {k b ass : Nat} {u : Nat → Nat} {c : SetAssoCache}
    (hr : Reachable k b ass u c) (hass : 1 ≤ ass) (hfit : 2 ^ k * ass < 2 ^ 32) (a : Nat) :
    (readReq (writeReq c a) a).base.m_rd_hits =
      ((writeReq c a).base.m_rd_hits + 1) % 2 ^ 64 :=
  sa_readReq_hit_of_present a ((hr.sa_wf hass hfit).sa_lookup_writeReq_self a)

end SetAssoCache

/-- C12 (address decomposition). With all shift amounts below 32:
`SetAssoCache::getSet_num(addr) = (addr >> blockSizeExp) & (2^setCountExp - 1)`
and `SetAssoCache::getTag(addr) = addr >> (blockSizeExp + setCountExp)`; for a
`DirectMapCache` with `block_num = 2^k`,
`getBlk_num(addr) = (addr >> blockSizeExp) & (2^k - 1)` and
`getTag(addr) = addr >> (blockSizeExp + k)`; and
`FullAssoCache::getTag(addr) = addr >> blockSizeExp`. -/
theorem C12_address_decomposition :
    (∀ (c : SetAssoCache) (addr : Nat), c.m_blksz_log + c.m_sets_log < 32 →
      SetAssoCache.getSet_num c addr = (addr >>> c.m_blksz_log) &&& (2 ^ c.m_sets_log - 1) ∧
      SetAssoCache.getTag c addr = addr >>> (c.m_blksz_log + c.m_sets_log)) ∧
    (∀ (c : CacheModel) (k addr : Nat), c.m_block_num = 2 ^ k → c.m_blksz_log + k < 32 →
      DirectMapCache.getBlk_num c addr = (addr >>> c.m_blksz_log) &&& (2 ^ k - 1) ∧
      DirectMapCache.getTag c addr = addr >>> (c.m_blksz_log + k)) ∧
    (∀ (c : CacheModel) (addr : Nat),
      FullAssoCache.getTag c addr = addr >>> c.m_blksz_log) := by
  refine ⟨?_, ?_, ?_⟩
  · intro c addr h
    have hk : c.m_sets_log < 32 := by omega
    have hpow : 2 ^ c.m_sets_log < 2 ^ 32 := Nat.pow_lt_pow_right (by decide) hk
    constructor
    · unfold SetAssoCache.getSet_num
      rw [Nat.one_shiftLeft, Nat.mod_eq_of_lt (by omega)]
    · unfold SetAssoCache.getTag
      rw [Nat.mod_eq_of_lt (by omega)]
  · intro c k addr hn h
    have hk : k < 32 := by omega
    have hpow : 2 ^ k < 2 ^ 32 := Nat.pow_lt_pow_right (by decide) hk
    have hpos : 0 < 2 ^ k := Nat.pow_pos (by decide)
    constructor
    · unfold DirectMapCache.getBlk_num
      rw [hn]
      have : (2 ^ k + 2 ^ 32 - 1) % 2 ^ 32 = 2 ^ k - 1 := by omega
      rw [this]
    · unfold DirectMapCache.getTag
      rw [hn, Nat.log2_two_pow, Nat.mod_eq_of_lt (by omega)]
  · intro c addr
    rfl

/-- A concrete instance of C12 with the default geometry of the tool (block-size
exponent 6, 128 sets of 4 ways, resp. 512 blocks) and the address 0x12345678. -/
theorem C12_address_decomposition_witness :
    (SetAssoCache.getSet_num (SetAssoCache.new 7 6 4 (fun _ => 0)) 305419896 =
        (305419896 >>> 6) &&& (2 ^ 7 - 1) ∧
      SetAssoCache.getTag (SetAssoCache.new 7 6 4 (fun _ => 0)) 305419896 =
        305419896 >>> (6 + 7)) ∧
    (DirectMapCache.getBlk_num (DirectMapCache.new (2 ^ 9) 6 (fun _ => 0)) 305419896 =
        (305419896 >>> 6) &&& (2 ^ 9 - 1) ∧
      DirectMapCache.getTag (DirectMapCache.new (2 ^ 9) 6 (fun _ => 0)) 305419896 =
        305419896 >>> (6 + 9)) :=
  ⟨C12_address_decomposition.1 (SetAssoCache.new 7 6 4 (fun _ => 0)) 305419896 (by decide),
   C12_address_decomposition.2.1 (DirectMapCache.new (2 ^ 9) 6 (fun _ => 0)) 9 305419896 rfl
     (by decide)⟩

namespace FullAssoCache

/-- The first access to a cold cache misses and installs into slot 0. -/
theorem cold_install (n b : Nat) (u : Nat → Nat) (hn : 1 ≤ n) (a : Nat) :
    (access (new n b u) a).1 = false ∧
    (access (new n b u) a).2.m_tags = (new n b u).m_tags.set 0 (getTag (new n b u) a) ∧
    (access (new n b u) a).2.m_valids = (new n b u).m_valids.set 0 true := by
  have hnone : lookup (new n b u) a = none := by
    rw [← fillState_nil]
    exact fillState_lookup_none n b u [] a (Nat.zero_le _) (by simp)
  have hhead : (new n b u).m_replace_q.getD 0 0 = 0 := by
    simp [new, CacheModel.new, List.getElem?_range hn]
  rw [access_miss (fa_WF_new n b u) hn hnone, hhead]
  exact ⟨rfl, rfl, rfl⟩

end FullAssoCache

namespace SetAssoCache

/-- What a miss does to the tags and valid flags. -/
theorem WF.miss_arrays {c : SetAssoCache} (h : WF c) (a : Nat)
    (hmiss : (FullAssoCache.access (view c (getSet_num c a)) (getTag c a)).1 = false) :
    (access c a).2.base.m_tags =
      c.base.m_tags.set (c.base.m_replace_q.getD (getSet_num c a * c.m_ass) 0) (getTag c a) ∧
    (access c a).2.base.m_valids =
      c.base.m_valids.set (c.base.m_replace_q.getD (getSet_num c a * c.m_ass) 0) true := by
  have hnone : FullAssoCache.lookup (view c (getSet_num c a)) (getTag c a) = none := by
    rw [FullAssoCache.fa_access_fst] at hmiss
    cases hl : FullAssoCache.lookup (view c (getSet_num c a)) (getTag c a) with
    | none => rfl
    | some i => rw [hl] at hmiss; simp at hmiss
  rw [h.sa_access_eq a, hnone]
  exact ⟨rfl, rfl⟩

/-- Accesses to other sets leave the view of set `s` as it is. -/
theorem WF.accesses_view_other {c : SetAssoCache} (h : WF c) (s : Nat) (as : List Nat)
    (hset : ∀ a ∈ as, getSet_num c a ≠ s) :
    view (accesses c as).2 s = view c s ∧
    WF (accesses c as).2 ∧
    (accesses c as).2.m_sets_log = c.m_sets_log ∧
    (accesses c as).2.m_blksz_log = c.m_blksz_log ∧
    (accesses c as).2.m_ass = c.m_ass := by
  induction as generalizing c with
  | nil => exact ⟨rfl, h, rfl, rfl, rfl⟩
  | cons a t ih =>
    have hs : getSet_num c a ≠ s := hset a (List.mem_cons_self a t)
    have hf := sa_access_frame c a
    have hset' : ∀ x ∈ t, getSet_num (access c a).2 x ≠ s := by
      intro x hx
      rw [getSet_num_congr x hf.1 hf.2.1]
      exact hset x (List.mem_cons_of_mem a hx)
    obtain ⟨i1, i2, i3, i4, i5⟩ := ih (h.sa_step a) hset'
    refine ⟨?_, i2, i3.trans hf.1, i4.trans hf.2.1, i5.trans hf.2.2.1⟩
    show view (accesses (access c a).2 t).2 s = _
    rw [i1]
    exact h.access_view_other a (fun e => hs e.symm)

/-- The first access to a cold set `s` misses and installs into slot `s*ass`,
whatever happened in the other sets before. -/
theorem cold_set_install (k b ass : Nat) (u : Nat → Nat) (hass : 1 ≤ ass)
    (hfit : 2 ^ k * ass < 2 ^ 32) (pre : List Nat) (a : Nat)
    (hpre : ∀ x ∈ pre, getSet_num (new k b ass u) x ≠ getSet_num (new k b ass u) a) :
    (access (accesses (new k b ass u) pre).2 a).1 = false ∧
    (access (accesses (new k b ass u) pre).2 a).2.base.m_tags =
      (accesses (new k b ass u) pre).2.base.m_tags.set
        (getSet_num (new k b ass u) a * ass) (getTag (new k b ass u) a) ∧
    (access (accesses (new k b ass u) pre).2 a).2.base.m_valids =
      (accesses (new k b ass u) pre).2.base.m_valids.set
        (getSet_num (new k b ass u) a * ass) true := by
  have hwf0 := sa_WF_new k b ass u hass hfit
  have hs : getSet_num (new k b ass u) a < 2 ^ k := hwf0.getSet_num_lt a
  obtain ⟨v1, v2, v3, v4, v5⟩ := hwf0.accesses_view_other _ pre hpre
  rw [view_new k b ass u hfit _ hs] at v1
  have hsetr : getSet_num (accesses (new k b ass u) pre).2 a = getSet_num (new k b ass u) a :=
    getSet_num_congr a v3 v4
  have htagr : getTag (accesses (new k b ass u) pre).2 a = getTag (new k b ass u) a :=
    sa_getTag_congr a v3 v4
  have hassr : (accesses (new k b ass u) pre).2.m_ass = ass := v5
  have hcold := FullAssoCache.cold_install ass 0
    (fun i => u (getSet_num (new k b ass u) a * ass + i)) hass (getTag (new k b ass u) a)
  have hmiss : (FullAssoCache.access
      (view (accesses (new k b ass u) pre).2 (getSet_num (accesses (new k b ass u) pre).2 a))
      (getTag (accesses (new k b ass u) pre).2 a)).1 = false := by
    rw [hsetr, htagr, v1]
    exact hcold.1
  obtain ⟨m1, m2, m3, _, _, _⟩ := v2.miss_slot a hmiss
  obtain ⟨a1, a2⟩ := v2.miss_arrays a hmiss
  have hhead := v2.view_head (s := getSet_num (new k b ass u) a) (by rw [v3]; exact hs)
  rw [v1] at hhead
  have h0 : (FullAssoCache.new ass 0
      (fun i => u (getSet_num (new k b ass u) a * ass + i))).m_replace_q.getD 0 0 = 0 := by
    simp [FullAssoCache.new, CacheModel.new, List.getElem?_range hass]
  rw [h0, hassr] at hhead
  rw [hsetr, hassr] at m2 m3 a1 a2
  have hv : (accesses (new k b ass u) pre).2.base.m_replace_q.getD
      (getSet_num (new k b ass u) a * ass) 0 = getSet_num (new k b ass u) a * ass := by
    omega
  rw [hv, htagr] at a1
  rw [hv] at a2
  exact ⟨m1, a1, a2⟩

end SetAssoCache

/-- C13 (initial state and cold victim). Right after construction every block
is invalid and the replacement queue holds the slot identifiers in ascending
order (`m_replace_q[i] = i`), so that the queue segment of every set of a
`SetAssoCache` is the set's own slots in ascending order.  Consequently the
first access to a cold `FullAssoCache` (at least one block) misses and installs
into slot 0, and the first access to a cold set `s` of a `SetAssoCache` (at
least one way, block count fitting 32 bits), after any accesses to other sets,
misses and installs into slot `s*ass`. -/
theorem C13_initial_state_and_cold_victim :
    (∀ (block_num log_block_size : Nat) (uninit : Nat → Nat),
      (CacheModel.new block_num log_block_size uninit).m_valids =
        List.replicate block_num false ∧
      (CacheModel.new block_num log_block_size uninit).m_replace_q = List.range block_num ∧
      ∀ i < block_num,
        (CacheModel.new block_num log_block_size uninit).m_valids.getD i true = false ∧
        (CacheModel.new block_num log_block_size uninit).m_replace_q.getD i 0 = i) ∧
    (∀ (sets_log log_blk_size ass : Nat) (uninit : Nat → Nat),
      2 ^ sets_log * ass < 2 ^ 32 → ∀ s < 2 ^ sets_log,
      seg (s * ass) ass (SetAssoCache.new sets_log log_blk_size ass uninit).base.m_replace_q =
        List.range' (s * ass) ass) ∧
    (∀ (block_num log_block_size : Nat) (uninit : Nat → Nat) (a : Nat), 1 ≤ block_num →
      (FullAssoCache.access (FullAssoCache.new block_num log_block_size uninit) a).1 = false ∧
      (FullAssoCache.access (FullAssoCache.new block_num log_block_size uninit) a).2.m_tags =
        (FullAssoCache.new block_num log_block_size uninit).m_tags.set 0
          (FullAssoCache.getTag (FullAssoCache.new block_num log_block_size uninit) a) ∧
      (FullAssoCache.access (FullAssoCache.new block_num log_block_size uninit) a).2.m_valids =
        (FullAssoCache.new block_num log_block_size uninit).m_valids.set 0 true) ∧
    (∀ (sets_log log_blk_size ass : Nat) (uninit : Nat → Nat) (pre : List Nat) (a : Nat),
      1 ≤ ass → 2 ^ sets_log * ass < 2 ^ 32 →
      (∀ x ∈ pre,
        SetAssoCache.getSet_num (SetAssoCache.new sets_log log_blk_size ass uninit) x ≠
          SetAssoCache.getSet_num (SetAssoCache.new sets_log log_blk_size ass uninit) a) →
      (SetAssoCache.access
        (SetAssoCache.accesses (SetAssoCache.new sets_log log_blk_size ass uninit) pre).2 a).1
        = false ∧
      (SetAssoCache.access
        (SetAssoCache.accesses (SetAssoCache.new sets_log log_blk_size ass uninit) pre).2 a
        ).2.base.m_tags =
        (SetAssoCache.accesses (SetAssoCache.new sets_log log_blk_size ass uninit) pre
          ).2.base.m_tags.set
          (SetAssoCache.getSet_num (SetAssoCache.new sets_log log_blk_size ass uninit) a * ass)
          (SetAssoCache.getTag (SetAssoCache.new sets_log log_blk_size ass uninit) a) ∧
      (SetAssoCache.access
        (SetAssoCache.accesses (SetAssoCache.new sets_log log_blk_size ass uninit) pre).2 a
        ).2.base.m_valids =
        (SetAssoCache.accesses (SetAssoCache.new sets_log log_blk_size ass uninit) pre
          ).2.base.m_valids.set
          (SetAssoCache.getSet_num (SetAssoCache.new sets_log log_blk_size ass uninit) a * ass)
          true) := by
  refine ⟨?_, ?_, ?_, ?_⟩
  · intro n b u
    refine ⟨rfl, rfl, ?_⟩
    intro i hi
    constructor
    · show (List.replicate n false).getD i true = false
      rw [List.getD_eq_getElem?_getD, List.getElem?_replicate, if_pos hi]
      rfl
    · show (List.range n).getD i 0 = i
      rw [List.getD_eq_getElem?_getD, List.getElem?_range hi]
      rfl
  · intro k b ass u hfit s hs
    have hbn : ((1 <<< k) * ass) % 2 ^ 32 = 2 ^ k * ass := by
      rw [Nat.one_shiftLeft, Nat.mod_eq_of_lt hfit]
    have hle : s * ass + ass ≤ 2 ^ k * ass := by
      have := Nat.mul_le_mul_right ass (Nat.succ_le_of_lt hs)
      rwa [Nat.succ_mul] at this
    show seg (s * ass) ass (List.range (((1 <<< k) * ass) % 2 ^ 32)) = _
    rw [hbn, seg_range _ _ _ hle]
  · intro n b u a hn
    exact FullAssoCache.cold_install n b u hn a
  · intro k b ass u pre a hass hfit hpre
    exact SetAssoCache.cold_set_install k b ass u hass hfit pre a hpre

/-- A concrete instance of C13: a cold 2-block fully associative cache accessed
at 5, and set 1 of a cold 2-set 2-way cache accessed at 3 after an access to
set 0. -/
theorem C13_initial_state_and_cold_victim_witness :
    ((FullAssoCache.access (FullAssoCache.new 2 0 (fun _ => 0)) 5).2.m_tags =
      (FullAssoCache.new 2 0 (fun _ => 0)).m_tags.set 0
        (FullAssoCache.getTag (FullAssoCache.new 2 0 (fun _ => 0)) 5)) ∧
    ((SetAssoCache.access
        (SetAssoCache.accesses (SetAssoCache.new 1 0 2 (fun _ => 0)) [4]).2 3).2.base.m_tags =
      (SetAssoCache.accesses (SetAssoCache.new 1 0 2 (fun _ => 0)) [4]).2.base.m_tags.set
        (SetAssoCache.getSet_num (SetAssoCache.new 1 0 2 (fun _ => 0)) 3 * 2)
        (SetAssoCache.getTag (SetAssoCache.new 1 0 2 (fun _ => 0)) 3)) :=
  ⟨(C13_initial_state_and_cold_victim.2.2.1 2 0 (fun _ => 0) 5 (by decide)).2.1,
   (C13_initial_state_and_cold_victim.2.2.2 1 0 2 (fun _ => 0) [4] 3 (by decide) (by decide)
     (by decide)).2.1⟩

namespace SetAssoCache

/-- An access writes only inside the slot range of the set of the address. -/
theorem WF.access_outside {c : SetAssoCache} (h : WF c) (a j : Nat)
    (hj : j < getSet_num c a * c.m_ass ∨ getSet_num c a * c.m_ass + c.m_ass ≤ j) :
    (access c a).2.base.m_valids[j]? = c.base.m_valids[j]? ∧
    (access c a).2.base.m_tags[j]? = c.base.m_tags[j]? ∧
    (access c a).2.base.m_replace_q[j]? = c.base.m_replace_q[j]? := by
  have hs := h.getSet_num_lt a
  obtain ⟨l1, l2, l3⟩ := h.seg_len hs
  have hseg := length_seg (getSet_num c a * c.m_ass) c.m_ass c.base.m_replace_q l1
  have hv := h.victim_mem hs
  have hlenB : ∀ x, x ∈ seg (getSet_num c a * c.m_ass) c.m_ass c.base.m_replace_q →
      ((seg (getSet_num c a * c.m_ass) c.m_ass c.base.m_replace_q).erase x ++ [x]).length
        = c.m_ass := by
    intro x hx
    rw [List.length_append, List.length_erase_of_mem hx, hseg]
    have := h.ass_pos
    simp
    omega
  rw [h.sa_access_eq a]
  cases hf : FullAssoCache.lookup (view c (getSet_num c a)) (getTag c a) with
  | some i =>
    have hi : i < c.m_ass := (FullAssoCache.lookup_some hf).1
    refine ⟨rfl, rfl, ?_⟩
    show (splice _ _ _ _)[j]? = _
    rw [getElem?_splice _ _ _ _ (hlenB _ ((h.mem_seg hs _).mpr ⟨by omega, by omega⟩)) l1]
    split_ifs <;> first | rfl | omega
  | none =>
    refine ⟨?_, ?_, ?_⟩
    · show (c.base.m_valids.set _ true)[j]? = _
      rw [List.getElem?_set]
      split_ifs <;> first | rfl | omega
    · show (c.base.m_tags.set _ _)[j]? = _
      rw [List.getElem?_set]
      split_ifs <;> first | rfl | omega
    · show (splice _ _ _ _)[j]? = _
      rw [getElem?_splice _ _ _ _ (hlenB _ (h.victim_mem_seg hs)) l1]
      split_ifs <;> first | rfl | omega

/-- The block `lookup` reports lies in the set of the address. -/
theorem WF.lookup_range {c : SetAssoCache} (h : WF c) (a blk : Nat)
    (hl : lookup c a = some blk) :
    getSet_num c a * c.m_ass ≤ blk ∧ blk < getSet_num c a * c.m_ass + c.m_ass := by
  rw [h.lookup_view a] at hl
  cases hf : FullAssoCache.lookup (view c (getSet_num c a)) (getTag c a) with
  | none => rw [hf] at hl; simp at hl
  | some i =>
    have hi : i < c.m_ass := (FullAssoCache.lookup_some hf).1
    rw [hf] at hl
    simp only [Option.map_some', Option.some.injEq] at hl
    omega

end SetAssoCache

/-- C14 (set isolation). For a `SetAssoCache` with at least one way (block
count fitting 32 bits) in a state reachable from the constructor and an address
`a` mapping to set `s = getSet_num a`, where `s` is one of the `2^sets_log`
sets: an access to `a` leaves the valid flag, the tag and the replacement-queue
entry of every slot outside `s*ass .. s*ass+ass-1` unchanged; every index
`s*ass+i` (`i < ass`) scanned by `lookup`, the block it reports, and the victim
`m_replace_q[s*ass]` lie inside that range. -/
theorem C14_set_isolation (sets_log log_blk_size ass : Nat) (uninit : Nat → Nat)
    (c : SetAssoCache) (a : Nat)
    (hr : SetAssoCache.Reachable sets_log log_blk_size ass uninit c)
    (hass : 1 ≤ ass) (hfit : 2 ^ sets_log * ass < 2 ^ 32) :
    SetAssoCache.getSet_num c a < 2 ^ sets_log ∧
    (∀ j, (j < SetAssoCache.getSet_num c a * ass ∨
        SetAssoCache.getSet_num c a * ass + ass ≤ j) →
      (SetAssoCache.access c a).2.base.m_valids[j]? = c.base.m_valids[j]? ∧
      (SetAssoCache.access c a).2.base.m_tags[j]? = c.base.m_tags[j]? ∧
      (SetAssoCache.access c a).2.base.m_replace_q[j]? = c.base.m_replace_q[j]?) ∧
    (∀ i < ass,
      SetAssoCache.getSet_num c a * ass ≤ SetAssoCache.slot c.m_ass (SetAssoCache.getSet_num c a) i ∧
      SetAssoCache.slot c.m_ass (SetAssoCache.getSet_num c a) i <
        SetAssoCache.getSet_num c a * ass + ass) ∧
    (∀ blk, SetAssoCache.lookup c a = some blk →
      SetAssoCache.getSet_num c a * ass ≤ blk ∧
      blk < SetAssoCache.getSet_num c a * ass + ass) ∧
    (SetAssoCache.getSet_num c a * ass ≤
        c.base.m_replace_q.getD (SetAssoCache.slot c.m_ass (SetAssoCache.getSet_num c a) 0) 0 ∧
      c.base.m_replace_q.getD (SetAssoCache.slot c.m_ass (SetAssoCache.getSet_num c a) 0) 0 <
        SetAssoCache.getSet_num c a * ass + ass) := by
  have hwf := hr.sa_wf hass hfit
  obtain ⟨hk, ha⟩ := hr.geom
  subst hk ha
  have hs := hwf.getSet_num_lt a
  have h4 : ∀ i < c.m_ass, SetAssoCache.slot c.m_ass (SetAssoCache.getSet_num c a) i =
      SetAssoCache.getSet_num c a * c.m_ass + i := fun i hi => hwf.slot_eq hs hi
  have h5 := h4 0 hass
  rw [Nat.add_zero] at h5
  rw [h5]
  refine ⟨hs, hwf.access_outside a, ?_, hwf.lookup_range a, hwf.victim_mem hs⟩
  intro i hi
  rw [h4 i hi]
  omega

/-- A concrete instance of C14: a 2-set 2-way cache after a read of address 4,
accessed at address 3 (set 1, slots 2 and 3). -/
theorem C14_set_isolation_witness :
    SetAssoCache.Reachable 1 0 2 (fun _ => 0)
      (SetAssoCache.readReq (SetAssoCache.new 1 0 2 (fun _ => 0)) 4) ∧
    ∀ j, (j < SetAssoCache.getSet_num
          (SetAssoCache.readReq (SetAssoCache.new 1 0 2 (fun _ => 0)) 4) 3 * 2 ∨
        SetAssoCache.getSet_num
          (SetAssoCache.readReq (SetAssoCache.new 1 0 2 (fun _ => 0)) 4) 3 * 2 + 2 ≤ j) →
      (SetAssoCache.access
        (SetAssoCache.readReq (SetAssoCache.new 1 0 2 (fun _ => 0)) 4) 3).2.base.m_valids[j]? =
        (SetAssoCache.readReq (SetAssoCache.new 1 0 2 (fun _ => 0)) 4).base.m_valids[j]? ∧
      (SetAssoCache.access
        (SetAssoCache.readReq (SetAssoCache.new 1 0 2 (fun _ => 0)) 4) 3).2.base.m_tags[j]? =
        (SetAssoCache.readReq (SetAssoCache.new 1 0 2 (fun _ => 0)) 4).base.m_tags[j]? ∧
      (SetAssoCache.access
        (SetAssoCache.readReq (SetAssoCache.new 1 0 2 (fun _ => 0)) 4) 3).2.base.m_replace_q[j]? =
        (SetAssoCache.readReq (SetAssoCache.new 1 0 2 (fun _ => 0)) 4).base.m_replace_q[j]? :=
  ⟨SetAssoCache.Reachable.readReq _ 4 SetAssoCache.Reachable.ctor,
   (C14_set_isolation 1 0 2 (fun _ => 0) _ 3
     (SetAssoCache.Reachable.readReq _ 4 SetAssoCache.Reachable.ctor)
     (by decide) (by decide)).2.1⟩

theorem CacheModel.ReadAccounted.read_bounded_step {c c' : CacheModel} {hit : Bool} {n : Nat}
    (h : c.ReadAccounted c' hit) (hb : c.HitsBounded n) (hn : n + 1 < 2 ^ 64) :
    c'.HitsBounded (n + 1) := by
  obtain ⟨h1, h2, h3, h4⟩ := h
  obtain ⟨b1, b2, b3, b4⟩ := hb
  unfold CacheModel.HitsBounded
  rw [h1, h2, h3, h4]
  cases hit <;> simp only [Bool.false_eq_true, if_false, if_true] <;> omega

theorem CacheModel.WriteAccounted.write_bounded_step {c c' : CacheModel} {hit : Bool} {n : Nat}
    (h : c.WriteAccounted c' hit) (hb : c.HitsBounded n) (hn : n + 1 < 2 ^ 64) :
    c'.HitsBounded (n + 1) := by
  obtain ⟨h1, h2, h3, h4⟩ := h
  obtain ⟨b1, b2, b3, b4⟩ := hb
  unfold CacheModel.HitsBounded
  rw [h1, h2, h3, h4]
  cases hit <;> simp only [Bool.false_eq_true, if_false, if_true] <;> omega

theorem CacheModel.HitsBounded.of_new (n b : Nat) (u : Nat → Nat) :
    (CacheModel.new n b u).HitsBounded 0 :=
  ⟨Nat.le_refl _, Nat.le_refl _, Nat.le_refl _, Nat.le_refl _⟩

theorem hitRate_range (h r : Nat) (hle : h ≤ r) (hr : 0 < r) :
    0 ≤ 100 * (h : ℚ) / (r : ℚ) ∧ 100 * (h : ℚ) / (r : ℚ) ≤ 100 := by
  have hr' : (0 : ℚ) < (r : ℚ) := by exact_mod_cast hr
  have hle' : (h : ℚ) ≤ (r : ℚ) := by exact_mod_cast hle
  constructor
  · positivity
  · rw [div_le_iff₀ hr']
    linarith

theorem CacheModel.HitsBounded.rates {c : CacheModel} {n : Nat} (h : c.HitsBounded n) :
    c.RatesInRange :=
  ⟨h.1, h.2.1, fun hr => hitRate_range _ _ h.1 hr, fun hr => hitRate_range _ _ h.2.1 hr⟩

namespace FullAssoCache

theorem fa_run_bounded (c : CacheModel) (tr : List MemReq) (n : Nat) (hb : c.HitsBounded n)
    (hn : n + tr.length < 2 ^ 64) : (run c tr).2.HitsBounded (n + tr.length) := by
  induction tr generalizing c n with
  | nil => exact hb
  | cons r t ih =>
    rw [List.length_cons] at hn ⊢
    cases r with
    | read a =>
      have := ih _ (n + 1) ((fa_readReq_accounted c a).read_bounded_step hb (by omega)) (by omega)
      rw [show n + (t.length + 1) = n + 1 + t.length by omega]
      exact this
    | write a =>
      have := ih _ (n + 1) ((fa_writeReq_accounted c a).write_bounded_step hb (by omega)) (by omega)
      rw [show n + (t.length + 1) = n + 1 + t.length by omega]
      exact this

/-- Reading a cached address `n` times adds `n` to both read counters. -/
theorem reads_present (c : CacheModel) (a n : Nat) (hwf : WF c) (hn : 1 ≤ c.m_block_num)
    (hp : lookup c a ≠ none) (h1 : c.m_rd_reqs < 2 ^ 64) (h2 : c.m_rd_hits < 2 ^ 64) :
    (run c (List.replicate n (MemReq.read a))).2.m_rd_reqs = (c.m_rd_reqs + n) % 2 ^ 64 ∧
    (run c (List.replicate n (MemReq.read a))).2.m_rd_hits = (c.m_rd_hits + n) % 2 ^ 64 := by
  induction n generalizing c with
  | zero =>
    exact ⟨(Nat.mod_eq_of_lt h1).symm, (Nat.mod_eq_of_lt h2).symm⟩
  | succ m ih =>
    have hacc := fa_readReq_accounted c a
    have hhit := fa_readReq_hit_of_present a hp
    have hbn : (readReq c a).m_block_num = c.m_block_num := fa_readReq_block_num c a
    have hq : (readReq c a).m_rd_reqs = (c.m_rd_reqs + 1) % 2 ^ 64 := hacc.1
    obtain ⟨i1, i2⟩ := ih (readReq c a) (fa_WF_readReq hwf a) (by omega)
      (fa_lookup_readReq_self hwf hn a)
      (by rw [hq]; exact Nat.mod_lt _ (by norm_num))
      (by rw [hhit]; exact Nat.mod_lt _ (by norm_num))
    rw [List.replicate_succ]
    show (run (readReq c a) (List.replicate m (MemReq.read a))).2.m_rd_reqs = _ ∧
      (run (readReq c a) (List.replicate m (MemReq.read a))).2.m_rd_hits = _
    rw [i1, i2, hq, hhit]
    constructor <;> omega

/-- Reading one address `n >= 1` times on a cold cache: `n` requests and `n-1`
hits, both counted modulo `2^64`. -/
theorem cold_reads (k b : Nat) (u : Nat → Nat) (hk : 1 ≤ k) (a n : Nat) (hn : 1 ≤ n) :
    (run (new k b u) (List.replicate n (MemReq.read a))).2.m_rd_reqs = n % 2 ^ 64 ∧
    (run (new k b u) (List.replicate n (MemReq.read a))).2.m_rd_hits = (n - 1) % 2 ^ 64 := by
  obtain ⟨m, rfl⟩ : ∃ m, n = m + 1 := ⟨n - 1, by omega⟩
  have hwf := fa_WF_new k b u
  have hacc := fa_readReq_accounted (new k b u) a
  have hmiss : (access (new k b u).incRdReqs a).1 = false := by
    rw [fa_access_incRdReqs]
    exact (cold_install k b u hk a).1
  rw [hmiss] at hacc
  have hq : (readReq (new k b u) a).m_rd_reqs = 1 := hacc.1
  have hh : (readReq (new k b u) a).m_rd_hits = 0 := hacc.2.1
  have hbn : (readReq (new k b u) a).m_block_num = k := fa_readReq_block_num _ a
  obtain ⟨i1, i2⟩ := reads_present (readReq (new k b u) a) a m (fa_WF_readReq hwf a)
    (by omega) (fa_lookup_readReq_self hwf hk a) (by rw [hq]; norm_num) (by rw [hh]; norm_num)
  rw [List.replicate_succ]
  show (run (readReq (new k b u) a) (List.replicate m (MemReq.read a))).2.m_rd_reqs = _ ∧
    (run (readReq (new k b u) a) (List.replicate m (MemReq.read a))).2.m_rd_hits = _
  rw [i1, i2, hq, hh]
  constructor
  · rw [Nat.add_comm]
  · rw [Nat.zero_add, Nat.add_sub_cancel]

end FullAssoCache

namespace DirectMapCache

theorem dm_run_bounded (c : CacheModel) (tr : List MemReq) (n : Nat) (hb : c.HitsBounded n)
    (hn : n + tr.length < 2 ^ 64) : (run c tr).2.HitsBounded (n + tr.length) := by
  induction tr generalizing c n with
  | nil => exact hb
  | cons r t ih =>
    rw [List.length_cons] at hn ⊢
    cases r with
    | read a =>
      have := ih _ (n + 1) ((dm_readReq_accounted c a).read_bounded_step hb (by omega)) (by omega)
      rw [show n + (t.length + 1) = n + 1 + t.length by omega]
      exact this
    | write a =>
      have := ih _ (n + 1) ((dm_writeReq_accounted c a).write_bounded_step hb (by omega)) (by omega)
      rw [show n + (t.length + 1) = n + 1 + t.length by omega]
      exact this

end DirectMapCache

namespace SetAssoCache

theorem sa_run_bounded (c : SetAssoCache) (tr : List MemReq) (n : Nat)
    (hb : c.base.HitsBounded n) (hn : n + tr.length < 2 ^ 64) :
    (run c tr).2.base.HitsBounded (n + tr.length) := by
  induction tr generalizing c n with
  | nil => exact hb
  | cons r t ih =>
    rw [List.length_cons] at hn ⊢
    cases r with
    | read a =>
      have := ih _ (n + 1) ((sa_readReq_accounted c a).read_bounded_step hb (by omega)) (by omega)
      rw [show n + (t.length + 1) = n + 1 + t.length by omega]
      exact this
    | write a =>
      have := ih _ (n + 1) ((sa_writeReq_accounted c a).write_bounded_step hb (by omega)) (by omega)
      rw [show n + (t.length + 1) = n + 1 + t.length by omega]
      exact this

end SetAssoCache

/-- C15, the claim as stated fails: no constructor rejects anything.  A
`FullAssoCache` with zero blocks, a `DirectMapCache` with zero blocks, a
`DirectMapCache` with three blocks (not a power of two) and a `SetAssoCache`
with associativity zero are all built. -/
theorem C15_invalid_geometry_is_built :
    FullAssoCache.construct 0 6 (fun _ => 0) =
      Except.ok (FullAssoCache.new 0 6 (fun _ => 0)) ∧
    DirectMapCache.construct 0 6 (fun _ => 0) =
      Except.ok (DirectMapCache.new 0 6 (fun _ => 0)) ∧
    DirectMapCache.construct 3 6 (fun _ => 0) =
      Except.ok (DirectMapCache.new 3 6 (fun _ => 0)) ∧
    (DirectMapCache.new 3 6 (fun _ => 0)).m_block_num = 3 ∧
    SetAssoCache.construct 2 6 0 (fun _ => 0) =
      Except.ok (SetAssoCache.new 2 6 0 (fun _ => 0)) ∧
    (SetAssoCache.new 2 6 0 (fun _ => 0)).m_ass = 0 ∧
    (SetAssoCache.new 2 6 0 (fun _ => 0)).base.m_block_num = 0 :=
  ⟨rfl, rfl, rfl, rfl, rfl, rfl, rfl⟩

/-- C15 (amended: geometry is not validated at construction). Every constructor
call builds a model, whatever the parameters, and never yields a configuration
error: `FullAssoCache` and `DirectMapCache` with exactly the given block count,
`SetAssoCache` with `(1<<sets_log)*ass` blocks (unsigned 32-bit product) and
the given parameters stored; every block is invalid, the replacement queue is
the identity and the four counters are zero. -/
theorem C15_construction_never_rejects :
    (∀ (block_num log_block_size : Nat) (uninit : Nat → Nat),
      (∀ e, FullAssoCache.construct block_num log_block_size uninit ≠ Except.error e) ∧
      ∃ c, FullAssoCache.construct block_num log_block_size uninit = Except.ok c ∧
        c.m_block_num = block_num ∧ c.m_blksz_log = log_block_size ∧
        c.m_valids = List.replicate block_num false ∧
        c.m_replace_q = List.range block_num ∧
        c.m_rd_reqs = 0 ∧ c.m_wr_reqs = 0 ∧ c.m_rd_hits = 0 ∧ c.m_wr_hits = 0) ∧
    (∀ (block_num log_block_size : Nat) (uninit : Nat → Nat),
      (∀ e, DirectMapCache.construct block_num log_block_size uninit ≠ Except.error e) ∧
      ∃ c, DirectMapCache.construct block_num log_block_size uninit = Except.ok c ∧
        c.m_block_num = block_num ∧ c.m_blksz_log = log_block_size ∧
        c.m_valids = List.replicate block_num false ∧
        c.m_replace_q = List.range block_num ∧
        c.m_rd_reqs = 0 ∧ c.m_wr_reqs = 0 ∧ c.m_rd_hits = 0 ∧ c.m_wr_hits = 0) ∧
    (∀ (sets_log log_blk_size ass : Nat) (uninit : Nat → Nat),
      (∀ e, SetAssoCache.construct sets_log log_blk_size ass uninit ≠ Except.error e) ∧
      ∃ c, SetAssoCache.construct sets_log log_blk_size ass uninit = Except.ok c ∧
        c.base.m_block_num = ((1 <<< sets_log) * ass) % 2 ^ 32 ∧
        c.m_sets_log = sets_log ∧ c.m_blksz_log = log_blk_size ∧ c.m_ass = ass ∧
        c.base.m_valids = List.replicate c.base.m_block_num false ∧
        c.base.m_replace_q = List.range c.base.m_block_num ∧
        c.base.m_rd_reqs = 0 ∧ c.base.m_wr_reqs = 0 ∧
        c.base.m_rd_hits = 0 ∧ c.base.m_wr_hits = 0) := by
  refine ⟨fun n b u => ⟨?_, _, rfl, rfl, rfl, rfl, rfl, rfl, rfl, rfl, rfl⟩,
    fun n b u => ⟨?_, _, rfl, rfl, rfl, rfl, rfl, rfl, rfl, rfl, rfl⟩,
    fun k b ass u => ⟨?_, _, rfl, rfl, rfl, rfl, rfl, rfl, rfl, rfl, rfl, rfl, rfl⟩⟩
  · intro e h
    simp [FullAssoCache.construct] at h
  · intro e h
    simp [DirectMapCache.construct] at h
  · intro e h
    simp [SetAssoCache.construct] at h

/-- C16, the claim as stated fails once a 64-bit counter wraps around: after
`2^64` read requests to address 0 on a cold one-block `FullAssoCache` the
counter `m_rd_reqs` is back at 0 while `m_rd_hits` is `2^64 - 1`, so the read
hits exceed the read requests. -/
theorem C16_hits_exceed_requests_after_wrap :
    (FullAssoCache.run (FullAssoCache.new 1 0 (fun _ => 0))
      (List.replicate (2 ^ 64) (MemReq.read 0))).2.m_rd_reqs = 0 ∧
    (FullAssoCache.run (FullAssoCache.new 1 0 (fun _ => 0))
      (List.replicate (2 ^ 64) (MemReq.read 0))).2.m_rd_hits = 2 ^ 64 - 1 ∧
    ¬ (FullAssoCache.run (FullAssoCache.new 1 0 (fun _ => 0))
        (List.replicate (2 ^ 64) (MemReq.read 0))).2.m_rd_hits ≤
      (FullAssoCache.run (FullAssoCache.new 1 0 (fun _ => 0))
        (List.replicate (2 ^ 64) (MemReq.read 0))).2.m_rd_reqs := by
  obtain ⟨h1, h2⟩ := FullAssoCache.cold_reads 1 0 (fun _ => 0) (Nat.le_refl 1) 0 (2 ^ 64)
    (by norm_num)
  rw [h1, h2]
  norm_num

/-- C16 (amended: hit rate is a percentage as long as no counter has wrapped).
For each of the three cache classes and every trace of fewer than `2^64`
requests run from the constructor, the final state has
`m_rd_hits <= m_rd_reqs` and `m_wr_hits <= m_wr_reqs`, so that whenever the
request count is positive the exact rational value `100 * hits / requests` of
`dumpResults` lies in `[0, 100]`. -/
theorem C16_hit_rate_is_percentage :
    (∀ (block_num log_block_size : Nat) (uninit : Nat → Nat) (tr : List MemReq),
      tr.length < 2 ^ 64 →
      (FullAssoCache.run (FullAssoCache.new block_num log_block_size uninit) tr).2.RatesInRange) ∧
    (∀ (block_num log_block_size : Nat) (uninit : Nat → Nat) (tr : List MemReq),
      tr.length < 2 ^ 64 →
      (DirectMapCache.run (DirectMapCache.new block_num log_block_size uninit) tr
        ).2.RatesInRange) ∧
    (∀ (sets_log log_blk_size ass : Nat) (uninit : Nat → Nat) (tr : List MemReq),
      tr.length < 2 ^ 64 →
      (SetAssoCache.run (SetAssoCache.new sets_log log_blk_size ass uninit) tr
        ).2.base.RatesInRange) := by
  refine ⟨?_, ?_, ?_⟩
  · intro n b u tr hlen
    exact (FullAssoCache.fa_run_bounded _ tr 0 (CacheModel.HitsBounded.of_new n b u)
      (by omega)).rates
  · intro n b u tr hlen
    exact (DirectMapCache.dm_run_bounded _ tr 0 (CacheModel.HitsBounded.of_new n b u)
      (by omega)).rates
  · intro k b ass u tr hlen
    exact (SetAssoCache.sa_run_bounded _ tr 0 (CacheModel.HitsBounded.of_new _ b u)
      (by omega)).rates

/-- A concrete instance of C16: a cold 2-block fully associative cache after
the requests read 0, read 0, write 1 has counted 1 read hit in 2 read requests. -/
theorem C16_hit_rate_is_percentage_witness :
    (FullAssoCache.run (FullAssoCache.new 2 0 (fun _ => 0))
      [MemReq.read 0, MemReq.read 0, MemReq.write 1]).2.RatesInRange ∧
    (FullAssoCache.run (FullAssoCache.new 2 0 (fun _ => 0))
      [MemReq.read 0, MemReq.read 0, MemReq.write 1]).2.m_rd_hits = 1 ∧
    (FullAssoCache.run (FullAssoCache.new 2 0 (fun _ => 0))
      [MemReq.read 0, MemReq.read 0, MemReq.write 1]).2.m_rd_reqs = 2 :=
  ⟨C16_hit_rate_is_percentage.1 2 0 (fun _ => 0)
      [MemReq.read 0, MemReq.read 0, MemReq.write 1] (by decide),
    by decide, by decide⟩

namespace FullAssoCache

/-- Method `access` depends on the address through `getTag` only. -/
theorem access_congr_tag (c : CacheModel) (a b : Nat) (h : getTag c a = getTag c b) :
    access c a = access c b := by
  unfold access lookup
  simp only [h]

end FullAssoCache

namespace DirectMapCache

/-- Method `access` depends on the address through `getTag` and `getBlk_num` only. -/
theorem access_congr_tag_blk (c : CacheModel) (a b : Nat) (ht : getTag c a = getTag c b)
    (hb : a >>> c.m_blksz_log = b >>> c.m_blksz_log) :
    access c a = access c b := by
  unfold access lookup
  simp only [getBlk_num, ht, hb]

end DirectMapCache

namespace SetAssoCache

/-- Method `access` depends on the address through `getTag` and `getSet_num` only. -/
theorem access_congr_tag_set (c : SetAssoCache) (a b : Nat) (ht : getTag c a = getTag c b)
    (hs : getSet_num c a = getSet_num c b) : access c a = access c b := by
  unfold access lookup
  simp only [ht, hs]

end SetAssoCache

/-- Shifting by `m + n` with the sum reduced modulo `2^32` is shifting by `m`
and then by `n`, when the sum does not wrap. -/
theorem shiftRight_mod_congr (a b m n : Nat) (hmn : m + n < 2 ^ 32)
    (h : a >>> m = b >>> m) : a >>> ((m + n) % 2 ^ 32) = b >>> ((m + n) % 2 ^ 32) := by
  rw [Nat.mod_eq_of_lt hmn, Nat.shiftRight_add, Nat.shiftRight_add, h]

/-- C17 (block-offset bits do not influence the simulation). For each of the
three cache classes, every state and any two addresses `a`, `b` with
`a >> m_blksz_log = b >> m_blksz_log`: `access(a)` and `access(b)` return the
same hit flag and the same successor state (valid flags, tags, replacement
queue and all other members), and so do `readReq` and `writeReq`.  For
`DirectMapCache` and `SetAssoCache` the shift amount of `getTag`,
`m_blksz_log + log2(m_block_num)` respectively `m_blksz_log + m_sets_log`, is
taken below `2^32` (no 32-bit wrap-around of the sum; the source's shift is
only defined for amounts below 32). -/
theorem C17_offset_bits_irrelevant :
    (∀ (c : CacheModel) (a b : Nat), a >>> c.m_blksz_log = b >>> c.m_blksz_log →
      FullAssoCache.access c a = FullAssoCache.access c b ∧
      FullAssoCache.readReq c a = FullAssoCache.readReq c b ∧
      FullAssoCache.writeReq c a = FullAssoCache.writeReq c b) ∧
    (∀ (c : CacheModel) (a b : Nat), c.m_blksz_log + Nat.log2 c.m_block_num < 2 ^ 32 →
      a >>> c.m_blksz_log = b >>> c.m_blksz_log →
      DirectMapCache.access c a = DirectMapCache.access c b ∧
      DirectMapCache.readReq c a = DirectMapCache.readReq c b ∧
      DirectMapCache.writeReq c a = DirectMapCache.writeReq c b) ∧
    (∀ (c : SetAssoCache) (a b : Nat), c.m_blksz_log + c.m_sets_log < 2 ^ 32 →
      a >>> c.m_blksz_log = b >>> c.m_blksz_log →
      SetAssoCache.access c a = SetAssoCache.access c b ∧
      SetAssoCache.readReq c a = SetAssoCache.readReq c b ∧
      SetAssoCache.writeReq c a = SetAssoCache.writeReq c b) := by
  refine ⟨?_, ?_, ?_⟩
  · intro c a b h
    have key : ∀ d : CacheModel, d.m_blksz_log = c.m_blksz_log →
        FullAssoCache.access d a = FullAssoCache.access d b := by
      intro d hd
      apply FullAssoCache.access_congr_tag
      unfold FullAssoCache.getTag
      rw [hd, h]
    refine ⟨key c rfl, ?_, ?_⟩
    · unfold FullAssoCache.readReq
      rw [key c.incRdReqs rfl]
    · unfold FullAssoCache.writeReq
      rw [key c.incWrReqs rfl]
  · intro c a b hfit h
    have key : ∀ d : CacheModel, d.m_blksz_log = c.m_blksz_log →
        d.m_block_num = c.m_block_num →
        DirectMapCache.access d a = DirectMapCache.access d b := by
      intro d hd hn
      apply DirectMapCache.access_congr_tag_blk
      · unfold DirectMapCache.getTag
        rw [hd, hn]
        exact shiftRight_mod_congr a b _ _ hfit h
      · rw [hd, h]
    refine ⟨key c rfl rfl, ?_, ?_⟩
    · unfold DirectMapCache.readReq
      rw [key c.incRdReqs rfl rfl]
    · unfold DirectMapCache.writeReq
      rw [key c.incWrReqs rfl rfl]
  · intro c a b hfit h
    have key : ∀ d : SetAssoCache, d.m_blksz_log = c.m_blksz_log →
        d.m_sets_log = c.m_sets_log →
        SetAssoCache.access d a = SetAssoCache.access d b := by
      intro d hd hk
      apply SetAssoCache.access_congr_tag_set
      · unfold SetAssoCache.getTag
        rw [hd, hk]
        exact shiftRight_mod_congr a b _ _ hfit h
      · unfold SetAssoCache.getSet_num
        rw [hd, h]
    refine ⟨key c rfl rfl, ?_, ?_⟩
    · unfold SetAssoCache.readReq
      rw [key { c with base := c.base.incRdReqs } rfl rfl]
    · unfold SetAssoCache.writeReq
      rw [key { c with base := c.base.incWrReqs } rfl rfl]

/-- A concrete instance of C17: with 64-byte blocks (exponent 6) the addresses
4660 and 4671 lie in the same block, and the three classes treat them alike. -/
theorem C17_offset_bits_irrelevant_witness :
    (4660 >>> 6 = 4671 >>> 6) ∧
    FullAssoCache.access (FullAssoCache.new 4 6 (fun _ => 0)) 4660 =
      FullAssoCache.access (FullAssoCache.new 4 6 (fun _ => 0)) 4671 ∧
    DirectMapCache.access (DirectMapCache.new 4 6 (fun _ => 0)) 4660 =
      DirectMapCache.access (DirectMapCache.new 4 6 (fun _ => 0)) 4671 ∧
    SetAssoCache.access (SetAssoCache.new 1 6 2 (fun _ => 0)) 4660 =
      SetAssoCache.access (SetAssoCache.new 1 6 2 (fun _ => 0)) 4671 :=
  ⟨by decide,
   (C17_offset_bits_irrelevant.1 (FullAssoCache.new 4 6 (fun _ => 0)) 4660 4671 (by decide)).1,
   (C17_offset_bits_irrelevant.2.1 (DirectMapCache.new 4 6 (fun _ => 0)) 4660 4671
     (by rw [show (DirectMapCache.new 4 6 (fun _ => 0)).m_block_num = 4 from rfl, log2_four]
         decide)
     (by decide)).1,
   (C17_offset_bits_irrelevant.2.2 (SetAssoCache.new 1 6 2 (fun _ => 0)) 4660 4671
     (by decide) (by decide)).1⟩

namespace FullAssoCache

end FullAssoCache

namespace DirectMapCache

end DirectMapCache

namespace SetAssoCache

end SetAssoCache

theorem dedup_snoc (p : List Nat) (x : Nat) : (p ++ [x]).dedup = p.dedup.erase x ++ [x] := by
  induction p with
  | nil => simp
  | cons a t ih =>
    rw [List.cons_append]
    by_cases hax : a = x
    · subst hax
      rw [List.dedup_cons_of_mem (by simp), ih]
      by_cases hat : a ∈ t
      · rw [List.dedup_cons_of_mem hat]
      · rw [List.dedup_cons_of_not_mem hat, List.erase_cons_head,
          List.erase_of_not_mem (by rwa [List.mem_dedup])]
    · by_cases hat : a ∈ t
      · rw [List.dedup_cons_of_mem (by simp [hat]), List.dedup_cons_of_mem hat, ih]
      · rw [List.dedup_cons_of_not_mem (by simp [hat, hax]), List.dedup_cons_of_not_mem hat, ih,
          List.erase_cons_tail (by simpa using hax), List.cons_append]

theorem map_erase_of_nodup_map (f : Nat → Nat) (S : List Nat) (i : Nat) (hi : i ∈ S)
    (h : (S.map f).Nodup) : (S.erase i).map f = (S.map f).erase (f i) := by
  induction S with
  | nil => simp at hi
  | cons a t ih =>
    rw [List.map_cons, List.nodup_cons] at h
    by_cases hai : a = i
    · subst hai
      simp
    · have hit : i ∈ t := by
        rcases List.mem_cons.mp hi with h1 | h1
        · exact absurd h1.symm hai
        · exact h1
      have hne : f a ≠ f i := by
        intro e
        apply h.1
        rw [e]
        exact List.mem_map_of_mem f hit
      rw [List.erase_cons_tail (by simpa using hai), List.map_cons, List.map_cons,
        List.erase_cons_tail (by simpa using hne), ih hit h.2]

namespace LruRef

theorem run_append (n : Nat) (l : List Nat) (p q : List Nat) :
    run n l (p ++ q) = ((run n l p).1 ++ (run n (run n l p).2 q).1, (run n (run n l p).2 q).2) := by
  induction p generalizing l with
  | nil => rfl
  | cons a t ih =>
    show ((step n l a).1 :: (run n (step n l a).2 (t ++ q)).1,
      (run n (step n l a).2 (t ++ q)).2) = _
    rw [ih]
    rfl

theorem step_fst (n : Nat) (l : List Nat) (blk : Nat) : (step n l blk).1 = decide (blk ∈ l) := by
  unfold step
  split_ifs with h1 h2 <;> simp [h1]

/-- One step of the reference model on the last `n` entries of a duplicate-free
list `D` gives the last `n` entries of `D.erase x ++ [x]`. -/
theorem step_lastN (n : Nat) (hn : 1 ≤ n) (D : List Nat) (hD : D.Nodup) (x : Nat) :
    (step n (D.drop (D.length - n)) x).2 =
      (D.erase x ++ [x]).drop ((D.erase x ++ [x]).length - n) := by
  obtain ⟨A, l, hAl, hA, hl⟩ : ∃ A l, D = A ++ l ∧ A = D.take (D.length - n) ∧
      l = D.drop (D.length - n) :=
    ⟨_, _, (List.take_append_drop _ _).symm, rfl, rfl⟩
  have hlen : D.length = A.length + l.length := by rw [hAl, List.length_append]
  have hllen : l.length = min n D.length := by
    rw [hl, List.length_drop]
    omega
  rw [← hl]
  have hnd : (A ++ l).Nodup := hAl ▸ hD
  have hdisj := (List.nodup_append.mp hnd).2.2
  unfold step
  by_cases hxl : x ∈ l
  · have hxA : x ∉ A := fun h => hdisj h hxl
    rw [if_pos hxl, hAl, List.erase_append_right _ hxA, List.append_assoc]
    have h1 : (l.erase x ++ [x]).length = l.length := by
      rw [List.length_append, List.length_erase_of_mem hxl]
      have := List.length_pos_of_mem hxl
      simp
      omega
    have h2 : (A ++ (l.erase x ++ [x])).length - n = A.length := by
      rw [List.length_append, h1]
      omega
    rw [h2, List.drop_left]
  · rw [if_neg hxl]
    by_cases hxA : x ∈ A
    · have hApos := List.length_pos_of_mem hxA
      have hln : l.length = n := by omega
      rw [if_neg (by omega), hAl, List.erase_append_left _ hxA, List.append_assoc]
      have h2 : (A.erase x ++ (l ++ [x])).length - n = (A.erase x).length + 1 := by
        rw [List.length_append, List.length_append, List.length_erase_of_mem hxA]
        simp
        omega
      rw [h2, List.drop_append]
      cases l with
      | nil => simp at hln; omega
      | cons a t => rfl
    · have hxD : x ∉ D := by
        rw [hAl, List.mem_append]
        tauto
      rw [List.erase_of_not_mem hxD]
      by_cases hlt : l.length < n
      · rw [if_pos hlt]
        have hA0 : A = [] := by
          apply List.eq_nil_of_length_eq_zero
          omega
        have hDl : D = l := by rw [hAl, hA0, List.nil_append]
        rw [hDl]
        have : (l ++ [x]).length - n = 0 := by
          rw [List.length_append]
          simp
          omega
        rw [this, List.drop_zero]
      · rw [if_neg hlt]
        have hln : l.length = n := by omega
        rw [hAl, List.append_assoc]
        have h2 : (A ++ (l ++ [x])).length - n = A.length + 1 := by
          rw [List.length_append, List.length_append]
          simp
          omega
        rw [h2, List.drop_append]
        cases l with
        | nil => simp at hln; omega
        | cons a t => rfl

/-- The list of the reference model holds the `n` most recently accessed
distinct block numbers, least recent first. -/
theorem run_state (n : Nat) (hn : 1 ≤ n) (prev : List Nat) :
    (run n [] prev).2 = prev.dedup.drop (prev.dedup.length - n) := by
  induction prev using List.reverseRecOn with
  | nil => simp [run]
  | append_singleton p x ih =>
    rw [run_append]
    show (step n (run n [] p).2 x).2 = _
    rw [ih, step_lastN n hn _ (List.nodup_dedup p), dedup_snoc]

theorem mem_recent (n : Nat) (prev : List Nat) (x : Nat) :
    x ∈ recent n prev ↔ x ∈ prev.dedup.drop (prev.dedup.length - n) := by
  unfold recent
  rw [List.take_reverse, List.mem_reverse]

end LruRef

theorem getD_set_ne {α : Type} (l : List α) (v s : Nat) (x d : α) (hne : s ≠ v) :
    (l.set v x).getD s d = l.getD s d := by
  rw [List.getD_eq_getElem?_getD, List.getD_eq_getElem?_getD,
    List.getElem?_set_ne (fun e => hne e.symm)]

theorem getD_set_self {α : Type} (l : List α) (v : Nat) (x d : α) (hv : v < l.length) :
    (l.set v x).getD v d = x := by
  rw [List.getD_eq_getElem?_getD, List.getElem?_set_self hv]
  rfl

theorem nodup_erase_snoc (l : List Nat) (x : Nat) (h : l.Nodup) : (l.erase x ++ [x]).Nodup := by
  rw [List.nodup_append]
  refine ⟨h.erase x, List.nodup_singleton x, ?_⟩
  intro y hy hy'
  rw [List.mem_singleton] at hy'
  subst hy'
  exact (h.mem_erase_iff.mp hy).1 rfl

theorem nodup_snoc (l : List Nat) (x : Nat) (h : l.Nodup) (hx : x ∉ l) : (l ++ [x]).Nodup := by
  rw [List.nodup_append]
  refine ⟨h, List.nodup_singleton x, ?_⟩
  intro y hy hy'
  rw [List.mem_singleton] at hy'
  subst hy'
  exact hx hy

namespace FullAssoCache

theorem LruRel_new (n b : Nat) (u : Nat → Nat) : LruRel n b (new n b u) [] := by
  refine ⟨fa_WF_new n b u, rfl, rfl, List.nodup_nil, List.range n, [], ?_, rfl, ?_, ?_⟩
  · simp [new, CacheModel.new]
  · intro s hs
    simp at hs
  · intro s _
    simp [new, CacheModel.new, List.getD_eq_getElem?_getD, List.getElem?_replicate]
    split_ifs <;> rfl

/-- One access: the cache and the reference model agree on the hit flag and
stay related. -/
theorem LruRel.access_step {n b : Nat} {c : CacheModel} {l : List Nat} (h : LruRel n b c l)
    (hn : 1 ≤ n) (a : Nat) :
    (access c a).1 = (LruRef.step n l (a >>> b)).1 ∧
    LruRel n b (access c a).2 (LruRef.step n l (a >>> b)).2 := by
  obtain ⟨F, S, hq, hmap, hval, hinv⟩ := h.split
  have htag : getTag c a = a >>> b := by simp [getTag, h.blk]
  have hqnd : (F ++ S).Nodup := hq ▸ h.wf.nodup_q
  have hqlen : F.length + S.length = n := by
    rw [← List.length_append, ← hq, h.wf.q_len, h.bn]
  have hllen : l.length = S.length := by rw [← hmap, List.length_map]
  have hwf' := fa_WF_access h.wf a
  have hSvalid : ∀ i, i < c.m_block_num → c.m_valids.getD i false = true → i ∈ S := by
    intro i hi hvi
    have hiq : i ∈ F ++ S := hq ▸ (h.wf.mem_q i).mpr hi
    rcases List.mem_append.mp hiq with hF | hS
    · have := hinv i hF
      rw [hvi] at this
      cases this
    · exact hS
  by_cases hmem : a >>> b ∈ l
  · obtain ⟨s, hsS, hs⟩ := List.mem_map.mp (hmap ▸ hmem)
    have hsn : s < c.m_block_num := (h.wf.mem_q s).mp (by rw [hq]; exact List.mem_append_right F hsS)
    have hne := lookup_ne_none (a := a) s hsn (hs.trans htag.symm) (hval s hsS)
    cases hl : lookup c a with
    | none => exact absurd hl hne
    | some i =>
      obtain ⟨hi, hti, hvi⟩ := lookup_some hl
      have hiS : i ∈ S := hSvalid i hi hvi
      have hiF : i ∉ F := fun hF => (List.nodup_append.mp hqnd).2.2 hF hiS
      rw [access_hit h.wf hl] at hwf' ⊢
      unfold LruRef.step
      rw [if_pos hmem]
      refine ⟨rfl, hwf', h.bn, h.blk, nodup_erase_snoc l _ h.nodup, F, S.erase i ++ [i],
        ?_, ?_, ?_, hinv⟩
      · show c.m_replace_q.erase i ++ [i] = _
        rw [hq, List.erase_append_right _ hiF, List.append_assoc]
      · show (S.erase i ++ [i]).map (fun s => c.m_tags.getD s 0) = _
        rw [List.map_append, map_erase_of_nodup_map _ S i hiS (by rw [hmap]; exact h.nodup),
          hmap, List.map_singleton, hti, htag]
      · intro s hs
        rcases List.mem_append.mp hs with h1 | h1
        · exact hval s (List.mem_of_mem_erase h1)
        · rw [List.mem_singleton] at h1
          rw [h1]
          exact hvi
  · have hnone : lookup c a = none := by
      cases hl : lookup c a with
      | none => rfl
      | some i =>
        obtain ⟨hi, hti, hvi⟩ := lookup_some hl
        exfalso
        apply hmem
        rw [← hmap, ← htag, ← hti]
        exact List.mem_map_of_mem _ (hSvalid i hi hvi)
    have hbn1 : 1 ≤ c.m_block_num := by rw [h.bn]; exact hn
    rw [access_miss h.wf hbn1 hnone] at hwf' ⊢
    unfold LruRef.step
    rw [if_neg hmem, htag]
    rw [htag] at hwf'
    have htl := h.wf.tags_len
    have hvl := h.wf.valids_len
    cases F with
    | cons f F' =>
      have hv : c.m_replace_q.getD 0 0 = f := by rw [hq]; rfl
      have htail : c.m_replace_q.tail = F' ++ S := by rw [hq]; rfl
      have hfn : f < c.m_block_num :=
        (h.wf.mem_q f).mp (by rw [hq]; exact List.mem_cons_self f _)
      rw [List.cons_append, List.nodup_cons] at hqnd
      have hfF : f ∉ F' := fun hh => hqnd.1 (List.mem_append_left S hh)
      have hfS : f ∉ S := fun hh => hqnd.1 (List.mem_append_right F' hh)
      have hlt : l.length < n := by
        rw [List.length_cons] at hqlen
        omega
      rw [if_pos hlt, hv, htail]
      rw [hv, htail] at hwf'
      refine ⟨rfl, hwf', h.bn, h.blk, nodup_snoc l _ h.nodup hmem, F', S ++ [f],
        ?_, ?_, ?_, ?_⟩
      · show F' ++ S ++ [f] = F' ++ (S ++ [f])
        exact List.append_assoc F' S [f]
      · show (S ++ [f]).map (fun s => (c.m_tags.set f (a >>> b)).getD s 0) = _
        rw [List.map_append, List.map_singleton, getD_set_self _ _ _ _ (by omega), ← hmap]
        congr 1
        apply List.map_congr_left
        intro s hs
        exact getD_set_ne _ _ _ _ _ (fun e => hfS (by rw [← e]; exact hs))
      · intro s hs
        show (c.m_valids.set f true).getD s false = true
        rcases List.mem_append.mp hs with h1 | h1
        · rw [getD_set_ne _ _ _ _ _ (fun e => hfS (by rw [← e]; exact h1))]
          exact hval s h1
        · rw [List.mem_singleton] at h1
          rw [h1]
          exact getD_set_self _ _ _ _ (by omega)
      · intro s hs
        show (c.m_valids.set f true).getD s false = false
        rw [getD_set_ne _ _ _ _ _ (fun e => hfF (by rw [← e]; exact hs))]
        exact hinv s (List.mem_cons_of_mem f hs)
    | nil =>
      rw [List.nil_append] at hq hqnd
      rw [List.length_nil, Nat.zero_add] at hqlen
      cases S with
      | nil =>
        rw [List.length_nil] at hqlen
        omega
      | cons s0 S' =>
        have hv : c.m_replace_q.getD 0 0 = s0 := by rw [hq]; rfl
        have htail : c.m_replace_q.tail = S' := by rw [hq]; rfl
        have hsn : s0 < c.m_block_num :=
          (h.wf.mem_q s0).mp (by rw [hq]; exact List.mem_cons_self s0 _)
        rw [List.nodup_cons] at hqnd
        have hnlt : ¬ l.length < n := by omega
        have hltail : l.tail = S'.map (fun s => c.m_tags.getD s 0) := by
          rw [← hmap]
          rfl
        rw [if_neg hnlt, hv, htail, hltail]
        rw [hv, htail] at hwf'
        have hnd' : (S'.map (fun s => c.m_tags.getD s 0) ++ [a >>> b]).Nodup := by
          apply nodup_snoc
          · rw [← hltail]
            exact h.nodup.sublist (List.tail_sublist l)
          · intro hh
            apply hmem
            rw [← hmap]
            exact List.mem_cons_of_mem _ hh
        refine ⟨rfl, hwf', h.bn, h.blk, hnd', [], S' ++ [s0], ?_, ?_, ?_, ?_⟩
        · rfl
        · show (S' ++ [s0]).map (fun s => (c.m_tags.set s0 (a >>> b)).getD s 0) = _
          rw [List.map_append, List.map_singleton, getD_set_self _ _ _ _ (by omega)]
          congr 1
          apply List.map_congr_left
          intro s hs
          exact getD_set_ne _ _ _ _ _ (fun e => hqnd.1 (by rw [← e]; exact hs))
        · intro s hs
          show (c.m_valids.set s0 true).getD s false = true
          rcases List.mem_append.mp hs with h1 | h1
          · rw [getD_set_ne _ _ _ _ _ (fun e => hqnd.1 (by rw [← e]; exact h1))]
            exact hval s (List.mem_cons_of_mem s0 h1)
          · rw [List.mem_singleton] at h1
            rw [h1]
            exact getD_set_self _ _ _ _ (by omega)
        · intro s hs
          simp at hs

/-- A trace of accesses: the cache and the reference model give the same
flags and stay related. -/
theorem LruRel.accesses_run {n b : Nat} {c : CacheModel} {l : List Nat} (h : LruRel n b c l)
    (hn : 1 ≤ n) (as : List Nat) :
    (accesses c as).1 = (LruRef.run n l (as.map (· >>> b))).1 ∧
    LruRel n b (accesses c as).2 (LruRef.run n l (as.map (· >>> b))).2 := by
  induction as generalizing c l with
  | nil => exact ⟨rfl, h⟩
  | cons a t ih =>
    obtain ⟨h1, h2⟩ := h.access_step hn a
    obtain ⟨h3, h4⟩ := ih h2
    refine ⟨?_, h4⟩
    show (access c a).1 :: (accesses (access c a).2 t).1 =
      (LruRef.step n l (a >>> b)).1 :: (LruRef.run n (LruRef.step n l (a >>> b)).2
        (t.map (· >>> b))).1
    rw [h1, h3]

theorem length_accesses (c : CacheModel) (as : List Nat) : (accesses c as).1.length = as.length := by
  induction as generalizing c with
  | nil => rfl
  | cons a t ih =>
    show ((access c a).1 :: (accesses (access c a).2 t).1).length = _
    rw [List.length_cons, ih, List.length_cons]

/-- The flag of the `i`-th access of a trace is the flag of that access made in
the state after the first `i` accesses. -/
theorem accesses_getD (c : CacheModel) (as : List Nat) (i : Nat) (hi : i < as.length) :
    (accesses c as).1.getD i false = (access (accesses c (as.take i)).2 (as.getD i 0)).1 := by
  have hsplit : as = as.take i ++ as.getD i 0 :: as.drop (i + 1) := by
    rw [List.getD_eq_getElem?_getD, List.getElem?_eq_getElem hi, Option.getD_some,
      List.getElem_cons_drop, List.take_append_drop]
  have hlen : (accesses c (as.take i)).1.length = i := by
    rw [length_accesses, List.length_take]
    omega
  conv_lhs => rw [hsplit, fa_accesses_append]
  show ((accesses c (as.take i)).1 ++
    (access (accesses c (as.take i)).2 (as.getD i 0)).1 ::
      (accesses (access (accesses c (as.take i)).2 (as.getD i 0)).2 (as.drop (i + 1))).1).getD
        i false = _
  rw [List.getD_eq_getElem?_getD, List.getElem?_append_right (by omega), hlen, Nat.sub_self]
  simp

end FullAssoCache

/-- C19 (the fully associative cache refines an abstract LRU list). For a
`FullAssoCache` with `n >= 1` blocks started cold and every finite trace of
addresses: the sequence of hit flags of `access` equals that of the reference
model run on the block numbers `addr >> m_blksz_log` (a recency-ordered list of
at most `n` block numbers, the accessed one moved to the most-recent end, the
least-recent one dropped when full); and the `i`-th access is a hit if and only
if its block number is among the `n` most recently accessed distinct block
numbers of the preceding accesses. -/
theorem C19_full_asso_refines_lru_list (n b : Nat) (u : Nat → Nat) (as : List Nat)
    (hn : 1 ≤ n) :
    (FullAssoCache.accesses (FullAssoCache.new n b u) as).1 =
      (LruRef.run n [] (as.map (· >>> b))).1 ∧
    ∀ i < as.length,
      ((FullAssoCache.accesses (FullAssoCache.new n b u) as).1.getD i false = true ↔
        as.getD i 0 >>> b ∈ LruRef.recent n ((as.take i).map (· >>> b))) := by
  refine ⟨((FullAssoCache.LruRel_new n b u).accesses_run hn as).1, ?_⟩
  intro i hi
  obtain ⟨_, hrel⟩ := (FullAssoCache.LruRel_new n b u).accesses_run hn (as.take i)
  rw [FullAssoCache.accesses_getD _ as i hi, (hrel.access_step hn (as.getD i 0)).1,
    LruRef.step_fst, LruRef.run_state n hn, LruRef.mem_recent, decide_eq_true_iff]

/-- A concrete instance of C19: 2 blocks, block-size exponent 0 and the trace
0, 1, 0, 2, 1, 0 with outcome miss, miss, hit, miss, miss, miss. -/
theorem C19_full_asso_refines_lru_list_witness :
    (FullAssoCache.accesses (FullAssoCache.new 2 0 (fun _ => 0)) [0, 1, 0, 2, 1, 0]).1 =
      [false, false, true, false, false, false] ∧
    (LruRef.run 2 [] ([0, 1, 0, 2, 1, 0].map (· >>> 0))).1 =
      [false, false, true, false, false, false] ∧
    (FullAssoCache.accesses (FullAssoCache.new 2 0 (fun _ => 0)) [0, 1, 0, 2, 1, 0]).1 =
      (LruRef.run 2 [] ([0, 1, 0, 2, 1, 0].map (· >>> 0))).1 :=
  ⟨by decide, by decide,
    (C19_full_asso_refines_lru_list 2 0 (fun _ => 0) [0, 1, 0, 2, 1, 0] (by decide)).1⟩

namespace SetAssoCache

/-- Method `access` of a cache with one way, written on the slot `getSet_num a`. -/
theorem WF.access_one_way {c : SetAssoCache} (h : WF c) (h1 : c.m_ass = 1) (a : Nat) :
    ((access c a).1 = true ↔
      (c.base.m_tags.getD (getSet_num c a) 0 = getTag c a ∧
        c.base.m_valids.getD (getSet_num c a) false = true)) ∧
    ((access c a).1 = true →
      (access c a).2.base.m_tags = c.base.m_tags ∧
      (access c a).2.base.m_valids = c.base.m_valids) ∧
    ((access c a).1 = false →
      (access c a).2.base.m_tags = c.base.m_tags.set (getSet_num c a) (getTag c a) ∧
      (access c a).2.base.m_valids = c.base.m_valids.set (getSet_num c a) true) := by
  have hs := h.getSet_num_lt a
  have hv := h.victim_mem hs
  have hvs : c.base.m_replace_q.getD (getSet_num c a * c.m_ass) 0 = getSet_num c a := by
    rw [h1] at hv ⊢
    omega
  have h0 : (0 : Nat) < c.m_ass := by rw [h1]; exact Nat.one_pos
  have e0 : getSet_num c a * c.m_ass + 0 = getSet_num c a := by rw [h1]; omega
  have ht0 : (view c (getSet_num c a)).m_tags.getD 0 0 = c.base.m_tags.getD (getSet_num c a) 0 := by
    show (seg (getSet_num c a * c.m_ass) c.m_ass c.base.m_tags).getD 0 0 = _
    rw [getD_seg _ _ _ _ _ h0, e0]
  have hv0 : (view c (getSet_num c a)).m_valids.getD 0 false =
      c.base.m_valids.getD (getSet_num c a) false := by
    show (seg (getSet_num c a * c.m_ass) c.m_ass c.base.m_valids).getD 0 false = _
    rw [getD_seg _ _ _ _ _ h0, e0]
  have hg : FullAssoCache.getTag (view c (getSet_num c a)) (getTag c a) = getTag c a :=
    Nat.shiftRight_zero
  rw [h.sa_access_eq a]
  cases hf : FullAssoCache.lookup (view c (getSet_num c a)) (getTag c a) with
  | some i =>
    obtain ⟨hi, hti, hvi⟩ := FullAssoCache.lookup_some hf
    have hi0 : i = 0 := by
      have : i < c.m_ass := hi
      omega
    subst hi0
    rw [ht0, hg] at hti
    rw [hv0] at hvi
    refine ⟨⟨fun _ => ⟨hti, hvi⟩, fun _ => rfl⟩, fun _ => ⟨rfl, rfl⟩, ?_⟩
    intro hc
    cases hc
  | none =>
    have hno := FullAssoCache.lookup_none hf 0 h0
    rw [ht0, hv0, hg] at hno
    refine ⟨⟨?_, fun hp => absurd hp hno⟩, ?_, ?_⟩
    · intro hc
      cases hc
    · intro hc
      cases hc
    · intro _
      show c.base.m_tags.set _ _ = _ ∧ c.base.m_valids.set _ _ = _
      rw [hvs]
      exact ⟨rfl, rfl⟩

theorem sa_readReq_frame (c : SetAssoCache) (a : Nat) :
    (readReq c a).m_sets_log = c.m_sets_log ∧ (readReq c a).m_blksz_log = c.m_blksz_log ∧
    (readReq c a).m_ass = c.m_ass := by
  unfold readReq
  simp only
  have := sa_access_frame { c with base := c.base.incRdReqs } a
  split_ifs
  · exact ⟨this.1, this.2.1, this.2.2.1⟩
  · exact ⟨this.1, this.2.1, this.2.2.1⟩

theorem sa_writeReq_frame (c : SetAssoCache) (a : Nat) :
    (writeReq c a).m_sets_log = c.m_sets_log ∧ (writeReq c a).m_blksz_log = c.m_blksz_log ∧
    (writeReq c a).m_ass = c.m_ass := by
  unfold writeReq
  simp only
  have := sa_access_frame { c with base := c.base.incWrReqs } a
  split_ifs
  · exact ⟨this.1, this.2.1, this.2.2.1⟩
  · exact ⟨this.1, this.2.1, this.2.2.1⟩

end SetAssoCache

namespace DirectMapCache

theorem dm_readReq_frame (c : CacheModel) (a : Nat) :
    (readReq c a).m_block_num = c.m_block_num ∧ (readReq c a).m_blksz_log = c.m_blksz_log := by
  unfold readReq
  simp only
  have := dm_access_frame c.incRdReqs a
  split_ifs
  · exact ⟨this.1, this.2.1⟩
  · exact ⟨this.1, this.2.1⟩

theorem dm_writeReq_frame (c : CacheModel) (a : Nat) :
    (writeReq c a).m_block_num = c.m_block_num ∧ (writeReq c a).m_blksz_log = c.m_blksz_log := by
  unfold writeReq
  simp only
  have := dm_access_frame c.incWrReqs a
  split_ifs
  · exact ⟨this.1, this.2.1⟩
  · exact ⟨this.1, this.2.1⟩

end DirectMapCache

/-- Related caches split every address alike. -/
theorem OneWayRel.split_eq {k b : Nat} {c : SetAssoCache} {d : CacheModel}
    (h : OneWayRel k b c d) (hbk : b + k < 32) (a : Nat) :
    SetAssoCache.getSet_num c a = DirectMapCache.getBlk_num d a ∧
    SetAssoCache.getTag c a = DirectMapCache.getTag d a := by
  have hk : k < 32 := by omega
  have hpow : 2 ^ k < 2 ^ 32 := Nat.pow_lt_pow_right (by decide) hk
  have hpos : 0 < 2 ^ k := Nat.pow_pos (by decide)
  have e1 : (2 ^ k - 1) % 2 ^ 32 = 2 ^ k - 1 := Nat.mod_eq_of_lt (by omega)
  have e2 : (2 ^ k + 2 ^ 32 - 1) % 2 ^ 32 = 2 ^ k - 1 := by omega
  unfold SetAssoCache.getSet_num DirectMapCache.getBlk_num SetAssoCache.getTag
    DirectMapCache.getTag
  rw [h.sets, h.blk, h.dbn, h.dblk, Nat.one_shiftLeft, Nat.log2_two_pow, e1, e2]
  exact ⟨Eq.refl _, Eq.refl _⟩

theorem OneWayRel.access_rel {k b : Nat} {c : SetAssoCache} {d : CacheModel}
    (h : OneWayRel k b c d) (hbk : b + k < 32) (a : Nat) :
    (SetAssoCache.access c a).1 = (DirectMapCache.access d a).1 ∧
    OneWayRel k b (SetAssoCache.access c a).2 (DirectMapCache.access d a).2 := by
  obtain ⟨hset, htag⟩ := h.split_eq hbk a
  obtain ⟨a1, a2, a3⟩ := h.wf.access_one_way h.ass a
  have hf := SetAssoCache.sa_access_frame c a
  have hdf := DirectMapCache.dm_access_frame d a
  have hwf' := h.wf.sa_step a
  have hdwf' := DirectMapCache.dm_WF_access h.dwf a
  have hs : SetAssoCache.getSet_num c a < 2 ^ c.m_sets_log := h.wf.getSet_num_lt a
  have hslen : SetAssoCache.getSet_num c a < c.base.m_tags.length := by
    rw [h.wf.tags_len, h.wf.block_num, h.ass, Nat.mul_one]
    exact hs
  have hdlen : DirectMapCache.getBlk_num d a < d.m_tags.length := by
    rw [h.dwf.tags_len, h.dbn, ← hset, ← h.sets]
    exact hs
  have hdvlen : DirectMapCache.getBlk_num d a < d.m_valids.length := by
    rw [h.dwf.valids_len, h.dbn, ← hset, ← h.sets]
    exact hs
  have hiff : (c.base.m_tags.getD (SetAssoCache.getSet_num c a) 0 = SetAssoCache.getTag c a ∧
      c.base.m_valids.getD (SetAssoCache.getSet_num c a) false = true) ↔
      (d.m_tags.getD (DirectMapCache.getBlk_num d a) 0 = DirectMapCache.getTag d a ∧
        d.m_valids.getD (DirectMapCache.getBlk_num d a) false = true) := by
    rw [hset, htag, h.valids]
    constructor
    · rintro ⟨p1, p2⟩
      exact ⟨(h.tags _ p2).symm.trans p1, p2⟩
    · rintro ⟨p1, p2⟩
      exact ⟨(h.tags _ p2).trans p1, p2⟩
  rw [DirectMapCache.dm_access_eq] at hdwf' ⊢
  by_cases hP : d.m_tags.getD (DirectMapCache.getBlk_num d a) 0 = DirectMapCache.getTag d a ∧
      d.m_valids.getD (DirectMapCache.getBlk_num d a) false = true
  · rw [if_pos hP] at hdwf' ⊢
    have hhit : (SetAssoCache.access c a).1 = true := a1.mpr (hiff.mpr hP)
    obtain ⟨t1, v1⟩ := a2 hhit
    refine ⟨hhit, hwf', hf.2.2.1.trans h.ass, hf.1.trans h.sets, hf.2.1.trans h.blk, h.dwf,
      h.dbn, h.dblk, ?_, ?_⟩
    · rw [v1]
      exact h.valids
    · intro i hi
      rw [t1]
      exact h.tags i hi
  · rw [if_neg hP] at hdwf' ⊢
    have hmiss : (SetAssoCache.access c a).1 = false := by
      cases hc : (SetAssoCache.access c a).1 with
      | false => rfl
      | true => exact absurd (hiff.mp (a1.mp hc)) hP
    obtain ⟨t1, v1⟩ := a3 hmiss
    refine ⟨hmiss, hwf', hf.2.2.1.trans h.ass, hf.1.trans h.sets, hf.2.1.trans h.blk, hdwf',
      h.dbn, h.dblk, ?_, ?_⟩
    · rw [v1, hset, h.valids]
    · intro i hi
      rw [t1, hset, htag]
      show (c.base.m_tags.set _ _).getD i 0 = (d.m_tags.set _ _).getD i 0
      by_cases hi0 : i = DirectMapCache.getBlk_num d a
      · subst hi0
        rw [getD_set_self _ _ _ _ (by rw [← hset]; exact hslen), getD_set_self _ _ _ _ hdlen]
      · rw [getD_set_ne _ _ _ _ _ hi0, getD_set_ne _ _ _ _ _ hi0]
        apply h.tags
        have hi' : (d.m_valids.set (DirectMapCache.getBlk_num d a) true).getD i false = true := hi
        rwa [getD_set_ne _ _ _ _ _ hi0] at hi'

theorem OneWayRel.rel_new (k b : Nat) (u u' : Nat → Nat) (hk : k < 32) :
    OneWayRel k b (SetAssoCache.new k b 1 u) (DirectMapCache.new (2 ^ k) b u') := by
  have hpow : 2 ^ k < 2 ^ 32 := Nat.pow_lt_pow_right (by decide) hk
  have hbn : ((1 <<< k) * 1) % 2 ^ 32 = 2 ^ k := by
    rw [Nat.mul_one, Nat.one_shiftLeft, Nat.mod_eq_of_lt hpow]
  refine ⟨SetAssoCache.sa_WF_new k b 1 u (Nat.le_refl 1) (by omega), rfl, rfl, rfl,
    DirectMapCache.dm_WF_new _ b u', rfl, rfl, ?_, ?_⟩
  · show List.replicate (((1 <<< k) * 1) % 2 ^ 32) false = List.replicate (2 ^ k) false
    rw [hbn]
  · intro i hi
    exfalso
    have hi' : (List.replicate (2 ^ k) false).getD i false = true := hi
    rw [List.getD_eq_getElem?_getD, List.getElem?_replicate] at hi'
    split_ifs at hi' <;> simp at hi'

theorem OneWayRel.read_rel {k b : Nat} {c : SetAssoCache} {d : CacheModel}
    (h : OneWayRel k b c d) (hbk : b + k < 32) (a : Nat) :
    (SetAssoCache.access { c with base := c.base.incRdReqs } a).1 =
      (DirectMapCache.access d.incRdReqs a).1 ∧
    OneWayRel k b (SetAssoCache.readReq c a) (DirectMapCache.readReq d a) := by
  obtain ⟨h1, h2⟩ := h.access_rel hbk a
  obtain ⟨s1, s2, _⟩ := SetAssoCache.sa_readReq_arrays c a
  obtain ⟨d1, d2, _⟩ := DirectMapCache.dm_readReq_arrays d a
  obtain ⟨f1, f2, f3⟩ := SetAssoCache.sa_readReq_frame c a
  obtain ⟨g1, g2⟩ := DirectMapCache.dm_readReq_frame d a
  refine ⟨?_, h.wf.readReq_wf a, f3.trans h.ass, f1.trans h.sets, f2.trans h.blk,
    DirectMapCache.dm_WF_readReq h.dwf a, g1.trans h.dbn, g2.trans h.dblk, ?_, ?_⟩
  · rw [SetAssoCache.sa_access_incRdReqs, DirectMapCache.dm_access_incRdReqs]
    exact h1
  · rw [s1, d1]
    exact h2.valids
  · intro i hi
    rw [s2, d2]
    rw [d1] at hi
    exact h2.tags i hi

theorem OneWayRel.write_rel {k b : Nat} {c : SetAssoCache} {d : CacheModel}
    (h : OneWayRel k b c d) (hbk : b + k < 32) (a : Nat) :
    (SetAssoCache.access { c with base := c.base.incWrReqs } a).1 =
      (DirectMapCache.access d.incWrReqs a).1 ∧
    OneWayRel k b (SetAssoCache.writeReq c a) (DirectMapCache.writeReq d a) := by
  obtain ⟨h1, h2⟩ := h.access_rel hbk a
  obtain ⟨s1, s2, _⟩ := SetAssoCache.sa_writeReq_arrays c a
  obtain ⟨d1, d2, _⟩ := DirectMapCache.dm_writeReq_arrays d a
  obtain ⟨f1, f2, f3⟩ := SetAssoCache.sa_writeReq_frame c a
  obtain ⟨g1, g2⟩ := DirectMapCache.dm_writeReq_frame d a
  refine ⟨?_, h.wf.writeReq_wf a, f3.trans h.ass, f1.trans h.sets, f2.trans h.blk,
    DirectMapCache.dm_WF_writeReq h.dwf a, g1.trans h.dbn, g2.trans h.dblk, ?_, ?_⟩
  · rw [SetAssoCache.sa_access_incWrReqs, DirectMapCache.dm_access_incWrReqs]
    exact h1
  · rw [s1, d1]
    exact h2.valids
  · intro i hi
    rw [s2, d2]
    rw [d1] at hi
    exact h2.tags i hi

theorem OneWayRel.run_rel {k b : Nat} {c : SetAssoCache} {d : CacheModel}
    (h : OneWayRel k b c d) (hbk : b + k < 32) (tr : List MemReq) :
    (SetAssoCache.run c tr).1 = (DirectMapCache.run d tr).1 := by
  induction tr generalizing c d with
  | nil => rfl
  | cons r t ih =>
    cases r with
    | read a =>
      obtain ⟨h1, h2⟩ := h.read_rel hbk a
      show (SetAssoCache.access { c with base := c.base.incRdReqs } a).1 ::
          (SetAssoCache.run (SetAssoCache.readReq c a) t).1 =
        (DirectMapCache.access d.incRdReqs a).1 ::
          (DirectMapCache.run (DirectMapCache.readReq d a) t).1
      rw [h1, ih h2]
    | write a =>
      obtain ⟨h1, h2⟩ := h.write_rel hbk a
      show (SetAssoCache.access { c with base := c.base.incWrReqs } a).1 ::
          (SetAssoCache.run (SetAssoCache.writeReq c a) t).1 =
        (DirectMapCache.access d.incWrReqs a).1 ::
          (DirectMapCache.run (DirectMapCache.writeReq d a) t).1
      rw [h1, ih h2]

/-- C20 (set-associative with one way equals direct-mapped). For every `k` and
block-size exponent `b` with `b + k < 32` and every finite trace of read/write
requests, a freshly constructed `SetAssoCache(k, b, 1)` and a freshly
constructed `DirectMapCache(2^k, b)` return the same hit/miss outcome on every
request, whatever the contents of their uninitialised tag arrays. -/
theorem C20_one_way_set_asso_eq_direct_mapped (k b : Nat) (u u' : Nat → Nat)
    (tr : List MemReq) (hbk : b + k < 32) :
    (SetAssoCache.run (SetAssoCache.new k b 1 u) tr).1 =
      (DirectMapCache.run (DirectMapCache.new (2 ^ k) b u') tr).1 :=
  (OneWayRel.rel_new k b u u' (by omega)).run_rel hbk tr

/-- A concrete instance of C20: 4 sets of one way against 4 directly mapped
blocks, block-size exponent 0, on the requests read 0, write 4, read 0, read 4,
write 4 (miss, miss, miss, miss, hit). -/
theorem C20_one_way_set_asso_eq_direct_mapped_witness :
    (SetAssoCache.run (SetAssoCache.new 2 0 1 (fun _ => 0))
      [MemReq.read 0, MemReq.write 4, MemReq.read 0, MemReq.read 4, MemReq.write 4]).1 =
      [false, false, false, false, true] ∧
    (SetAssoCache.run (SetAssoCache.new 2 0 1 (fun _ => 0))
      [MemReq.read 0, MemReq.write 4, MemReq.read 0, MemReq.read 4, MemReq.write 4]).1 =
    (DirectMapCache.run (DirectMapCache.new (2 ^ 2) 0 (fun _ => 7))
      [MemReq.read 0, MemReq.write 4, MemReq.read 0, MemReq.read 4, MemReq.write 4]).1 :=
  ⟨by decide,
   C20_one_way_set_asso_eq_direct_mapped 2 0 (fun _ => 0) (fun _ => 7)
    [MemReq.read 0, MemReq.write 4, MemReq.read 0, MemReq.read 4, MemReq.write 4] (by decide)⟩

theorem splice_zero_length (B q : List α) (w : Nat) (hw : q.length ≤ w) :
    splice 0 w B q = B := by
  simp [splice, List.drop_eq_nil_of_le hw]

theorem seg_zero_of_length (l : List α) (w : Nat) (hw : l.length = w) : seg 0 w l = l := by
  rw [← hw]
  exact seg_zero_length l

namespace FullAssoCache

theorem fa_readReq_frame (c : CacheModel) (a : Nat) :
    (readReq c a).m_block_num = c.m_block_num ∧ (readReq c a).m_blksz_log = c.m_blksz_log := by
  unfold readReq
  simp only
  have := fa_access_frame c.incRdReqs a
  split_ifs
  · exact ⟨this.1, this.2.1⟩
  · exact ⟨this.1, this.2.1⟩

theorem fa_writeReq_frame (c : CacheModel) (a : Nat) :
    (writeReq c a).m_block_num = c.m_block_num ∧ (writeReq c a).m_blksz_log = c.m_blksz_log := by
  unfold writeReq
  simp only
  have := fa_access_frame c.incWrReqs a
  split_ifs
  · exact ⟨this.1, this.2.1⟩
  · exact ⟨this.1, this.2.1⟩

end FullAssoCache

/-- With a single set every address maps to set 0, and the tag is the block
number. -/
theorem OneSetRel.split_one_set {n b : Nat} {c : SetAssoCache} {f : CacheModel}
    (h : OneSetRel n b c f) (hb : b < 32) (a : Nat) :
    SetAssoCache.getSet_num c a = 0 ∧ SetAssoCache.getTag c a = a >>> b ∧
    FullAssoCache.getTag f a = a >>> b := by
  refine ⟨?_, ?_, ?_⟩
  · unfold SetAssoCache.getSet_num
    rw [h.sets]
    simp
  · unfold SetAssoCache.getTag
    rw [h.sets, h.blk, Nat.add_zero, Nat.mod_eq_of_lt (by omega)]
  · unfold FullAssoCache.getTag
    rw [h.fblk]

/-- The lookup in the view of set 0 is the lookup of the fully associative
cache. -/
theorem OneSetRel.lookup_rel {n b : Nat} {c : SetAssoCache} {f : CacheModel}
    (h : OneSetRel n b c f) (hb : b < 32) (a : Nat) :
    FullAssoCache.lookup (SetAssoCache.view c 0) (SetAssoCache.getTag c a) =
      FullAssoCache.lookup f a := by
  obtain ⟨_, ht, hft⟩ := h.split_one_set hb a
  have hbn : c.base.m_block_num = c.m_ass := by rw [h.wf.block_num, h.sets]; simp
  have hvt : (SetAssoCache.view c 0).m_tags = c.base.m_tags := by
    show seg (0 * c.m_ass) c.m_ass c.base.m_tags = _
    rw [Nat.zero_mul]
    exact seg_zero_of_length _ _ (by rw [h.wf.tags_len, hbn])
  have hvv : (SetAssoCache.view c 0).m_valids = c.base.m_valids := by
    show seg (0 * c.m_ass) c.m_ass c.base.m_valids = _
    rw [Nat.zero_mul]
    exact seg_zero_of_length _ _ (by rw [h.wf.valids_len, hbn])
  have hvn : (SetAssoCache.view c 0).m_block_num = f.m_block_num := by
    show c.m_ass = _
    rw [h.ass, h.fbn]
  have hvg : FullAssoCache.getTag (SetAssoCache.view c 0) (SetAssoCache.getTag c a) =
      FullAssoCache.getTag f a := by
    rw [hft, ← ht]
    exact Nat.shiftRight_zero
  unfold FullAssoCache.lookup
  simp only
  rw [hvt, hvv, hvn, hvg, h.valids]
  apply find?_congr_mem
  intro i _
  cases hv : f.m_valids.getD i false with
  | false => simp
  | true => rw [h.tags i hv]

theorem OneSetRel.access_rel1 {n b : Nat} {c : SetAssoCache} {f : CacheModel}
    (h : OneSetRel n b c f) (hn : 1 ≤ n) (hb : b < 32) (a : Nat) :
    (SetAssoCache.access c a).1 = (FullAssoCache.access f a).1 ∧
    OneSetRel n b (SetAssoCache.access c a).2 (FullAssoCache.access f a).2 ∧
    (c.base.m_tags = f.m_tags →
      (SetAssoCache.access c a).2.base.m_tags = (FullAssoCache.access f a).2.m_tags) := by
  obtain ⟨hs0, ht, hft⟩ := h.split_one_set hb a
  have hl := h.lookup_rel hb a
  have hf := SetAssoCache.sa_access_frame c a
  have hwf' := h.wf.sa_step a
  have hfwf' := FullAssoCache.fa_WF_access h.fwf a
  have hbn : c.base.m_block_num = c.m_ass := by rw [h.wf.block_num, h.sets]; simp
  have hqlen : c.base.m_replace_q.length = c.m_ass := by rw [h.wf.q_len, hbn]
  have hseg : seg 0 c.m_ass c.base.m_replace_q = c.base.m_replace_q :=
    seg_zero_of_length _ _ hqlen
  have hfbn1 : 1 ≤ f.m_block_num := by rw [h.fbn]; exact hn
  have hsa := h.wf.sa_access_eq a
  rw [hs0, hl] at hsa
  simp only [Nat.zero_mul, Nat.zero_add, hseg] at hsa
  rw [hsa] at hwf' ⊢
  cases hlf : FullAssoCache.lookup f a with
  | some i =>
    rw [FullAssoCache.access_hit h.fwf hlf] at hfwf' ⊢
    rw [hlf] at hwf'
    simp only at hwf' ⊢
    refine ⟨trivial, ⟨hwf', h.sets, h.blk, h.ass, hfwf', h.fbn, h.fblk, h.valids, ?_, h.tags⟩,
      fun e => e⟩
    show splice 0 c.m_ass _ c.base.m_replace_q = f.m_replace_q.erase i ++ [i]
    rw [splice_zero_length _ _ _ (by omega), h.q]
  | none =>
    rw [FullAssoCache.access_miss h.fwf hfbn1 hlf] at hfwf' ⊢
    rw [hlf] at hwf'
    simp only at hwf' ⊢
    have hvlt : f.m_replace_q.getD 0 0 < f.m_block_num := by
      apply (h.fwf.mem_q _).mp
      apply getD_mem
      rw [h.fwf.q_len]
      omega
    have hvc : f.m_replace_q.getD 0 0 < c.base.m_tags.length := by
      rw [h.wf.tags_len, hbn, h.ass, ← h.fbn]
      exact hvlt
    have hvf : f.m_replace_q.getD 0 0 < f.m_tags.length := by
      rw [h.fwf.tags_len]
      exact hvlt
    refine ⟨trivial, ⟨hwf', h.sets, h.blk, h.ass, hfwf', h.fbn, h.fblk, ?_, ?_, ?_⟩, ?_⟩
    · show c.base.m_valids.set _ true = f.m_valids.set _ true
      rw [h.q, h.valids]
    · show splice 0 c.m_ass _ c.base.m_replace_q = f.m_replace_q.tail ++ [f.m_replace_q.getD 0 0]
      rw [splice_zero_length _ _ _ (by omega), h.q, erase_head_eq_tail]
    · intro i hi
      show (c.base.m_tags.set _ _).getD i 0 = (f.m_tags.set _ _).getD i 0
      rw [h.q, ht, hft]
      by_cases hi0 : i = f.m_replace_q.getD 0 0
      · rw [hi0, getD_set_self _ _ _ _ hvc, getD_set_self _ _ _ _ hvf]
      · rw [getD_set_ne _ _ _ _ _ hi0, getD_set_ne _ _ _ _ _ hi0]
        apply h.tags
        have hi' : (f.m_valids.set (f.m_replace_q.getD 0 0) true).getD i false = true := hi
        rwa [getD_set_ne _ _ _ _ _ hi0] at hi'
    · intro e
      show c.base.m_tags.set _ _ = f.m_tags.set _ _
      rw [h.q, ht, hft, e]

theorem OneSetRel.rel_of_new (n b : Nat) (u u' : Nat → Nat) (hn : 1 ≤ n) (hn32 : n < 2 ^ 32) :
    OneSetRel n b (SetAssoCache.new 0 b n u) (FullAssoCache.new n b u') ∧
    ((∀ i < n, u i = u' i) →
      (SetAssoCache.new 0 b n u).base.m_tags = (FullAssoCache.new n b u').m_tags) := by
  have hbn : ((1 <<< 0) * n) % 2 ^ 32 = n := by
    rw [Nat.shiftLeft_zero, Nat.one_mul, Nat.mod_eq_of_lt hn32]
  refine ⟨⟨SetAssoCache.sa_WF_new 0 b n u hn (by omega), rfl, rfl, rfl,
    FullAssoCache.fa_WF_new n b u', rfl, rfl, ?_, ?_, ?_⟩, ?_⟩
  · show List.replicate (((1 <<< 0) * n) % 2 ^ 32) false = List.replicate n false
    rw [hbn]
  · show List.range (((1 <<< 0) * n) % 2 ^ 32) = List.range n
    rw [hbn]
  · intro i hi
    exfalso
    have hi' : (List.replicate n false).getD i false = true := hi
    rw [List.getD_eq_getElem?_getD, List.getElem?_replicate] at hi'
    split_ifs at hi' <;> simp at hi'
  · intro hu
    show (List.range (((1 <<< 0) * n) % 2 ^ 32)).map u = (List.range n).map u'
    rw [hbn]
    apply List.map_congr_left
    intro i hi
    exact hu i (List.mem_range.mp hi)

theorem OneSetRel.read_rel1 {n b : Nat} {c : SetAssoCache} {f : CacheModel}
    (h : OneSetRel n b c f) (hn : 1 ≤ n) (hb : b < 32) (a : Nat) :
    (SetAssoCache.access { c with base := c.base.incRdReqs } a).1 =
      (FullAssoCache.access f.incRdReqs a).1 ∧
    OneSetRel n b (SetAssoCache.readReq c a) (FullAssoCache.readReq f a) ∧
    (c.base.m_tags = f.m_tags →
      (SetAssoCache.readReq c a).base.m_tags = (FullAssoCache.readReq f a).m_tags) := by
  obtain ⟨h1, h2, h3⟩ := h.access_rel1 hn hb a
  obtain ⟨s1, s2, s3⟩ := SetAssoCache.sa_readReq_arrays c a
  obtain ⟨d1, d2, d3⟩ := FullAssoCache.fa_readReq_arrays f a
  obtain ⟨f1, f2, f3⟩ := SetAssoCache.sa_readReq_frame c a
  obtain ⟨g1, g2⟩ := FullAssoCache.fa_readReq_frame f a
  refine ⟨?_, ⟨h.wf.readReq_wf a, f1.trans h.sets, f2.trans h.blk, f3.trans h.ass,
    FullAssoCache.fa_WF_readReq h.fwf a, g1.trans h.fbn, g2.trans h.fblk, ?_, ?_, ?_⟩, ?_⟩
  · rw [SetAssoCache.sa_access_incRdReqs, FullAssoCache.fa_access_incRdReqs]
    exact h1
  · rw [s1, d1]
    exact h2.valids
  · rw [s3, d3]
    exact h2.q
  · intro i hi
    rw [s2, d2]
    rw [d1] at hi
    exact h2.tags i hi
  · intro e
    rw [s2, d2]
    exact h3 e

theorem OneSetRel.write_rel1 {n b : Nat} {c : SetAssoCache} {f : CacheModel}
    (h : OneSetRel n b c f) (hn : 1 ≤ n) (hb : b < 32) (a : Nat) :
    (SetAssoCache.access { c with base := c.base.incWrReqs } a).1 =
      (FullAssoCache.access f.incWrReqs a).1 ∧
    OneSetRel n b (SetAssoCache.writeReq c a) (FullAssoCache.writeReq f a) ∧
    (c.base.m_tags = f.m_tags →
      (SetAssoCache.writeReq c a).base.m_tags = (FullAssoCache.writeReq f a).m_tags) := by
  obtain ⟨h1, h2, h3⟩ := h.access_rel1 hn hb a
  obtain ⟨s1, s2, s3⟩ := SetAssoCache.sa_writeReq_arrays c a
  obtain ⟨d1, d2, d3⟩ := FullAssoCache.fa_writeReq_arrays f a
  obtain ⟨f1, f2, f3⟩ := SetAssoCache.sa_writeReq_frame c a
  obtain ⟨g1, g2⟩ := FullAssoCache.fa_writeReq_frame f a
  refine ⟨?_, ⟨h.wf.writeReq_wf a, f1.trans h.sets, f2.trans h.blk, f3.trans h.ass,
    FullAssoCache.fa_WF_writeReq h.fwf a, g1.trans h.fbn, g2.trans h.fblk, ?_, ?_, ?_⟩, ?_⟩
  · rw [SetAssoCache.sa_access_incWrReqs, FullAssoCache.fa_access_incWrReqs]
    exact h1
  · rw [s1, d1]
    exact h2.valids
  · rw [s3, d3]
    exact h2.q
  · intro i hi
    rw [s2, d2]
    rw [d1] at hi
    exact h2.tags i hi
  · intro e
    rw [s2, d2]
    exact h3 e

theorem OneSetRel.run_rel1 {n b : Nat} {c : SetAssoCache} {f : CacheModel}
    (h : OneSetRel n b c f) (hn : 1 ≤ n) (hb : b < 32) (tr : List MemReq) :
    (SetAssoCache.run c tr).1 = (FullAssoCache.run f tr).1 ∧
    OneSetRel n b (SetAssoCache.run c tr).2 (FullAssoCache.run f tr).2 ∧
    (c.base.m_tags = f.m_tags →
      (SetAssoCache.run c tr).2.base.m_tags = (FullAssoCache.run f tr).2.m_tags) := by
  induction tr generalizing c f with
  | nil => exact ⟨rfl, h, fun e => e⟩
  | cons r t ih =>
    cases r with
    | read a =>
      obtain ⟨h1, h2, h3⟩ := h.read_rel1 hn hb a
      obtain ⟨i1, i2, i3⟩ := ih h2
      refine ⟨?_, i2, fun e => i3 (h3 e)⟩
      show (SetAssoCache.access { c with base := c.base.incRdReqs } a).1 ::
          (SetAssoCache.run (SetAssoCache.readReq c a) t).1 =
        (FullAssoCache.access f.incRdReqs a).1 ::
          (FullAssoCache.run (FullAssoCache.readReq f a) t).1
      rw [h1, i1]
    | write a =>
      obtain ⟨h1, h2, h3⟩ := h.write_rel1 hn hb a
      obtain ⟨i1, i2, i3⟩ := ih h2
      refine ⟨?_, i2, fun e => i3 (h3 e)⟩
      show (SetAssoCache.access { c with base := c.base.incWrReqs } a).1 ::
          (SetAssoCache.run (SetAssoCache.writeReq c a) t).1 =
        (FullAssoCache.access f.incWrReqs a).1 ::
          (FullAssoCache.run (FullAssoCache.writeReq f a) t).1
      rw [h1, i1]

/-- C21 (set-associative with one set equals fully-associative). For every
`n >= 1` (a `UINT32`, so `n < 2^32`), every block-size exponent `b < 32` and
every finite trace of read/write requests, a freshly constructed
`SetAssoCache(0, b, n)` and a freshly constructed `FullAssoCache(n, b)` return
the same hit/miss outcome on every request and, after the trace (hence after
each of its prefixes), have the same valid flags, the same replacement queue
and the same tag in every valid slot; when the two tag arrays start from the
same uninitialised contents, the whole tag arrays are the same. -/
theorem C21_one_set_set_asso_eq_full_asso (n b : Nat) (u u' : Nat → Nat) (tr : List MemReq)
    (hn : 1 ≤ n) (hn32 : n < 2 ^ 32) (hb : b < 32) :
    (SetAssoCache.run (SetAssoCache.new 0 b n u) tr).1 =
      (FullAssoCache.run (FullAssoCache.new n b u') tr).1 ∧
    (SetAssoCache.run (SetAssoCache.new 0 b n u) tr).2.base.m_valids =
      (FullAssoCache.run (FullAssoCache.new n b u') tr).2.m_valids ∧
    (SetAssoCache.run (SetAssoCache.new 0 b n u) tr).2.base.m_replace_q =
      (FullAssoCache.run (FullAssoCache.new n b u') tr).2.m_replace_q ∧
    (∀ i, (FullAssoCache.run (FullAssoCache.new n b u') tr).2.m_valids.getD i false = true →
      (SetAssoCache.run (SetAssoCache.new 0 b n u) tr).2.base.m_tags.getD i 0 =
        (FullAssoCache.run (FullAssoCache.new n b u') tr).2.m_tags.getD i 0) ∧
    ((∀ i < n, u i = u' i) →
      (SetAssoCache.run (SetAssoCache.new 0 b n u) tr).2.base.m_tags =
        (FullAssoCache.run (FullAssoCache.new n b u') tr).2.m_tags) := by
  obtain ⟨r0, t0⟩ := OneSetRel.rel_of_new n b u u' hn hn32
  obtain ⟨r1, r2, r3⟩ := r0.run_rel1 hn hb tr
  exact ⟨r1, r2.valids, r2.q, r2.tags, fun hu => r3 (t0 hu)⟩

/-- A concrete instance of C21: one set of 2 ways against 2 fully associative
blocks, block-size exponent 0, on the requests read 0, write 1, read 0, read 2,
write 1 (miss, miss, hit, miss, miss). -/
theorem C21_one_set_set_asso_eq_full_asso_witness :
    (SetAssoCache.run (SetAssoCache.new 0 0 2 (fun _ => 0))
      [MemReq.read 0, MemReq.write 1, MemReq.read 0, MemReq.read 2, MemReq.write 1]).1 =
      [false, false, true, false, false] ∧
    (SetAssoCache.run (SetAssoCache.new 0 0 2 (fun _ => 0))
      [MemReq.read 0, MemReq.write 1, MemReq.read 0, MemReq.read 2, MemReq.write 1]).1 =
    (FullAssoCache.run (FullAssoCache.new 2 0 (fun _ => 0))
      [MemReq.read 0, MemReq.write 1, MemReq.read 0, MemReq.read 2, MemReq.write 1]).1 ∧
    (SetAssoCache.run (SetAssoCache.new 0 0 2 (fun _ => 0))
      [MemReq.read 0, MemReq.write 1, MemReq.read 0, MemReq.read 2, MemReq.write 1]
      ).2.base.m_tags =
    (FullAssoCache.run (FullAssoCache.new 2 0 (fun _ => 0))
      [MemReq.read 0, MemReq.write 1, MemReq.read 0, MemReq.read 2, MemReq.write 1]).2.m_tags :=
  ⟨by decide,
   (C21_one_set_set_asso_eq_full_asso 2 0 (fun _ => 0) (fun _ => 0)
    [MemReq.read 0, MemReq.write 1, MemReq.read 0, MemReq.read 2, MemReq.write 1]
    (by decide) (by decide) (by decide)).1,
   (C21_one_set_set_asso_eq_full_asso 2 0 (fun _ => 0) (fun _ => 0)
    [MemReq.read 0, MemReq.write 1, MemReq.read 0, MemReq.read 2, MemReq.write 1]
    (by decide) (by decide) (by decide)).2.2.2.2 (fun _ _ => rfl)⟩

/-- A block number is determined by its low `k` bits and the bits above. -/
theorem split_inj (X Y k : Nat) (h1 : X % 2 ^ k = Y % 2 ^ k) (h2 : X >>> k = Y >>> k) :
    X = Y := by
  rw [Nat.shiftRight_eq_div_pow, Nat.shiftRight_eq_div_pow] at h2
  rw [← Nat.div_add_mod X (2 ^ k), ← Nat.div_add_mod Y (2 ^ k), h1, h2]

theorem exists_getD_of_mem_take (as : List Nat) (i x : Nat) (hx : x ∈ as.take i) :
    ∃ j < i, as.getD j 0 = x := by
  obtain ⟨j, hj⟩ := List.mem_iff_getElem?.mp hx
  rw [List.getElem?_take] at hj
  split_ifs at hj with hji
  refine ⟨j, hji, ?_⟩
  rw [List.getD_eq_getElem?_getD, hj]
  rfl

theorem noFalseHits_of_prefix (b : Nat) (as : List Nat) (flags : List Bool)
    (h : ∀ i < as.length, flags.getD i false = true →
      ∃ x ∈ as.take i, x >>> b = as.getD i 0 >>> b) : NoFalseHits b as flags := by
  intro i hi hf
  obtain ⟨x, hx, hxb⟩ := h i hi hf
  obtain ⟨j, hj, e⟩ := exists_getD_of_mem_take as i x hx
  exact ⟨j, hj, by rw [e]; exact hxb⟩

/-- The first access to a block number is a miss. -/
theorem NoFalseHits.first_miss {b : Nat} {as : List Nat} {flags : List Bool}
    (h : NoFalseHits b as flags) (i : Nat) (hi : i < as.length)
    (hnew : ∀ j < i, as.getD j 0 >>> b ≠ as.getD i 0 >>> b) : flags.getD i false = false := by
  cases hf : flags.getD i false with
  | false => rfl
  | true =>
    obtain ⟨j, hj, e⟩ := h i hi hf
    exact absurd e (hnew j hj)

namespace FullAssoCache

theorem SeenInv.fa_seen_step {n b : Nat} {c : CacheModel} {seen : List Nat}
    (h : SeenInv n b c seen) (hn : 1 ≤ n) (a : Nat) :
    ((access c a).1 = true → ∃ x ∈ seen, x >>> b = a >>> b) ∧
    SeenInv n b (access c a).2 (a :: seen) := by
  have htag : getTag c a = a >>> b := by simp [getTag, h.blk]
  have hwf' := fa_WF_access h.wf a
  cases hl : lookup c a with
  | some i =>
    obtain ⟨hi, hti, hvi⟩ := lookup_some hl
    rw [access_hit h.wf hl] at hwf' ⊢
    refine ⟨fun _ => ?_, hwf', h.bn, h.blk, ?_⟩
    · obtain ⟨x, hx, e⟩ := h.tags i hvi
      exact ⟨x, hx, by rw [← e, hti, htag]⟩
    · intro j hj
      obtain ⟨x, hx, e⟩ := h.tags j hj
      exact ⟨x, List.mem_cons_of_mem a hx, e⟩
  | none =>
    have hbn1 : 1 ≤ c.m_block_num := by rw [h.bn]; exact hn
    have hv : c.m_replace_q.getD 0 0 < c.m_block_num := by
      apply (h.wf.mem_q _).mp
      apply getD_mem
      rw [h.wf.q_len]
      omega
    rw [access_miss h.wf hbn1 hl] at hwf' ⊢
    refine ⟨fun hc => (by cases hc), hwf', h.bn, h.blk, ?_⟩
    intro j hj
    have hj' : (c.m_valids.set (c.m_replace_q.getD 0 0) true).getD j false = true := hj
    show ∃ x ∈ a :: seen, (c.m_tags.set (c.m_replace_q.getD 0 0) (getTag c a)).getD j 0 = x >>> b
    by_cases hjv : j = c.m_replace_q.getD 0 0
    · refine ⟨a, List.mem_cons_self a seen, ?_⟩
      rw [hjv, getD_set_self _ _ _ _ (by rw [h.wf.tags_len]; exact hv), htag]
    · rw [getD_set_ne _ _ _ _ _ hjv] at hj' ⊢
      obtain ⟨x, hx, e⟩ := h.tags j hj'
      exact ⟨x, List.mem_cons_of_mem a hx, e⟩

theorem SeenInv.fa_seen_accesses {n b : Nat} {c : CacheModel} {seen : List Nat}
    (h : SeenInv n b c seen) (hn : 1 ≤ n) (as : List Nat) :
    SeenInv n b (accesses c as).2 (as.reverse ++ seen) := by
  induction as generalizing c seen with
  | nil => exact h
  | cons a t ih =>
    have := ih (h.fa_seen_step hn a).2
    rw [List.reverse_cons, List.append_assoc]
    exact this

theorem fa_seen_new (n b : Nat) (u : Nat → Nat) : SeenInv n b (new n b u) [] := by
  refine ⟨fa_WF_new n b u, rfl, rfl, ?_⟩
  intro i hi
  exfalso
  have hi' : (List.replicate n false).getD i false = true := hi
  rw [List.getD_eq_getElem?_getD, List.getElem?_replicate] at hi'
  split_ifs at hi' <;> simp at hi'

theorem fa_no_false_hits (n b : Nat) (u : Nat → Nat) (hn : 1 ≤ n) (as : List Nat) :
    NoFalseHits b as (accesses (new n b u) as).1 := by
  apply noFalseHits_of_prefix
  intro i hi hf
  rw [accesses_getD _ as i hi] at hf
  have hinv := (fa_seen_new n b u).fa_seen_accesses hn (as.take i)
  obtain ⟨x, hx, e⟩ := (hinv.fa_seen_step hn (as.getD i 0)).1 hf
  rw [List.append_nil, List.mem_reverse] at hx
  exact ⟨x, hx, e⟩

end FullAssoCache

namespace DirectMapCache

theorem dm_accesses_append (c : CacheModel) (l1 l2 : List Nat) :
    accesses c (l1 ++ l2) =
      ((accesses c l1).1 ++ (accesses (accesses c l1).2 l2).1,
        (accesses (accesses c l1).2 l2).2) := by
  induction l1 generalizing c with
  | nil => rfl
  | cons a t ih =>
    show ((access c a).1 :: (accesses (access c a).2 (t ++ l2)).1,
      (accesses (access c a).2 (t ++ l2)).2) = _
    rw [ih]
    rfl

theorem dm_length_accesses (c : CacheModel) (as : List Nat) :
    (accesses c as).1.length = as.length := by
  induction as generalizing c with
  | nil => rfl
  | cons a t ih =>
    show ((access c a).1 :: (accesses (access c a).2 t).1).length = _
    rw [List.length_cons, ih, List.length_cons]

theorem dm_accesses_getD (c : CacheModel) (as : List Nat) (i : Nat) (hi : i < as.length) :
    (accesses c as).1.getD i false = (access (accesses c (as.take i)).2 (as.getD i 0)).1 := by
  have hsplit : as = as.take i ++ as.getD i 0 :: as.drop (i + 1) := by
    rw [List.getD_eq_getElem?_getD, List.getElem?_eq_getElem hi, Option.getD_some,
      List.getElem_cons_drop, List.take_append_drop]
  have hlen : (accesses c (as.take i)).1.length = i := by
    rw [dm_length_accesses, List.length_take]
    omega
  conv_lhs => rw [hsplit, dm_accesses_append]
  show ((accesses c (as.take i)).1 ++
    (access (accesses c (as.take i)).2 (as.getD i 0)).1 ::
      (accesses (access (accesses c (as.take i)).2 (as.getD i 0)).2 (as.drop (i + 1))).1).getD
        i false = _
  rw [List.getD_eq_getElem?_getD, List.getElem?_append_right (by omega), hlen, Nat.sub_self]
  simp

/-- Index and tag of an address in a cache of `2^k` blocks, in terms of the
block number `a >> b`. -/
theorem dm_split_norm (c : CacheModel) (k b : Nat) (hbn : c.m_block_num = 2 ^ k)
    (hblk : c.m_blksz_log = b) (hbk : b + k < 32) (a : Nat) :
    getBlk_num c a = (a >>> b) % 2 ^ k ∧ getTag c a = (a >>> b) >>> k := by
  have hk : k < 32 := by omega
  have hpow : 2 ^ k < 2 ^ 32 := Nat.pow_lt_pow_right (by decide) hk
  have hpos : 0 < 2 ^ k := Nat.pow_pos (by decide)
  have e2 : (2 ^ k + 2 ^ 32 - 1) % 2 ^ 32 = 2 ^ k - 1 := by omega
  unfold getBlk_num getTag
  rw [hbn, hblk, Nat.log2_two_pow, e2, Nat.and_pow_two_sub_one_eq_mod,
    Nat.mod_eq_of_lt (show b + k < 2 ^ 32 by omega), Nat.shiftRight_add]
  exact ⟨Eq.refl _, Eq.refl _⟩

theorem SeenInv.dm_seen_step {k b : Nat} {c : CacheModel} {seen : List Nat}
    (h : SeenInv k b c seen) (hbk : b + k < 32) (a : Nat) :
    ((access c a).1 = true → ∃ x ∈ seen, x >>> b = a >>> b) ∧
    SeenInv k b (access c a).2 (a :: seen) := by
  obtain ⟨hidx, htag⟩ := dm_split_norm c k b h.bn h.blk hbk a
  have hwf' := dm_WF_access h.wf a
  have hpos : 0 < 2 ^ k := Nat.pow_pos (by decide)
  have hlt : getBlk_num c a < c.m_tags.length := by
    rw [h.wf.tags_len, h.bn, hidx]
    exact Nat.mod_lt _ hpos
  rw [dm_access_eq] at hwf' ⊢
  by_cases hP : c.m_tags.getD (getBlk_num c a) 0 = getTag c a ∧
      c.m_valids.getD (getBlk_num c a) false = true
  · rw [if_pos hP] at hwf' ⊢
    refine ⟨fun _ => ?_, hwf', h.bn, h.blk, ?_⟩
    · obtain ⟨x, hx, e1, e2⟩ := h.tags _ hP.2
      refine ⟨x, hx, split_inj _ _ k ?_ ?_⟩
      · rw [e1, hidx]
      · rw [← e2, hP.1, htag]
    · intro j hj
      obtain ⟨x, hx, e⟩ := h.tags j hj
      exact ⟨x, List.mem_cons_of_mem a hx, e⟩
  · rw [if_neg hP] at hwf' ⊢
    refine ⟨fun hc => (by cases hc), hwf', h.bn, h.blk, ?_⟩
    intro j hj
    have hj' : (c.m_valids.set (getBlk_num c a) true).getD j false = true := hj
    show ∃ x ∈ a :: seen, (x >>> b) % 2 ^ k = j ∧
      (c.m_tags.set (getBlk_num c a) (getTag c a)).getD j 0 = (x >>> b) >>> k
    by_cases hjv : j = getBlk_num c a
    · refine ⟨a, List.mem_cons_self a seen, ?_, ?_⟩
      · rw [hjv, hidx]
      · rw [hjv, getD_set_self _ _ _ _ hlt, htag]
    · rw [getD_set_ne _ _ _ _ _ hjv] at hj' ⊢
      obtain ⟨x, hx, e⟩ := h.tags j hj'
      exact ⟨x, List.mem_cons_of_mem a hx, e⟩

theorem SeenInv.dm_seen_accesses {k b : Nat} {c : CacheModel} {seen : List Nat}
    (h : SeenInv k b c seen) (hbk : b + k < 32) (as : List Nat) :
    SeenInv k b (accesses c as).2 (as.reverse ++ seen) := by
  induction as generalizing c seen with
  | nil => exact h
  | cons a t ih =>
    have := ih (h.dm_seen_step hbk a).2
    rw [List.reverse_cons, List.append_assoc]
    exact this

theorem dm_seen_new (k b : Nat) (u : Nat → Nat) : SeenInv k b (new (2 ^ k) b u) [] := by
  refine ⟨dm_WF_new _ b u, rfl, rfl, ?_⟩
  intro i hi
  exfalso
  have hi' : (List.replicate (2 ^ k) false).getD i false = true := hi
  rw [List.getD_eq_getElem?_getD, List.getElem?_replicate] at hi'
  split_ifs at hi' <;> simp at hi'

theorem dm_no_false_hits (k b : Nat) (u : Nat → Nat) (hbk : b + k < 32) (as : List Nat) :
    NoFalseHits b as (accesses (new (2 ^ k) b u) as).1 := by
  apply noFalseHits_of_prefix
  intro i hi hf
  rw [dm_accesses_getD _ as i hi] at hf
  have hinv := (dm_seen_new k b u).dm_seen_accesses hbk (as.take i)
  obtain ⟨x, hx, e⟩ := (hinv.dm_seen_step hbk (as.getD i 0)).1 hf
  rw [List.append_nil, List.mem_reverse] at hx
  exact ⟨x, hx, e⟩

end DirectMapCache

namespace SetAssoCache

theorem sa_length_accesses (c : SetAssoCache) (as : List Nat) :
    (accesses c as).1.length = as.length := by
  induction as generalizing c with
  | nil => rfl
  | cons a t ih =>
    show ((access c a).1 :: (accesses (access c a).2 t).1).length = _
    rw [List.length_cons, ih, List.length_cons]

theorem sa_accesses_getD (c : SetAssoCache) (as : List Nat) (i : Nat) (hi : i < as.length) :
    (accesses c as).1.getD i false = (access (accesses c (as.take i)).2 (as.getD i 0)).1 := by
  have hsplit : as = as.take i ++ as.getD i 0 :: as.drop (i + 1) := by
    rw [List.getD_eq_getElem?_getD, List.getElem?_eq_getElem hi, Option.getD_some,
      List.getElem_cons_drop, List.take_append_drop]
  have hlen : (accesses c (as.take i)).1.length = i := by
    rw [sa_length_accesses, List.length_take]
    omega
  conv_lhs => rw [hsplit, sa_accesses_append]
  show ((accesses c (as.take i)).1 ++
    (access (accesses c (as.take i)).2 (as.getD i 0)).1 ::
      (accesses (access (accesses c (as.take i)).2 (as.getD i 0)).2 (as.drop (i + 1))).1).getD
        i false = _
  rw [List.getD_eq_getElem?_getD, List.getElem?_append_right (by omega), hlen, Nat.sub_self]
  simp

/-- Set index and tag of an address in a cache of `2^k` sets, in terms of the
block number `a >> b`. -/
theorem sa_split_norm (c : SetAssoCache) (k b : Nat) (hsets : c.m_sets_log = k)
    (hblk : c.m_blksz_log = b) (hbk : b + k < 32) (a : Nat) :
    getSet_num c a = (a >>> b) % 2 ^ k ∧ getTag c a = (a >>> b) >>> k := by
  have hk : k < 32 := by omega
  have hpow : 2 ^ k < 2 ^ 32 := Nat.pow_lt_pow_right (by decide) hk
  have e1 : (2 ^ k - 1) % 2 ^ 32 = 2 ^ k - 1 := Nat.mod_eq_of_lt (by omega)
  unfold getSet_num getTag
  rw [hsets, hblk, Nat.one_shiftLeft, e1, Nat.and_pow_two_sub_one_eq_mod,
    Nat.mod_eq_of_lt (show b + k < 2 ^ 32 by omega), Nat.shiftRight_add]
  exact ⟨Eq.refl _, Eq.refl _⟩

theorem SeenInv.sa_seen_step {k b : Nat} {c : SetAssoCache} {seen : List Nat}
    (h : SeenInv k b c seen) (hbk : b + k < 32) (a : Nat) :
    ((access c a).1 = true → ∃ x ∈ seen, x >>> b = a >>> b) ∧
    SeenInv k b (access c a).2 (a :: seen) := by
  obtain ⟨hidx, htag⟩ := sa_split_norm c k b h.sets h.blk hbk a
  have hs := h.wf.getSet_num_lt a
  have hwf' := h.wf.sa_step a
  obtain ⟨l1, l2, l3⟩ := h.wf.seg_len hs
  have hg : FullAssoCache.getTag (view c (getSet_num c a)) (getTag c a) = getTag c a :=
    Nat.shiftRight_zero
  rw [h.wf.sa_access_eq a] at hwf' ⊢
  cases hf : FullAssoCache.lookup (view c (getSet_num c a)) (getTag c a) with
  | some i =>
    obtain ⟨hi, hti, hvi⟩ := FullAssoCache.lookup_some hf
    have hi' : i < c.m_ass := hi
    have hti' : c.base.m_tags.getD (getSet_num c a * c.m_ass + i) 0 = getTag c a := by
      rw [← getD_seg _ _ _ _ _ hi', ← hg]
      exact hti
    have hvi' : c.base.m_valids.getD (getSet_num c a * c.m_ass + i) false = true := by
      rw [← getD_seg _ _ _ _ _ hi']
      exact hvi
    have hdiv : (getSet_num c a * c.m_ass + i) / c.m_ass = getSet_num c a :=
      Nat.div_eq_of_lt_le (by omega) (by rw [Nat.succ_mul]; omega)
    rw [hf] at hwf'
    refine ⟨fun _ => ?_, hwf', h.sets, h.blk, ?_⟩
    · obtain ⟨x, hx, e1, e2⟩ := h.tags _ hvi'
      refine ⟨x, hx, split_inj _ _ k ?_ ?_⟩
      · rw [e1, hdiv, hidx]
      · rw [← e2, hti', htag]
    · intro j hj
      obtain ⟨x, hx, e⟩ := h.tags j hj
      exact ⟨x, List.mem_cons_of_mem a hx, e⟩
  | none =>
    obtain ⟨v1, v2⟩ := h.wf.victim_mem hs
    have hdiv : c.base.m_replace_q.getD (getSet_num c a * c.m_ass) 0 / c.m_ass =
        getSet_num c a :=
      Nat.div_eq_of_lt_le v1 (by rw [Nat.succ_mul]; exact v2)
    rw [hf] at hwf'
    refine ⟨fun hc => (by cases hc), hwf', h.sets, h.blk, ?_⟩
    intro j hj
    have hj' : (c.base.m_valids.set (c.base.m_replace_q.getD (getSet_num c a * c.m_ass) 0)
        true).getD j false = true := hj
    show ∃ x ∈ a :: seen, (x >>> b) % 2 ^ k = j / c.m_ass ∧
      (c.base.m_tags.set (c.base.m_replace_q.getD (getSet_num c a * c.m_ass) 0)
        (getTag c a)).getD j 0 = (x >>> b) >>> k
    by_cases hjv : j = c.base.m_replace_q.getD (getSet_num c a * c.m_ass) 0
    · refine ⟨a, List.mem_cons_self a seen, ?_, ?_⟩
      · rw [hjv, hdiv, hidx]
      · rw [hjv, getD_set_self _ _ _ _ (by omega), htag]
    · rw [getD_set_ne _ _ _ _ _ hjv] at hj' ⊢
      obtain ⟨x, hx, e⟩ := h.tags j hj'
      exact ⟨x, List.mem_cons_of_mem a hx, e⟩

theorem SeenInv.sa_seen_accesses {k b : Nat} {c : SetAssoCache} {seen : List Nat}
    (h : SeenInv k b c seen) (hbk : b + k < 32) (as : List Nat) :
    SeenInv k b (accesses c as).2 (as.reverse ++ seen) := by
  induction as generalizing c seen with
  | nil => exact h
  | cons a t ih =>
    have := ih (h.sa_seen_step hbk a).2
    rw [List.reverse_cons, List.append_assoc]
    exact this

theorem sa_seen_new (k b ass : Nat) (u : Nat → Nat) (hass : 1 ≤ ass)
    (hfit : 2 ^ k * ass < 2 ^ 32) : SeenInv k b (new k b ass u) [] := by
  refine ⟨sa_WF_new k b ass u hass hfit, rfl, rfl, ?_⟩
  intro i hi
  exfalso
  have hi' : (List.replicate (((1 <<< k) * ass) % 2 ^ 32) false).getD i false = true := hi
  rw [List.getD_eq_getElem?_getD, List.getElem?_replicate] at hi'
  split_ifs at hi' <;> simp at hi'

theorem sa_no_false_hits (k b ass : Nat) (u : Nat → Nat) (hass : 1 ≤ ass)
    (hfit : 2 ^ k * ass < 2 ^ 32) (hbk : b + k < 32) (as : List Nat) :
    NoFalseHits b as (accesses (new k b ass u) as).1 := by
  apply noFalseHits_of_prefix
  intro i hi hf
  rw [sa_accesses_getD _ as i hi] at hf
  have hinv := (sa_seen_new k b ass u hass hfit).sa_seen_accesses hbk (as.take i)
  obtain ⟨x, hx, e⟩ := (hinv.sa_seen_step hbk (as.getD i 0)).1 hf
  rw [List.append_nil, List.mem_reverse] at hx
  exact ⟨x, hx, e⟩

end SetAssoCache

/-- C22 (no false hits). For each cache class started cold with capacity at
least 1 and shift amounts below 32 (`DirectMapCache` with a power-of-two block
count `2^k`, `SetAssoCache` with a block count fitting 32 bits) and every
finite trace of addresses: an access is a hit only if some earlier access of
the trace had the same block number `addr >> m_blksz_log`, so the first access
to any block number is a miss; and two addresses with the same index and the
same tag have the same block number, so that addresses with different block
numbers are never confused by the (tag, index) decomposition. -/
theorem C22_no_false_hits :
    (∀ (n b : Nat) (u : Nat → Nat) (as : List Nat), 1 ≤ n →
      NoFalseHits b as (FullAssoCache.accesses (FullAssoCache.new n b u) as).1 ∧
      ∀ i < as.length, (∀ j < i, as.getD j 0 >>> b ≠ as.getD i 0 >>> b) →
        (FullAssoCache.accesses (FullAssoCache.new n b u) as).1.getD i false = false) ∧
    (∀ (k b : Nat) (u : Nat → Nat) (as : List Nat), b + k < 32 →
      NoFalseHits b as (DirectMapCache.accesses (DirectMapCache.new (2 ^ k) b u) as).1 ∧
      ∀ i < as.length, (∀ j < i, as.getD j 0 >>> b ≠ as.getD i 0 >>> b) →
        (DirectMapCache.accesses (DirectMapCache.new (2 ^ k) b u) as).1.getD i false = false) ∧
    (∀ (k b ass : Nat) (u : Nat → Nat) (as : List Nat), 1 ≤ ass → 2 ^ k * ass < 2 ^ 32 →
      b + k < 32 →
      NoFalseHits b as (SetAssoCache.accesses (SetAssoCache.new k b ass u) as).1 ∧
      ∀ i < as.length, (∀ j < i, as.getD j 0 >>> b ≠ as.getD i 0 >>> b) →
        (SetAssoCache.accesses (SetAssoCache.new k b ass u) as).1.getD i false = false) ∧
    (∀ (c : CacheModel) (x y : Nat), FullAssoCache.getTag c x = FullAssoCache.getTag c y →
      x >>> c.m_blksz_log = y >>> c.m_blksz_log) ∧
    (∀ (c : CacheModel) (k x y : Nat), c.m_block_num = 2 ^ k → c.m_blksz_log + k < 32 →
      DirectMapCache.getBlk_num c x = DirectMapCache.getBlk_num c y →
      DirectMapCache.getTag c x = DirectMapCache.getTag c y →
      x >>> c.m_blksz_log = y >>> c.m_blksz_log) ∧
    (∀ (c : SetAssoCache) (x y : Nat), c.m_blksz_log + c.m_sets_log < 32 →
      SetAssoCache.getSet_num c x = SetAssoCache.getSet_num c y →
      SetAssoCache.getTag c x = SetAssoCache.getTag c y →
      x >>> c.m_blksz_log = y >>> c.m_blksz_log) := by
  refine ⟨?_, ?_, ?_, ?_, ?_, ?_⟩
  · intro n b u as hn
    have h := FullAssoCache.fa_no_false_hits n b u hn as
    exact ⟨h, h.first_miss⟩
  · intro k b u as hbk
    have h := DirectMapCache.dm_no_false_hits k b u hbk as
    exact ⟨h, h.first_miss⟩
  · intro k b ass u as hass hfit hbk
    have h := SetAssoCache.sa_no_false_hits k b ass u hass hfit hbk as
    exact ⟨h, h.first_miss⟩
  · intro c x y h
    exact h
  · intro c k x y hbn hbk h1 h2
    obtain ⟨x1, x2⟩ := DirectMapCache.dm_split_norm c k _ hbn rfl hbk x
    obtain ⟨y1, y2⟩ := DirectMapCache.dm_split_norm c k _ hbn rfl hbk y
    rw [x1, y1] at h1
    rw [x2, y2] at h2
    exact split_inj _ _ k h1 h2
  · intro c x y hbk h1 h2
    obtain ⟨x1, x2⟩ := SetAssoCache.sa_split_norm c _ _ rfl rfl hbk x
    obtain ⟨y1, y2⟩ := SetAssoCache.sa_split_norm c _ _ rfl rfl hbk y
    rw [x1, y1] at h1
    rw [x2, y2] at h2
    exact split_inj _ _ _ h1 h2

/-- A concrete instance of C22: the trace 0, 64, 0, 256, 64 with 64-byte blocks
on a cold 2-block fully associative cache, a cold 4-block directly mapped cache
and a cold 2-set 2-way set-associative cache. -/
theorem C22_no_false_hits_witness :
    NoFalseHits 6 [0, 64, 0, 256, 64]
      (FullAssoCache.accesses (FullAssoCache.new 2 6 (fun _ => 0)) [0, 64, 0, 256, 64]).1 ∧
    NoFalseHits 6 [0, 64, 0, 256, 64]
      (DirectMapCache.accesses (DirectMapCache.new (2 ^ 2) 6 (fun _ => 0))
        [0, 64, 0, 256, 64]).1 ∧
    NoFalseHits 6 [0, 64, 0, 256, 64]
      (SetAssoCache.accesses (SetAssoCache.new 1 6 2 (fun _ => 0)) [0, 64, 0, 256, 64]).1 ∧
    (FullAssoCache.accesses (FullAssoCache.new 2 6 (fun _ => 0)) [0, 64, 0, 256, 64]).1 =
      [false, false, true, false, false] :=
  ⟨(C22_no_false_hits.1 2 6 (fun _ => 0) [0, 64, 0, 256, 64] (by decide)).1,
   (C22_no_false_hits.2.1 2 6 (fun _ => 0) [0, 64, 0, 256, 64] (by decide)).1,
   (C22_no_false_hits.2.2.1 1 6 2 (fun _ => 0) [0, 64, 0, 256, 64] (by decide) (by decide)
     (by decide)).1,
   by decide⟩

namespace FullAssoCache

/-- What `writeReq` does to the block store from a reachable state: a write
miss stores the tag in the victim slot `m_replace_q[0]` and sets its valid
flag; after the call some valid slot holds the tag of the address, and the
`access` of a following `readReq` returns hit. -/
theorem fa_write_installs {n b : Nat} {u : Nat → Nat} {c : CacheModel}
    (hr : Reachable n b u c) (hn : 1 ≤ n) (a : Nat) :
    ((access c.incWrReqs a).1 = false →
      c.m_replace_q.getD 0 0 < n ∧
      (writeReq c a).m_tags = c.m_tags.set (c.m_replace_q.getD 0 0) (getTag c a) ∧
      (writeReq c a).m_valids = c.m_valids.set (c.m_replace_q.getD 0 0) true) ∧
    (∃ i < n, (writeReq c a).m_valids.getD i false = true ∧
      (writeReq c a).m_tags.getD i 0 = getTag c a) ∧
    (access (writeReq c a).incRdReqs a).1 = true := by
  obtain ⟨hwf, hbn⟩ := hr.fa_wf
  have hn' : 1 ≤ c.m_block_num := by omega
  obtain ⟨w1, w2, _⟩ := fa_writeReq_arrays c a
  obtain ⟨g1, g2⟩ := fa_writeReq_frame c a
  have hpres := fa_lookup_writeReq_self hwf hn' a
  refine ⟨?_, ?_, ?_⟩
  · intro hmiss
    rw [fa_access_incWrReqs, fa_access_fst] at hmiss
    have hnone : lookup c a = none := by
      cases hl : lookup c a with
      | none => rfl
      | some i => rw [hl] at hmiss; simp at hmiss
    have hv : c.m_replace_q.getD 0 0 < c.m_block_num := by
      apply (hwf.mem_q _).mp
      apply getD_mem
      rw [hwf.q_len]
      omega
    rw [w1, w2, access_miss hwf hn' hnone]
    exact ⟨by omega, rfl, rfl⟩
  · cases hl : lookup (writeReq c a) a with
    | none => exact absurd hl hpres
    | some i =>
      obtain ⟨hi, hti, hvi⟩ := lookup_some hl
      refine ⟨i, by omega, hvi, ?_⟩
      rw [hti]
      unfold getTag
      rw [g2]
  · rw [fa_access_incRdReqs, fa_access_fst]
    cases hl : lookup (writeReq c a) a with
    | none => exact absurd hl hpres
    | some i => rfl

end FullAssoCache

namespace DirectMapCache

/-- What `writeReq` does to the block store from a reachable state: a write
miss stores the tag in the slot `getBlk_num(a)` and sets its valid flag; after
the call that slot is valid and holds the tag of the address, and the `access`
of a following `readReq` returns hit. -/
theorem dm_write_installs {n b : Nat} {u : Nat → Nat} {c : CacheModel}
    (hr : Reachable n b u c) (hn : 1 ≤ n) (a : Nat) :
    getBlk_num c a < n ∧
    ((access c.incWrReqs a).1 = false →
      (writeReq c a).m_tags = c.m_tags.set (getBlk_num c a) (getTag c a) ∧
      (writeReq c a).m_valids = c.m_valids.set (getBlk_num c a) true) ∧
    ((writeReq c a).m_valids.getD (getBlk_num c a) false = true ∧
      (writeReq c a).m_tags.getD (getBlk_num c a) 0 = getTag c a) ∧
    (access (writeReq c a).incRdReqs a).1 = true := by
  obtain ⟨hwf, hbn⟩ := hr.dm_wf
  have hn' : 1 ≤ c.m_block_num := by omega
  obtain ⟨w1, w2, _⟩ := dm_writeReq_arrays c a
  obtain ⟨g1, g2⟩ := dm_writeReq_frame c a
  have hslot := slot_after_access hwf hn' a
  have hlt := getBlk_num_lt c a hn'
  refine ⟨by omega, ?_, ?_, ?_⟩
  · intro hmiss
    rw [dm_access_incWrReqs] at hmiss
    rw [w1, w2]
    rw [dm_access_eq] at hmiss ⊢
    by_cases hP : c.m_tags.getD (getBlk_num c a) 0 = getTag c a ∧
        c.m_valids.getD (getBlk_num c a) false = true
    · rw [if_pos hP] at hmiss
      cases hmiss
    · rw [if_neg hP]
      exact ⟨rfl, rfl⟩
  · rw [w1, w2]
    exact ⟨hslot.2, hslot.1⟩
  · rw [dm_access_incRdReqs, dm_access_fst, getBlk_num_congr a g1 g2, dm_getTag_congr a g1 g2,
      w1, w2, hslot.1, hslot.2]
    simp

end DirectMapCache

namespace SetAssoCache

/-- The block `lookup` reports is valid and holds the tag of the address. -/
theorem sa_lookup_some_spec (c : SetAssoCache) (a blk : Nat) (hl : lookup c a = some blk) :
    c.base.m_valids.getD blk false = true ∧ c.base.m_tags.getD blk 0 = getTag c a := by
  unfold lookup at hl
  simp only [Option.map_eq_some'] at hl
  obtain ⟨i, hf, hs⟩ := hl
  have hp := List.find?_some hf
  rw [hs] at hp
  rw [Bool.and_eq_true, beq_iff_eq] at hp
  exact ⟨hp.2, hp.1⟩

/-- What `writeReq` does to the block store from a reachable state: a write
miss stores the tag in the victim slot `m_replace_q[set_num*m_ass]`, a slot of
the set of the address, and sets its valid flag; after the call some valid slot
of that set holds the tag of the address, and the `access` of a following
`readReq` returns hit. -/
theorem sa_write_installs {k b ass : Nat} {u : Nat → Nat} {c : SetAssoCache}
    (hr : Reachable k b ass u c) (hass : 1 ≤ ass) (hfit : 2 ^ k * ass < 2 ^ 32) (a : Nat) :
    ((access { c with base := c.base.incWrReqs } a).1 = false →
      getSet_num c a * ass ≤ c.base.m_replace_q.getD (getSet_num c a * ass) 0 ∧
      c.base.m_replace_q.getD (getSet_num c a * ass) 0 < getSet_num c a * ass + ass ∧
      (writeReq c a).base.m_tags =
        c.base.m_tags.set (c.base.m_replace_q.getD (getSet_num c a * ass) 0) (getTag c a) ∧
      (writeReq c a).base.m_valids =
        c.base.m_valids.set (c.base.m_replace_q.getD (getSet_num c a * ass) 0) true) ∧
    (∃ i, getSet_num c a * ass ≤ i ∧ i < getSet_num c a * ass + ass ∧
      (writeReq c a).base.m_valids.getD i false = true ∧
      (writeReq c a).base.m_tags.getD i 0 = getTag c a) ∧
    (access { writeReq c a with base := (writeReq c a).base.incRdReqs } a).1 = true := by
  have hwf := hr.sa_wf hass hfit
  obtain ⟨hk, ha⟩ := hr.geom
  subst hk ha
  have hs := hwf.getSet_num_lt a
  obtain ⟨w1, w2, _⟩ := sa_writeReq_arrays c a
  obtain ⟨g1, g2, g3⟩ := sa_writeReq_frame c a
  have hwfw := hwf.writeReq_wf a
  have hpres := hwf.sa_lookup_writeReq_self a
  refine ⟨?_, ?_, ?_⟩
  · intro hmiss
    rw [sa_access_incWrReqs] at hmiss
    have hmiss' : (access c a).1 = false := hmiss
    rw [(hwf.access_view a).1] at hmiss'
    obtain ⟨m1, m2⟩ := hwf.miss_arrays a hmiss'
    obtain ⟨v1, v2⟩ := hwf.victim_mem hs
    rw [w1, w2]
    exact ⟨v1, v2, m1, m2⟩
  · cases hl : lookup (writeReq c a) a with
    | none => exact absurd hl hpres
    | some blk =>
      obtain ⟨r1, r2⟩ := hwfw.lookup_range a blk hl
      obtain ⟨s1, s2⟩ := sa_lookup_some_spec _ a blk hl
      rw [getSet_num_congr a g1 g2, g3] at r1 r2
      rw [sa_getTag_congr a g1 g2] at s2
      exact ⟨blk, r1, r2, s1, s2⟩
  · rw [sa_access_incRdReqs, sa_access_fst]
    cases hl : lookup (writeReq c a) a with
    | none => exact absurd hl hpres
    | some i => rfl

end SetAssoCache

/-- C11 (write-allocate). In each of the three cache classes, from any state
and for any address `a`, `writeReq(a)` and `readReq(a)` get the same hit/miss
outcome from `access` and leave the valid flags, the tags and the replacement
queue in the same state.  A write miss installs the block: from every
reachable state (at least one block, resp. one way and a block count that fits
32 bits), when the `access` of `writeReq(a)` misses, the tag of `a` is stored
in the victim slot (`m_replace_q[0]`, `getBlk_num(a)`, resp.
`m_replace_q[set_num*ass]` inside the set of `a`) and its valid flag is set; in
every case a valid slot holds the tag of `a` after `writeReq(a)`, so that a
`readReq(a)` right after it is a hit (its `access` returns hit and `m_rd_hits`
is incremented). -/
theorem C11_write_allocate :
    (∀ (c : CacheModel) (a : Nat),
      (FullAssoCache.access c.incWrReqs a).1 = (FullAssoCache.access c.incRdReqs a).1 ∧
      (FullAssoCache.writeReq c a).m_valids = (FullAssoCache.readReq c a).m_valids ∧
      (FullAssoCache.writeReq c a).m_tags = (FullAssoCache.readReq c a).m_tags ∧
      (FullAssoCache.writeReq c a).m_replace_q = (FullAssoCache.readReq c a).m_replace_q) ∧
    (∀ (c : CacheModel) (a : Nat),
      (DirectMapCache.access c.incWrReqs a).1 = (DirectMapCache.access c.incRdReqs a).1 ∧
      (DirectMapCache.writeReq c a).m_valids = (DirectMapCache.readReq c a).m_valids ∧
      (DirectMapCache.writeReq c a).m_tags = (DirectMapCache.readReq c a).m_tags ∧
      (DirectMapCache.writeReq c a).m_replace_q = (DirectMapCache.readReq c a).m_replace_q) ∧
    (∀ (c : SetAssoCache) (a : Nat),
      (SetAssoCache.access { c with base := c.base.incWrReqs } a).1 =
        (SetAssoCache.access { c with base := c.base.incRdReqs } a).1 ∧
      (SetAssoCache.writeReq c a).base.m_valids = (SetAssoCache.readReq c a).base.m_valids ∧
      (SetAssoCache.writeReq c a).base.m_tags = (SetAssoCache.readReq c a).base.m_tags ∧
      (SetAssoCache.writeReq c a).base.m_replace_q =
        (SetAssoCache.readReq c a).base.m_replace_q) ∧
    (∀ (block_num log_block_size : Nat) (uninit : Nat → Nat) (c : CacheModel) (a : Nat),
      1 ≤ block_num → FullAssoCache.Reachable block_num log_block_size uninit c →
      (FullAssoCache.readReq (FullAssoCache.writeReq c a) a).m_rd_hits =
        ((FullAssoCache.writeReq c a).m_rd_hits + 1) % 2 ^ 64) ∧
    (∀ (block_num log_block_size : Nat) (uninit : Nat → Nat) (c : CacheModel) (a : Nat),
      1 ≤ block_num → DirectMapCache.Reachable block_num log_block_size uninit c →
      (DirectMapCache.readReq (DirectMapCache.writeReq c a) a).m_rd_hits =
        ((DirectMapCache.writeReq c a).m_rd_hits + 1) % 2 ^ 64) ∧
    (∀ (sets_log log_blk_size ass : Nat) (uninit : Nat → Nat) (c : SetAssoCache) (a : Nat),
      1 ≤ ass → 2 ^ sets_log * ass < 2 ^ 32 →
      SetAssoCache.Reachable sets_log log_blk_size ass uninit c →
      (SetAssoCache.readReq (SetAssoCache.writeReq c a) a).base.m_rd_hits =
        ((SetAssoCache.writeReq c a).base.m_rd_hits + 1) % 2 ^ 64) ∧
    (∀ (block_num log_block_size : Nat) (uninit : Nat → Nat) (c : CacheModel) (a : Nat),
      1 ≤ block_num → FullAssoCache.Reachable block_num log_block_size uninit c →
      ((FullAssoCache.access c.incWrReqs a).1 = false →
        c.m_replace_q.getD 0 0 < block_num ∧
        (FullAssoCache.writeReq c a).m_tags =
          c.m_tags.set (c.m_replace_q.getD 0 0) (FullAssoCache.getTag c a) ∧
        (FullAssoCache.writeReq c a).m_valids =
          c.m_valids.set (c.m_replace_q.getD 0 0) true) ∧
      (∃ i < block_num, (FullAssoCache.writeReq c a).m_valids.getD i false = true ∧
        (FullAssoCache.writeReq c a).m_tags.getD i 0 = FullAssoCache.getTag c a) ∧
      (FullAssoCache.access (FullAssoCache.writeReq c a).incRdReqs a).1 = true) ∧
    (∀ (block_num log_block_size : Nat) (uninit : Nat → Nat) (c : CacheModel) (a : Nat),
      1 ≤ block_num → DirectMapCache.Reachable block_num log_block_size uninit c →
      DirectMapCache.getBlk_num c a < block_num ∧
      ((DirectMapCache.access c.incWrReqs a).1 = false →
        (DirectMapCache.writeReq c a).m_tags =
          c.m_tags.set (DirectMapCache.getBlk_num c a) (DirectMapCache.getTag c a) ∧
        (DirectMapCache.writeReq c a).m_valids =
          c.m_valids.set (DirectMapCache.getBlk_num c a) true) ∧
      ((DirectMapCache.writeReq c a).m_valids.getD (DirectMapCache.getBlk_num c a) false = true ∧
        (DirectMapCache.writeReq c a).m_tags.getD (DirectMapCache.getBlk_num c a) 0 =
          DirectMapCache.getTag c a) ∧
      (DirectMapCache.access (DirectMapCache.writeReq c a).incRdReqs a).1 = true) ∧
    (∀ (sets_log log_blk_size ass : Nat) (uninit : Nat → Nat) (c : SetAssoCache) (a : Nat),
      1 ≤ ass → 2 ^ sets_log * ass < 2 ^ 32 →
      SetAssoCache.Reachable sets_log log_blk_size ass uninit c →
      ((SetAssoCache.access { c with base := c.base.incWrReqs } a).1 = false →
        SetAssoCache.getSet_num c a * ass ≤
          c.base.m_replace_q.getD (SetAssoCache.getSet_num c a * ass) 0 ∧
        c.base.m_replace_q.getD (SetAssoCache.getSet_num c a * ass) 0 <
          SetAssoCache.getSet_num c a * ass + ass ∧
        (SetAssoCache.writeReq c a).base.m_tags =
          c.base.m_tags.set (c.base.m_replace_q.getD (SetAssoCache.getSet_num c a * ass) 0)
            (SetAssoCache.getTag c a) ∧
        (SetAssoCache.writeReq c a).base.m_valids =
          c.base.m_valids.set (c.base.m_replace_q.getD (SetAssoCache.getSet_num c a * ass) 0)
            true) ∧
      (∃ i, SetAssoCache.getSet_num c a * ass ≤ i ∧
        i < SetAssoCache.getSet_num c a * ass + ass ∧
        (SetAssoCache.writeReq c a).base.m_valids.getD i false = true ∧
        (SetAssoCache.writeReq c a).base.m_tags.getD i 0 = SetAssoCache.getTag c a) ∧
      (SetAssoCache.access
        { SetAssoCache.writeReq c a with base := (SetAssoCache.writeReq c a).base.incRdReqs }
        a).1 = true) := by
  refine ⟨?_, ?_, ?_, ?_, ?_, ?_, ?_, ?_, ?_⟩
  · intro c a
    have hr := FullAssoCache.fa_readReq_arrays c a
    have hw := FullAssoCache.fa_writeReq_arrays c a
    refine ⟨?_, hw.1.trans hr.1.symm, hw.2.1.trans hr.2.1.symm, hw.2.2.trans hr.2.2.symm⟩
    rw [FullAssoCache.fa_access_incWrReqs, FullAssoCache.fa_access_incRdReqs]
  · intro c a
    have hr := DirectMapCache.dm_readReq_arrays c a
    have hw := DirectMapCache.dm_writeReq_arrays c a
    refine ⟨?_, hw.1.trans hr.1.symm, hw.2.1.trans hr.2.1.symm, hw.2.2.trans hr.2.2.symm⟩
    rw [DirectMapCache.dm_access_incWrReqs, DirectMapCache.dm_access_incRdReqs]
  · intro c a
    have hr := SetAssoCache.sa_readReq_arrays c a
    have hw := SetAssoCache.sa_writeReq_arrays c a
    refine ⟨?_, hw.1.trans hr.1.symm, hw.2.1.trans hr.2.1.symm, hw.2.2.trans hr.2.2.symm⟩
    rw [SetAssoCache.sa_access_incWrReqs, SetAssoCache.sa_access_incRdReqs]
  · intro n b u c a hn hr
    exact FullAssoCache.fa_read_after_write_hits hr hn a
  · intro n b u c a hn hr
    exact DirectMapCache.dm_read_after_write_hits hr hn a
  · intro k b ass u c a hass hfit hr
    exact SetAssoCache.sa_read_after_write_hits hr hass hfit a
  · intro n b u c a hn hr
    exact FullAssoCache.fa_write_installs hr hn a
  · intro n b u c a hn hr
    exact DirectMapCache.dm_write_installs hr hn a
  · intro k b ass u c a hass hfit hr
    exact SetAssoCache.sa_write_installs hr hass hfit a

/-- A concrete instance of C11 on cold caches of each class: a read right after
a write to address 5 hits, and the write has installed the block of address 5
in the victim slot (slot 0 of the 2-block fully associative cache,
slot 1 of the 4-block directly mapped cache, slot 2 of the 2-set 2-way
set-associative cache). -/
theorem C11_write_allocate_witness :
    ((FullAssoCache.readReq (FullAssoCache.writeReq (FullAssoCache.new 2 0 (fun _ => 0)) 5) 5
      ).m_rd_hits =
      ((FullAssoCache.writeReq (FullAssoCache.new 2 0 (fun _ => 0)) 5).m_rd_hits + 1) % 2 ^ 64 ∧
    (DirectMapCache.readReq (DirectMapCache.writeReq (DirectMapCache.new 4 0 (fun _ => 0)) 5) 5
      ).m_rd_hits =
      ((DirectMapCache.writeReq (DirectMapCache.new 4 0 (fun _ => 0)) 5).m_rd_hits + 1) % 2 ^ 64 ∧
    (SetAssoCache.readReq (SetAssoCache.writeReq (SetAssoCache.new 1 0 2 (fun _ => 0)) 5) 5
      ).base.m_rd_hits =
      ((SetAssoCache.writeReq (SetAssoCache.new 1 0 2 (fun _ => 0)) 5).base.m_rd_hits + 1)
        % 2 ^ 64) ∧
    ((FullAssoCache.access (FullAssoCache.new 2 0 (fun _ => 0)).incWrReqs 5).1 = false ∧
      (FullAssoCache.new 2 0 (fun _ => 0)).m_replace_q.getD 0 0 = 0 ∧
      (FullAssoCache.writeReq (FullAssoCache.new 2 0 (fun _ => 0)) 5).m_tags =
        (FullAssoCache.new 2 0 (fun _ => 0)).m_tags.set
          ((FullAssoCache.new 2 0 (fun _ => 0)).m_replace_q.getD 0 0)
          (FullAssoCache.getTag (FullAssoCache.new 2 0 (fun _ => 0)) 5) ∧
      (FullAssoCache.writeReq (FullAssoCache.new 2 0 (fun _ => 0)) 5).m_valids =
        (FullAssoCache.new 2 0 (fun _ => 0)).m_valids.set
          ((FullAssoCache.new 2 0 (fun _ => 0)).m_replace_q.getD 0 0) true) ∧
    (DirectMapCache.getBlk_num (DirectMapCache.new 4 0 (fun _ => 0)) 5 = 1 ∧
      (DirectMapCache.writeReq (DirectMapCache.new 4 0 (fun _ => 0)) 5).m_valids.getD
        (DirectMapCache.getBlk_num (DirectMapCache.new 4 0 (fun _ => 0)) 5) false = true) ∧
    ((SetAssoCache.access { SetAssoCache.new 1 0 2 (fun _ => 0) with
        base := (SetAssoCache.new 1 0 2 (fun _ => 0)).base.incWrReqs } 5).1 = false ∧
      (SetAssoCache.new 1 0 2 (fun _ => 0)).base.m_replace_q.getD
        (SetAssoCache.getSet_num (SetAssoCache.new 1 0 2 (fun _ => 0)) 5 * 2) 0 = 2 ∧
      (SetAssoCache.writeReq (SetAssoCache.new 1 0 2 (fun _ => 0)) 5).base.m_valids =
        (SetAssoCache.new 1 0 2 (fun _ => 0)).base.m_valids.set
          ((SetAssoCache.new 1 0 2 (fun _ => 0)).base.m_replace_q.getD
            (SetAssoCache.getSet_num (SetAssoCache.new 1 0 2 (fun _ => 0)) 5 * 2) 0) true) :=
  ⟨⟨C11_write_allocate.2.2.2.1 2 0 (fun _ => 0) _ 5 (by decide) FullAssoCache.Reachable.ctor,
     C11_write_allocate.2.2.2.2.1 4 0 (fun _ => 0) _ 5 (by decide)
       DirectMapCache.Reachable.ctor,
     C11_write_allocate.2.2.2.2.2.1 1 0 2 (fun _ => 0) _ 5 (by decide) (by decide)
       SetAssoCache.Reachable.ctor⟩,
   ⟨by decide, by decide,
     ((C11_write_allocate.2.2.2.2.2.2.1 2 0 (fun _ => 0) _ 5 (by decide)
       FullAssoCache.Reachable.ctor).1 (by decide)).2⟩,
   ⟨by decide,
     (C11_write_allocate.2.2.2.2.2.2.2.1 4 0 (fun _ => 0) _ 5 (by decide)
       DirectMapCache.Reachable.ctor).2.2.1.1⟩,
   ⟨by decide, by decide,
     ((C11_write_allocate.2.2.2.2.2.2.2.2 1 0 2 (fun _ => 0) _ 5 (by decide) (by decide)
       SetAssoCache.Reachable.ctor).1 (by decide)).2.2.2⟩⟩

end CacheSim
